import Mathlib

/-!
# Segregated free-list allocator (`mm.c`)

A shallow embedding of the allocator of `src/mm.c` over a byte-addressed
memory, and the properties of its specification that hold of the code.

* Memory is a map from byte addresses to bytes; `GET`/`PUT` read and write a
  4-byte little-endian word, as `*(unsigned int *)p` does on the 32-bit x86
  target the 4-byte link words assume.
* `size_t` and pointers are 32 bits wide: size arithmetic wraps modulo `2^32`
  where the C code computes in `size_t`.
* The null pointer is the address `0`.
* The two list walks (`insert_node`, the fit search of `mm_malloc`) are bounded
  by the number of heap bytes; running out of that bound (`none`) stands for a
  walk that does not terminate on a cyclic list.
-/

namespace MallocLab

/-! ## Constants and macros -/

def ALIGNMENT : Nat := 8
def WSIZE : Nat := 4
def DSIZE : Nat := 8
def CHUNKSIZE : Nat := 64
def LEN : Nat := 20

/-- Number of values of a 32-bit word. -/
def W32 : Nat := 4294967296

/-- `ALIGN(size) = ((size) + (ALIGNMENT - 1)) & ~0x7` in 32-bit `size_t`. -/
def ALIGN (size : Nat) : Nat := ((size + (ALIGNMENT - 1)) % W32) &&& 0xFFFFFFF8

/-- `MAX(x, y) = ((x) > (y) ? (x) : (y))`. -/
def MAX (x y : Nat) : Nat := if x > y then x else y

/-- `PACK(size, alloc) = ((size) | (alloc))`. -/
def PACK (size alloc : Nat) : Nat := size ||| alloc

/-- Byte memory. -/
abbrev Mem := Nat → Nat

/-- `GET(p)`: the little-endian 4-byte word at address `p`. -/
def GET (m : Mem) (p : Nat) : Nat :=
  m p + 256 * m (p + 1) + 65536 * m (p + 2) + 16777216 * m (p + 3)

/-- `PUT(p, val)`: store the low 32 bits of `val` in the 4 bytes at `p`. -/
def PUT (m : Mem) (p val : Nat) : Mem := fun a =>
  if a = p then val % 256
  else if a = p + 1 then val / 256 % 256
  else if a = p + 2 then val / 65536 % 256
  else if a = p + 3 then val / 16777216 % 256
  else m a

/-- `GET_SIZE(p) = GET(p) & ~0x7`. -/
def GET_SIZE (m : Mem) (p : Nat) : Nat := GET m p &&& 0xFFFFFFF8

/-- `GET_ALLOC(p) = GET(p) & 0x1`. -/
def GET_ALLOC (m : Mem) (p : Nat) : Nat := GET m p &&& 1

def HDRP (ptr : Nat) : Nat := ptr - WSIZE

def FTRP (m : Mem) (ptr : Nat) : Nat := ptr + GET_SIZE m (HDRP ptr) - DSIZE

def RIGHT_BLKP (m : Mem) (ptr : Nat) : Nat := ptr + GET_SIZE m (ptr - WSIZE)

def LEFT_BLKP (m : Mem) (ptr : Nat) : Nat := ptr - GET_SIZE m (ptr - DSIZE)

def PRED_PTR (ptr : Nat) : Nat := ptr

def SUCC_PTR (ptr : Nat) : Nat := ptr + WSIZE

def PRED_BLK (m : Mem) (ptr : Nat) : Nat := GET m ptr

def SUCC_BLK (m : Mem) (ptr : Nat) : Nat := GET m (SUCC_PTR ptr)

/-- `SET_PTR(p, ptr)`: store the pointer `ptr` as an unsigned 32-bit word. -/
def SET_PTR (m : Mem) (p ptr : Nat) : Mem := PUT m p ptr

/-- `memcpy(dst, src, n)` on non-overlapping regions. -/
def memcpy (m : Mem) (dst src n : Nat) : Mem := fun a =>
  if dst ≤ a ∧ a < dst + n then m (src + (a - dst)) else m a

/-! ## Allocator state -/

/-- The heap bytes, the host's break and limits, and the two globals of
`mm.c` (`seg_list`, `heap_listp`). -/
structure State where
  mem : Mem
  mem_start_brk : Nat
  mem_brk : Nat
  mem_max_addr : Nat
  seg_list : Nat → Nat
  heap_listp : Nat

/-- Modelled from the spec: the host heap provider `mem_sbrk` (its source,
`memlib.c`, is an external collaborator): extend the high watermark by `incr`
bytes returning the old watermark, or signal failure (`none`, the C value
`(void *)-1`) when the host's limit would be exceeded. -/
def mem_sbrk (s : State) (incr : Nat) : Option (State × Nat) :=
  if s.mem_brk + incr ≤ s.mem_max_addr then
    some ({ s with mem_brk := s.mem_brk + incr }, s.mem_brk)
  else none

/-! ## The segregated index -/

/-- The class loop shared by `insert_node` and `delete_node`:
`while ((idx < LEN - 1) && (size > 1)) { size >>= 1; idx++; }`,
returning the final `(idx, size)`. -/
def class_loop : Nat → Nat → Nat → Nat × Nat
  | 0, idx, size => (idx, size)
  | fuel + 1, idx, size =>
    if idx < LEN - 1 ∧ size > 1 then class_loop fuel (idx + 1) (size >>> 1)
    else (idx, size)

/-- The list walk of `insert_node`:
`while ((next_ptr != NULL) && (size > GET_SIZE(HDRP(next_ptr))))`. -/
def insert_walk (m : Mem) (size : Nat) : Nat → Nat → Nat → Option (Nat × Nat)
  | 0, _, _ => none
  | fuel + 1, prev_ptr, next_ptr =>
    if next_ptr ≠ 0 ∧ size > GET_SIZE m (HDRP next_ptr) then
      insert_walk m size fuel next_ptr (SUCC_BLK m next_ptr)
    else some (prev_ptr, next_ptr)

def insert_node (s : State) (bp size : Nat) : Option State :=
  let r := class_loop LEN 0 size
  let idx := r.1
  let size := r.2
  match insert_walk s.mem size s.mem_brk 0 (s.seg_list idx) with
  | none => none
  | some (prev_ptr, next_ptr) =>
    if next_ptr ≠ 0 then
      if prev_ptr ≠ 0 then
        let m := SET_PTR s.mem (SUCC_PTR bp) next_ptr
        let m := SET_PTR m (PRED_PTR bp) prev_ptr
        let m := SET_PTR m (SUCC_PTR prev_ptr) bp
        let m := SET_PTR m (PRED_PTR next_ptr) bp
        some { s with mem := m }
      else
        let m := SET_PTR s.mem (SUCC_PTR bp) next_ptr
        let m := SET_PTR m (PRED_PTR bp) 0
        let m := SET_PTR m (PRED_PTR next_ptr) bp
        some { s with mem := m, seg_list := Function.update s.seg_list idx bp }
    else
      if prev_ptr ≠ 0 then
        let m := SET_PTR s.mem (SUCC_PTR bp) 0
        let m := SET_PTR m (SUCC_PTR prev_ptr) bp
        let m := SET_PTR m (PRED_PTR bp) prev_ptr
        some { s with mem := m }
      else
        let m := SET_PTR s.mem (SUCC_PTR bp) 0
        let m := SET_PTR m (PRED_PTR bp) 0
        some { s with mem := m, seg_list := Function.update s.seg_list idx bp }

def delete_node (s : State) (bp : Nat) : State :=
  let idx := (class_loop LEN 0 (GET_SIZE s.mem (HDRP bp))).1
  if SUCC_BLK s.mem bp ≠ 0 then
    if PRED_BLK s.mem bp ≠ 0 then
      let m := SET_PTR s.mem (SUCC_PTR (PRED_BLK s.mem bp)) (SUCC_BLK s.mem bp)
      let m := SET_PTR m (PRED_PTR (SUCC_BLK m bp)) (PRED_BLK m bp)
      { s with mem := m }
    else
      let m := SET_PTR s.mem (PRED_PTR (SUCC_BLK s.mem bp)) 0
      { s with mem := m, seg_list := Function.update s.seg_list idx (SUCC_BLK m bp) }
  else
    if PRED_BLK s.mem bp ≠ 0 then
      { s with mem := SET_PTR s.mem (SUCC_PTR (PRED_BLK s.mem bp)) 0 }
    else
      { s with seg_list := Function.update s.seg_list idx 0 }

/-! ## Coalescing, extension, placement -/

def coalesce (s : State) (bp : Nat) : Option (State × Nat) :=
  let is_left_alloc := GET_ALLOC s.mem (HDRP (LEFT_BLKP s.mem bp))
  let is_right_alloc := GET_ALLOC s.mem (HDRP (RIGHT_BLKP s.mem bp))
  let size := GET_SIZE s.mem (HDRP bp)
  if is_left_alloc ≠ 0 ∧ is_right_alloc ≠ 0 then
    some (s, bp)
  else if is_left_alloc ≠ 0 ∧ is_right_alloc = 0 then
    let s := delete_node s bp
    let s := delete_node s (RIGHT_BLKP s.mem bp)
    let size := (size + GET_SIZE s.mem (HDRP (RIGHT_BLKP s.mem bp))) % W32
    let m := PUT s.mem (HDRP bp) (PACK size 0)
    let m := PUT m (FTRP m bp) (PACK size 0)
    (insert_node { s with mem := m } bp size).map (fun s => (s, bp))
  else if is_left_alloc = 0 ∧ is_right_alloc ≠ 0 then
    let s := delete_node s bp
    let s := delete_node s (LEFT_BLKP s.mem bp)
    let size := (size + GET_SIZE s.mem (HDRP (LEFT_BLKP s.mem bp))) % W32
    let m := PUT s.mem (FTRP s.mem bp) (PACK size 0)
    let m := PUT m (HDRP (LEFT_BLKP m bp)) (PACK size 0)
    let bp := LEFT_BLKP m bp
    (insert_node { s with mem := m } bp size).map (fun s => (s, bp))
  else
    let s := delete_node s bp
    let s := delete_node s (LEFT_BLKP s.mem bp)
    let s := delete_node s (RIGHT_BLKP s.mem bp)
    let size := (size + (GET_SIZE s.mem (HDRP (LEFT_BLKP s.mem bp))
      + GET_SIZE s.mem (HDRP (RIGHT_BLKP s.mem bp))) % W32) % W32
    let m := PUT s.mem (HDRP (LEFT_BLKP s.mem bp)) (PACK size 0)
    let m := PUT m (FTRP m (RIGHT_BLKP m bp)) (PACK size 0)
    let bp := LEFT_BLKP m bp
    (insert_node { s with mem := m } bp size).map (fun s => (s, bp))

/-- `extend_heap`; the result pointer `0` is the C `NULL` returned when the
host refuses. -/
def extend_heap (s : State) (words : Nat) : Option (State × Nat) :=
  let asize := ALIGN words
  match mem_sbrk s asize with
  | none => some (s, 0)
  | some (s, bp) =>
    let m := PUT s.mem (HDRP bp) (PACK asize 0)
    let m := PUT m (FTRP m bp) (PACK asize 0)
    let m := PUT m (HDRP (RIGHT_BLKP m bp)) (PACK 0 1)
    match insert_node { s with mem := m } bp asize with
    | none => none
    | some s => coalesce s bp

def place (s : State) (bp asize : Nat) : Option State :=
  let csize := GET_SIZE s.mem (HDRP bp)
  let remainder := (csize + W32 - asize) % W32
  let s := delete_node s bp
  if remainder ≥ DSIZE * 2 then
    let m := PUT s.mem (HDRP bp) (PACK asize 1)
    let m := PUT m (FTRP m bp) (PACK asize 1)
    let bp := RIGHT_BLKP m bp
    let m := PUT m (HDRP bp) (PACK remainder 0)
    let m := PUT m (FTRP m bp) (PACK remainder 0)
    insert_node { s with mem := m } bp remainder
  else
    let m := PUT s.mem (HDRP bp) (PACK csize 1)
    let m := PUT m (FTRP m bp) (PACK csize 1)
    some { s with mem := m }

/-! ## Public operations -/

/-- `mm_init`; the `int` result is `0` on success and `-1` on failure. On a
refused first request `heap_listp` holds `(void *)-1`. -/
def mm_init (s : State) : Option (State × Int) :=
  let s := { s with seg_list := fun _ => 0 }
  match mem_sbrk s (2 * DSIZE) with
  | none => some ({ s with heap_listp := W32 - 1 }, -1)
  | some (s, p) =>
    let m := PUT s.mem p 0
    let m := PUT m (p + 1 * WSIZE) (PACK DSIZE 1)
    let m := PUT m (p + 2 * WSIZE) (PACK DSIZE 1)
    let m := PUT m (p + 3 * WSIZE) (PACK 0 1)
    let s := { s with mem := m, heap_listp := p + DSIZE }
    match extend_heap s CHUNKSIZE with
    | none => none
    | some (s, bp) => if bp = 0 then some (s, -1) else some (s, 0)

/-- The inner walk of the search of `mm_malloc`:
`while ((bp != NULL) && (asize > GET_SIZE(HDRP(bp)))) bp = SUCC_BLK(bp);`. -/
def fit_walk (m : Mem) (asize : Nat) : Nat → Nat → Option Nat
  | 0, _ => none
  | fuel + 1, bp =>
    if bp ≠ 0 ∧ asize > GET_SIZE m (HDRP bp) then fit_walk m asize fuel (SUCC_BLK m bp)
    else some bp

/-- The class loop of the search of `mm_malloc` (`while (idx < LEN) ...`),
returning the final `bp`. -/
def search_loop (s : State) (asize : Nat) : Nat → Nat → Nat → Nat → Option Nat
  | 0, _, _, bp => some bp
  | fuel + 1, idx, searchsize, bp =>
    if idx < LEN then
      if idx = LEN - 1 ∨ (searchsize ≤ 1 ∧ s.seg_list idx ≠ 0) then
        match fit_walk s.mem asize s.mem_brk (s.seg_list idx) with
        | none => none
        | some bp =>
          if bp ≠ 0 then some bp
          else search_loop s asize fuel (idx + 1) (searchsize >>> 1) bp
      else search_loop s asize fuel (idx + 1) (searchsize >>> 1) bp
    else some bp

/-- The adjusted block size of `mm_malloc`:
`if (size <= DSIZE) asize = 2 * DSIZE; else asize = ALIGN(size + DSIZE);`. -/
def adjusted_size (size : Nat) : Nat :=
  if size ≤ DSIZE then 2 * DSIZE else ALIGN ((size + DSIZE) % W32)

def mm_malloc (s : State) (size : Nat) : Option (State × Nat) :=
  match (if s.heap_listp = 0 then (mm_init s).map Prod.fst else some s) with
  | none => none
  | some s =>
    if size = 0 then some (s, 0)
    else
      let asize := adjusted_size size
      match search_loop s asize (LEN + 1) 0 asize 0 with
      | none => none
      | some bp =>
        if bp = 0 then
          let extendsize := MAX asize CHUNKSIZE
          match extend_heap s extendsize with
          | none => none
          | some (s, bp) =>
            if bp = 0 then some (s, 0)
            else (place s bp asize).map (fun s => (s, bp))
        else (place s bp asize).map (fun s => (s, bp))

def mm_free (s : State) (bp : Nat) : Option State :=
  let size := GET_SIZE s.mem (HDRP bp)
  let m := PUT s.mem (HDRP bp) (PACK size 0)
  let m := PUT m (FTRP m bp) (PACK size 0)
  match insert_node { s with mem := m } bp size with
  | none => none
  | some s => (coalesce s bp).map Prod.fst

/-- The tail of the heap-extension branch of `mm_realloc`:
`delete_node(right)` and the two `PUT`s of `GET_SIZE(HDRP(bp)) + remainder`. -/
def realloc_grow (s : State) (bp right remainder : Nat) : State :=
  let s := delete_node s right
  let m := PUT s.mem (HDRP bp) (PACK ((GET_SIZE s.mem (HDRP bp) + remainder) % W32) 1)
  let m := PUT m (FTRP m bp) (PACK ((GET_SIZE m (HDRP bp) + remainder) % W32) 1)
  { s with mem := m }

/-- The value of `oldsize` that `mm_realloc` passes to `memcpy`:
`oldsize = GET_SIZE(HDRP(bp)); if (size < oldsize) oldsize = size;`. -/
def copy_size (m : Mem) (bp size : Nat) : Nat :=
  let oldsize := GET_SIZE m (HDRP bp)
  if size < oldsize then size else oldsize

/-- The last part of `mm_realloc`: `mm_malloc`, `memcpy` of the old data,
`mm_free` of the old block. -/
def realloc_copy (s : State) (bp size : Nat) : Option (State × Nat) :=
  match mm_malloc s size with
  | none => none
  | some (s, newptr) =>
    if newptr = 0 then some (s, 0)
    else
      let m := memcpy s.mem newptr bp (copy_size s.mem bp size)
      (mm_free { s with mem := m } bp).map (fun s => (s, newptr))

def mm_realloc (s : State) (bp size : Nat) : Option (State × Nat) :=
  if bp = 0 then mm_malloc s size
  else if size = 0 then (mm_free s bp).map (fun s => (s, 0))
  else if size < (GET_SIZE s.mem (HDRP bp) + W32 - DSIZE) % W32 then some (s, bp)
  else
    let right := RIGHT_BLKP s.mem bp
    let size_of_right := GET_SIZE s.mem (HDRP right)
    let is_right_alloc := GET_ALLOC s.mem (HDRP right)
    let asize := (GET_SIZE s.mem (HDRP right) + GET_SIZE s.mem (HDRP bp)) % W32
    if is_right_alloc = 0 ∧ size ≤ (asize + W32 - DSIZE) % W32 then
      let s := delete_node s right
      let m := PUT s.mem (HDRP bp) (PACK asize 1)
      let m := PUT m (FTRP m bp) (PACK asize 1)
      some ({ s with mem := m }, bp)
    else if is_right_alloc = 0 ∧ size_of_right = 0 then
      let remainder := ((GET_SIZE s.mem (HDRP bp) + size_of_right) % W32 + W32 - size) % W32
      -- `remainder` is unsigned: the test `remainder < 0` never succeeds
      if remainder < 0 then
        let extendsize := MAX ((W32 - remainder) % W32) CHUNKSIZE
        match extend_heap s extendsize with
        | none => none
        | some (s, p) =>
          if p = 0 then some (s, 0)
          else some (realloc_grow s bp right ((remainder + extendsize) % W32), bp)
      else some (realloc_grow s bp right remainder, bp)
    else realloc_copy s bp size

/-! ## Abstract view of the heap -/

/-- The class function of the index: the `idx` the class loop ends with. -/
def cls (size : Nat) : Nat := (class_loop LEN 0 size).1

/-- A heap block: payload address, block size (header and footer included) and
allocated flag. -/
structure Blk where
  addr : Nat
  size : Nat
  alloc : Nat

/-- The blocks `bs` lie back to back from payload address `p` up to payload
address `e`, each of a size that is a multiple of 8 and at least 16. -/
def Tiling : Nat → List Blk → Nat → Prop
  | p, [], e => p = e
  | p, b :: bs, e =>
    b.addr = p ∧ b.size % 8 = 0 ∧ 16 ≤ b.size ∧ b.alloc ≤ 1 ∧ Tiling (p + b.size) bs e

/-- Header and footer of block `b` both hold the word `{size, alloc}`. -/
def Stored (m : Mem) (b : Blk) : Prop :=
  GET m (b.addr - 4) = b.size + b.alloc ∧ GET m (b.addr + b.size - 8) = b.size + b.alloc

/-- A doubly linked list segment: starting at pointer `p` with predecessor
`prev`, the successor links visit exactly the payload addresses `l` and end
with the pointer `nxt`; every predecessor word holds the previous node. -/
def Seg (m : Mem) : Nat → Nat → List Nat → Nat → Prop
  | _, p, [], nxt => p = nxt
  | prev, p, b :: l, nxt => p = b ∧ b ≠ 0 ∧ GET m b = prev ∧ Seg m b (GET m (b + 4)) l nxt

/-- Representation invariant: `bs` are the blocks of the heap between prologue
and epilogue and `F k` is the list of class `k`, in list order. -/
structure Rep (s : State) (bs : List Blk) (F : Nat → List Nat) : Prop where
  hl8 : s.heap_listp % 8 = 0
  hl : s.mem_start_brk + 8 ≤ s.heap_listp
  brk : s.mem_brk ≤ s.mem_max_addr
  max : s.mem_max_addr < W32
  pro_h : GET s.mem (s.heap_listp - 4) = 9
  pro_f : GET s.mem s.heap_listp = 9
  epi : GET s.mem (s.mem_brk - 4) = 1
  til : Tiling (s.heap_listp + 8) bs s.mem_brk
  sto : ∀ b ∈ bs, Stored s.mem b
  chn : ∀ k, Seg s.mem 0 (s.seg_list k) (F k) 0
  fre : ∀ k, ∀ p ∈ F k, ∃ b ∈ bs, b.addr = p ∧ b.alloc = 0 ∧ cls b.size = k
  nd : ∀ k, (F k).Nodup

/-- Every free block of the heap is on the list of its class. -/
def Complete (bs : List Blk) (F : Nat → List Nat) : Prop :=
  ∀ b ∈ bs, b.alloc = 0 → b.addr ∈ F (cls b.size)

/-- No two physically adjacent blocks are both free. -/
def NoAdj (bs : List Blk) : Prop :=
  List.Chain' (fun a b => ¬ (a.alloc = 0 ∧ b.alloc = 0)) bs

/-- Byte address `x` lies in the payload of an allocated block of `bs`. -/
def Prot (bs : List Blk) (x : Nat) : Prop :=
  ∃ b ∈ bs, b.alloc = 1 ∧ b.addr ≤ x ∧ x < b.addr + b.size - 8

/-- The full invariant: representation, completeness of the index, coalescing,
and the live pointers are exactly the allocated blocks. -/
def Inv (s : State) (live : List Nat) (bs : List Blk) (F : Nat → List Nat) : Prop :=
  Rep s bs F ∧ Complete bs F ∧ NoAdj bs ∧ ∀ p, p ∈ live ↔ ∃ b ∈ bs, b.addr = p ∧ b.alloc = 1

/-- Byte address `x` is not one of the two link words of a free block. -/
def Outside (bs : List Blk) (x : Nat) : Prop :=
  ∀ b ∈ bs, b.alloc = 0 → x < b.addr ∨ b.addr + 8 ≤ x

/-- No change to memory outside the link words of free blocks, nor to the
host's break and the heap anchor. -/
def Fr (s s2 : State) (bs : List Blk) : Prop :=
  (∀ x, Outside bs x → s2.mem x = s.mem x) ∧ s2.mem_brk = s.mem_brk ∧
    s2.mem_max_addr = s.mem_max_addr ∧ s2.heap_listp = s.heap_listp ∧
    s2.mem_start_brk = s.mem_start_brk

/-- A step of the allocator: the host's parameters and the heap anchor are
kept, the break does not move down, allocated blocks stay and their payload
bytes are unchanged. -/
def Step (s : State) (bs : List Blk) (s2 : State) (bs2 : List Blk) : Prop :=
  s2.heap_listp = s.heap_listp ∧ s2.mem_max_addr = s.mem_max_addr ∧
    s2.mem_start_brk = s.mem_start_brk ∧ s.mem_brk ≤ s2.mem_brk ∧
    (∀ d ∈ bs, d.alloc = 1 → d ∈ bs2) ∧ ∀ x, Prot bs x → s2.mem x = s.mem x

/-- What a caller can rely on for the blocks it still owns: an allocated block
of `bs` other than `bp` is still a block after the call and its payload bytes
are unchanged. -/
def Kept (s : State) (bs : List Blk) (bp : Nat) (s2 : State) (bs2 : List Blk) : Prop :=
  ∀ d ∈ bs, d.alloc = 1 → d.addr ≠ bp →
    d ∈ bs2 ∧ ∀ x, d.addr ≤ x → x < d.addr + d.size - 8 → s2.mem x = s.mem x

/-- The left part of the heap after a merge to the left and the size absorbed. -/
def absorb_left (l : List Blk) : List Blk × Nat :=
  match l.getLast? with
  | some a => if a.alloc = 0 then (l.dropLast, a.size) else (l, 0)
  | none => (l, 0)

/-- The right part of the heap after a merge to the right and the size absorbed. -/
def absorb_right (r : List Blk) : List Blk × Nat :=
  match r with
  | c :: t => if c.alloc = 0 then (t, c.size) else (c :: t, 0)
  | [] => ([], 0)

/-- The free block that results from coalescing `b` between `l` and `r`. -/
def coalesced_blk (l : List Blk) (b : Blk) (r : List Blk) : Blk :=
  { addr := b.addr - (absorb_left l).2,
    size := (absorb_left l).2 + b.size + (absorb_right r).2, alloc := 0 }

/-- The blocks of the heap after coalescing `b` between `l` and `r`. -/
def coalesced (l : List Blk) (b : Blk) (r : List Blk) : List Blk :=
  (absorb_left l).1 ++ coalesced_blk l b r :: (absorb_right r).1

/-- The blocks that replace the free block `b` when `asize` bytes of it are
placed: the allocated block and, when at least 16 bytes remain, the free
remainder. -/
def placed (b : Blk) (asize : Nat) : List Blk :=
  if 16 ≤ b.size - asize then
    [⟨b.addr, asize, 1⟩, ⟨b.addr + asize, b.size - asize, 0⟩]
  else [⟨b.addr, b.size, 1⟩]

/-! ## Reading the heap back -/

/-- Walk the heap from payload address `p`: read the block at `p` from its
header and step to `RIGHT_BLKP(p)`, until a header of size 0 (the epilogue). -/
def walk_heap (m : Mem) : Nat → Nat → List Blk
  | 0, _ => []
  | fuel + 1, p =>
    if GET_SIZE m (HDRP p) = 0 then []
    else ⟨p, GET_SIZE m (HDRP p), GET_ALLOC m (HDRP p)⟩ :: walk_heap m fuel (RIGHT_BLKP m p)

/-- The blocks of the heap, read from the first block after the prologue. -/
def heap_blocks (s : State) : List Blk :=
  walk_heap s.mem s.mem_brk (s.heap_listp + 8)

/-- Follow successor links from pointer `p` until null. -/
def walk_list (m : Mem) : Nat → Nat → List Nat
  | 0, _ => []
  | fuel + 1, p => if p = 0 then [] else p :: walk_list m fuel (SUCC_BLK m p)

/-- The nodes of class list `k`, from `seg_list[k]` along successor links. -/
def class_list (s : State) (k : Nat) : List Nat :=
  walk_list s.mem s.mem_brk (s.seg_list k)

/-! ## Reachable states -/

/-- The live pointers after `mm_realloc(bp, size)` returned `p`. -/
def realloc_live (live : List Nat) (bp size p : Nat) : List Nat :=
  if bp = 0 then (if p = 0 then live else p :: live)
  else if size = 0 then live.filter (fun q => q ≠ bp)
  else if p = 0 then live
  else p :: live.filter (fun q => q ≠ bp)

/-- States reachable from a successful `mm_init` (on an 8-byte aligned break,
within a 32-bit address space) by `mm_malloc`, `mm_free` and `mm_realloc` with
valid arguments, together with the list of live pointers: those returned by
`mm_malloc`/`mm_realloc` and not yet freed. Request sizes are at most
`2^32 - 16`; `mm_free` and `mm_realloc` take live pointers (`mm_realloc` also
the null pointer). -/
inductive Reachable : State → List Nat → Prop
  | init (s0 s : State) : s0.mem_brk % 8 = 0 → s0.mem_start_brk ≤ s0.mem_brk →
      s0.mem_max_addr < W32 → mm_init s0 = some (s, 0) → Reachable s []
  | malloc (s s1 : State) (live : List Nat) (size p : Nat) : Reachable s live →
      size ≤ W32 - 16 → mm_malloc s size = some (s1, p) →
      Reachable s1 (if p = 0 then live else p :: live)
  | free (s s1 : State) (live : List Nat) (bp : Nat) : Reachable s live →
      bp ∈ live → mm_free s bp = some s1 →
      Reachable s1 (live.filter (fun q => q ≠ bp))
  | realloc (s s1 : State) (live : List Nat) (bp size p : Nat) : Reachable s live →
      (bp = 0 ∨ bp ∈ live) → size ≤ W32 - 16 → mm_realloc s bp size = some (s1, p) →
      Reachable s1 (realloc_live live bp size p)

/-! ## Concrete runs -/

/-- An empty heap at address `4096` with room for 4 KiB. -/
def s0 : State :=
  { mem := fun _ => 0, mem_start_brk := 4096, mem_brk := 4096, mem_max_addr := 8192,
    seg_list := fun _ => 0, heap_listp := 0 }

/-- The state after `mm_init` on the empty heap `s0`. -/
def st1 : State :=
  match mm_init s0 with
  | some (s, _) => s
  | none => s0

/-- The state after `mm_malloc(24)` in `st1`; the block returned is at 4112. -/
def st2 : State :=
  match mm_malloc st1 24 with
  | some (s, _) => s
  | none => st1

/-- The state after `mm_malloc(size)` in `s`. -/
def after_malloc (s : State) (size : Nat) : State :=
  match mm_malloc s size with
  | some (s2, _) => s2
  | none => s

/-- The state after `mm_free(bp)` in `s`. -/
def after_free (s : State) (bp : Nat) : State :=
  match mm_free s bp with
  | some s2 => s2
  | none => s

/-- After `mm_init` on `s0`: `A = mm_malloc(16)`, the block at 4112 of size 24. -/
def st3 : State := after_malloc st1 16

/-- Then `B = mm_malloc(16)`, the block at 4136 of size 24; the 16 bytes left
at 4160 are a free block. -/
def st4 : State := after_malloc st3 16

/-- Then `mm_free(A)`. -/
def st5 : State := after_free st4 4112

/-- The search of `mm_malloc` as the specification words it: starting at class
`k`, for `n` classes upward, walk the list of the class to its first block of
size at least `asize`; the first match is the result, null if there is none. -/
def spec_search (s : State) (asize : Nat) : Nat → Nat → Option Nat
  | 0, _ => some 0
  | n + 1, k =>
    match fit_walk s.mem asize s.mem_brk (s.seg_list k) with
    | none => none
    | some bp => if bp ≠ 0 then some bp else spec_search s asize n (k + 1)

/-- After `mm_init` on `s0`: `A = mm_malloc(56)`, the block at 4112 of size 64
that fills the heap; its right neighbour is the epilogue. -/
def st6 : State := after_malloc st1 56

/-- The bytes `coalesce(bp)` takes from the left: the size of the left
physical neighbour when its header has allocated bit 0, and 0 otherwise. -/
def left_absorbed (m : Mem) (bp : Nat) : Nat :=
  if GET_ALLOC m (HDRP (LEFT_BLKP m bp)) = 0 then GET_SIZE m (HDRP (LEFT_BLKP m bp)) else 0

/-- The bytes `coalesce(bp)` takes from the right: the size of the right
physical neighbour when its header has allocated bit 0, and 0 otherwise. -/
def right_absorbed (m : Mem) (bp : Nat) : Nat :=
  if GET_ALLOC m (HDRP (RIGHT_BLKP m bp)) = 0 then GET_SIZE m (HDRP (RIGHT_BLKP m bp)) else 0

/-- The function `mm_realloc` without its heap-extension branch, the block
under `if (!is_right_alloc && !size_of_right)`: what `mm_realloc` computes when
that guard never holds. -/
def mm_realloc_no_grow (s : State) (bp size : Nat) : Option (State × Nat) :=
  if bp = 0 then mm_malloc s size
  else if size = 0 then (mm_free s bp).map (fun s => (s, 0))
  else if size < (GET_SIZE s.mem (HDRP bp) + W32 - DSIZE) % W32 then some (s, bp)
  else
    let right := RIGHT_BLKP s.mem bp
    let is_right_alloc := GET_ALLOC s.mem (HDRP right)
    let asize := (GET_SIZE s.mem (HDRP right) + GET_SIZE s.mem (HDRP bp)) % W32
    if is_right_alloc = 0 ∧ size ≤ (asize + W32 - DSIZE) % W32 then
      let s := delete_node s right
      let m := PUT s.mem (HDRP bp) (PACK asize 1)
      let m := PUT m (FTRP m bp) (PACK asize 1)
      some ({ s with mem := m }, bp)
    else realloc_copy s bp size

/-! ## Proofs -/

theorem and_mask (x : Nat) (h : x < 4294967296) : x &&& 0xFFFFFFF8 = x - x % 8 := by
  have e1 : (0xFFFFFFF8 : Nat) = 2 ^ 3 * (2 ^ 29 - 1) := by norm_num
  have e2 : x - x % 8 = 2 ^ 3 * (x / 8) := by omega
  have e3 : x = 2 ^ 3 * (x / 8) + x % 8 := by omega
  have hq : x / 8 < 2 ^ 29 := by omega
  apply Nat.eq_of_testBit_eq
  intro i
  rw [Nat.testBit_and, e1, e2, Nat.testBit_mul_pow_two, Nat.testBit_mul_pow_two]
  conv_lhs => rw [e3]
  rw [Nat.testBit_mul_pow_two_add _ (by omega : x % 8 < 2 ^ 3)]
  rw [Nat.testBit_two_pow_sub_one]
  by_cases hi : i < 3
  · have h3 : ¬ (i ≥ 3) := by omega
    simp [hi, h3]
  · have h3 : i ≥ 3 := by omega
    rw [if_neg hi]
    by_cases hj : i - 3 < 29
    · simp [hj, h3]
    · have hle : 29 ≤ i - 3 := by omega
      have := Nat.testBit_lt_two_pow (lt_of_lt_of_le hq (Nat.pow_le_pow_right (by norm_num) hle))
      simp [this, h3]

theorem or_bit (sz a : Nat) (h8 : sz % 8 = 0) (ha : a ≤ 1) : sz ||| a = sz + a := by
  have e : sz = 2 ^ 3 * (sz / 8) := by omega
  rw [e, ← Nat.mul_add_lt_is_or (by omega : a < 2 ^ 3)]

theorem GET_PUT_same (m : Mem) (p v : Nat) : GET (PUT m p v) p = v % W32 := by
  simp [GET, PUT, W32]
  omega

theorem PUT_byte_ne (m : Mem) (p v a : Nat) (h : a < p ∨ p + 4 ≤ a) : PUT m p v a = m a := by
  unfold PUT
  rw [if_neg (by omega), if_neg (by omega), if_neg (by omega), if_neg (by omega)]

theorem GET_PUT_ne (m : Mem) (p v q : Nat) (h : q + 4 ≤ p ∨ p + 4 ≤ q) :
    GET (PUT m p v) q = GET m q := by
  unfold GET
  rw [PUT_byte_ne _ _ _ _ (by omega), PUT_byte_ne _ _ _ _ (by omega),
    PUT_byte_ne _ _ _ _ (by omega), PUT_byte_ne _ _ _ _ (by omega)]

/-! ### Tilings -/

theorem Tiling_append {l r : List Blk} {p e : Nat} :
    Tiling p (l ++ r) e ↔ ∃ q, Tiling p l q ∧ Tiling q r e := by
  induction l generalizing p with
  | nil => simp [Tiling]
  | cons b l ih =>
    rw [List.cons_append]
    constructor
    · rintro ⟨h1, h2, h3, h4, h5⟩
      obtain ⟨q, h6, h7⟩ := ih.mp h5
      exact ⟨q, ⟨h1, h2, h3, h4, h6⟩, h7⟩
    · rintro ⟨q, ⟨h1, h2, h3, h4, h5⟩, h6⟩
      exact ⟨h1, h2, h3, h4, ih.mpr ⟨q, h5, h6⟩⟩

theorem Tiling_le {bs : List Blk} {p e : Nat} (h : Tiling p bs e) : p ≤ e := by
  induction bs generalizing p with
  | nil => simp [Tiling] at h; omega
  | cons b l ih =>
    obtain ⟨-, -, -, -, h5⟩ := h
    have := ih h5
    omega

theorem Tiling_mod {bs : List Blk} {p e : Nat} (h : Tiling p bs e) : e % 8 = p % 8 := by
  induction bs generalizing p with
  | nil => simp [Tiling] at h; omega
  | cons b l ih =>
    obtain ⟨-, h2, -, -, h5⟩ := h
    have := ih h5
    omega

theorem Tiling_mem {bs : List Blk} {p e : Nat} (h : Tiling p bs e) {b : Blk} (hb : b ∈ bs) :
    p ≤ b.addr ∧ b.addr + b.size ≤ e ∧ b.size % 8 = 0 ∧ 16 ≤ b.size ∧ b.alloc ≤ 1 ∧
      b.addr % 8 = p % 8 := by
  induction bs generalizing p with
  | nil => simp at hb
  | cons c l ih =>
    obtain ⟨h1, h2, h3, h4, h5⟩ := h
    rcases List.mem_cons.mp hb with rfl | hb
    · have := Tiling_le h5
      refine ⟨by omega, by omega, h2, h3, h4, by omega⟩
    · have := ih h5 hb
      omega

theorem Tiling_pairwise {bs : List Blk} {p e : Nat} (h : Tiling p bs e) :
    bs.Pairwise (fun a b => a.addr + a.size ≤ b.addr) := by
  induction bs generalizing p with
  | nil => exact List.Pairwise.nil
  | cons c l ih =>
    obtain ⟨h1, h2, h3, h4, h5⟩ := h
    refine List.Pairwise.cons ?_ (ih h5)
    intro b hb
    have := Tiling_mem h5 hb
    omega

theorem Tiling_sep {bs : List Blk} {p e : Nat} (h : Tiling p bs e) {a b : Blk}
    (ha : a ∈ bs) (hb : b ∈ bs) :
    a = b ∨ a.addr + a.size ≤ b.addr ∨ b.addr + b.size ≤ a.addr := by
  have hp := Tiling_pairwise h
  have := List.Pairwise.forall_of_forall
    (R := fun a b : Blk => a = b ∨ a.addr + a.size ≤ b.addr ∨ b.addr + b.size ≤ a.addr)
    (l := bs)
    (by intro x y hxy; rcases hxy with h | h | h
        · exact Or.inl h.symm
        · exact Or.inr (Or.inr h)
        · exact Or.inr (Or.inl h))
    (by intro x _; exact Or.inl rfl)
    (hp.imp (by intro x y hxy; exact Or.inr (Or.inl hxy)))
  exact this ha hb

theorem Tiling_addr_inj {bs : List Blk} {p e : Nat} (h : Tiling p bs e) {a b : Blk}
    (ha : a ∈ bs) (hb : b ∈ bs) (hab : a.addr = b.addr) : a = b := by
  rcases Tiling_sep h ha hb with h1 | h1 | h1
  · exact h1
  · have := Tiling_mem h ha; omega
  · have := Tiling_mem h hb; omega

theorem Tiling_split {l r : List Blk} {b : Blk} {p e : Nat} (h : Tiling p (l ++ b :: r) e) :
    Tiling p l b.addr ∧ Tiling (b.addr + b.size) r e ∧ b.size % 8 = 0 ∧ 16 ≤ b.size ∧
      b.alloc ≤ 1 := by
  obtain ⟨q, h1, h2, h3, h4, h5, h6⟩ := Tiling_append.mp h
  subst h2
  exact ⟨h1, h6, h3, h4, h5⟩

/-! ### List segments -/

theorem Seg_congr {m m2 : Mem} {l : List Nat} {prev p nxt : Nat}
    (hf : ∀ b ∈ l, GET m2 b = GET m b ∧ GET m2 (b + 4) = GET m (b + 4))
    (h : Seg m prev p l nxt) : Seg m2 prev p l nxt := by
  induction l generalizing prev p with
  | nil => exact h
  | cons b l ih =>
    obtain ⟨h1, h2, h3, h4⟩ := h
    have hb := hf b (List.mem_cons_self _ _)
    refine ⟨h1, h2, by rw [hb.1]; exact h3, ?_⟩
    rw [hb.2]
    exact ih (fun c hc => hf c (List.mem_cons_of_mem _ hc)) h4

theorem Seg_append {m : Mem} {l1 l2 : List Nat} {prev p nxt : Nat} :
    Seg m prev p (l1 ++ l2) nxt ↔
      ∃ q, Seg m prev p l1 q ∧ Seg m (l1.getLast?.getD prev) q l2 nxt := by
  induction l1 generalizing prev p with
  | nil => simp [Seg]
  | cons b l ih =>
    rw [List.cons_append]
    have e : ((b :: l).getLast?.getD prev) = (l.getLast?.getD b) := by
      cases l with
      | nil => simp
      | cons c l =>
        rw [List.getLast?_cons_cons, List.getLast?_eq_getLast _ (List.cons_ne_nil _ _)]
        simp
    rw [e]
    constructor
    · rintro ⟨h1, h2, h3, h5⟩
      obtain ⟨q, h6, h7⟩ := ih.mp h5
      exact ⟨q, ⟨h1, h2, h3, h6⟩, h7⟩
    · rintro ⟨q, ⟨h1, h2, h3, h5⟩, h6⟩
      exact ⟨h1, h2, h3, ih.mpr ⟨q, h5, h6⟩⟩

theorem Seg_ne_zero {m : Mem} {l : List Nat} {prev p nxt : Nat} (h : Seg m prev p l nxt) :
    ∀ b ∈ l, b ≠ 0 := by
  induction l generalizing prev p with
  | nil => simp
  | cons b l ih =>
    obtain ⟨h1, h2, h3, h4⟩ := h
    intro c hc
    rcases List.mem_cons.mp hc with rfl | hc
    · exact h2
    · exact ih h4 c hc

/-! ### The class loop -/

theorem class_loop_spec (fuel idx size : Nat) (h : 19 ≤ idx + fuel) (hidx : idx ≤ 19) :
    idx ≤ (class_loop fuel idx size).1 ∧ (class_loop fuel idx size).1 ≤ 19 ∧
    (class_loop fuel idx size).2 = size >>> ((class_loop fuel idx size).1 - idx) ∧
    ((class_loop fuel idx size).1 < 19 → (class_loop fuel idx size).2 ≤ 1) ∧
    (idx < (class_loop fuel idx size).1 →
      2 ≤ size >>> ((class_loop fuel idx size).1 - idx - 1)) := by
  induction fuel generalizing idx size with
  | zero =>
    have : idx = 19 := by omega
    subst this
    simp [class_loop]
  | succ f ih =>
    unfold class_loop
    by_cases hc : idx < LEN - 1 ∧ size > 1
    · rw [if_pos hc]
      have hlt : idx < 19 := hc.1
      obtain ⟨i1, i2, i3, i4, i5⟩ := ih (idx + 1) (size >>> 1) (by omega) (by omega)
      refine ⟨by omega, i2, ?_, i4, ?_⟩
      · rw [i3, ← Nat.shiftRight_add]
        congr 1
        omega
      · intro _
        by_cases h1 : idx + 1 < (class_loop f (idx + 1) (size >>> 1)).1
        · have := i5 h1
          rw [← Nat.shiftRight_add] at this
          have e : 1 + ((class_loop f (idx + 1) (size >>> 1)).1 - (idx + 1) - 1) =
            (class_loop f (idx + 1) (size >>> 1)).1 - idx - 1 := by omega
          rw [e] at this
          exact this
        · have e : (class_loop f (idx + 1) (size >>> 1)).1 - idx - 1 = 0 := by omega
          rw [e]
          simp
          omega
    · rw [if_neg hc]
      simp only [LEN] at hc
      refine ⟨le_refl _, hidx, by simp, ?_, by simp⟩
      intro h19
      simp only [not_and, not_lt] at hc
      have := hc h19
      omega

theorem cls_le (size : Nat) : cls size ≤ 19 :=
  (class_loop_spec LEN 0 size (by simp [LEN]) (by omega)).2.1

theorem cls_lt (size : Nat) : cls size < LEN := by
  have := cls_le size
  simp [LEN]; omega

/-- The size left over by the class loop never exceeds the size of a block of
the same class: the ordering walk of `insert_node` stops at once. -/
theorem shifted_le {sz sz2 : Nat} (h32 : sz < W32) (h16 : 16 ≤ sz2) (hc : cls sz2 = cls sz) :
    (class_loop LEN 0 sz).2 ≤ sz2 := by
  obtain ⟨-, a2, a3, a4, -⟩ := class_loop_spec LEN 0 sz (by simp [LEN]) (by omega)
  obtain ⟨-, b2, -, -, b5⟩ := class_loop_spec LEN 0 sz2 (by simp [LEN]) (by omega)
  by_cases h : (class_loop LEN 0 sz).1 < 19
  · have := a4 h; omega
  · have e : (class_loop LEN 0 sz).1 = 19 := by omega
    have e2 : (class_loop LEN 0 sz2).1 = 19 := by unfold cls at hc; omega
    rw [e2] at b5
    have h2 := b5 (by omega)
    rw [a3, e]
    simp only [Nat.sub_zero, Nat.shiftRight_eq_div_pow] at h2 ⊢
    simp only [W32] at h32
    norm_num at h2 ⊢
    omega

/-! ### Words -/

theorem dec_size {sz a : Nat} (h8 : sz % 8 = 0) (ha : a ≤ 1) (h : sz + a < W32) :
    (sz + a) &&& 0xFFFFFFF8 = sz := by
  rw [and_mask _ (by simpa [W32] using h)]
  omega

theorem dec_alloc {sz a : Nat} (h8 : sz % 8 = 0) (ha : a ≤ 1) : (sz + a) &&& 1 = a := by
  rw [Nat.and_one_is_mod]
  omega

theorem PACK_eq {sz a : Nat} (h8 : sz % 8 = 0) (ha : a ≤ 1) : PACK sz a = sz + a :=
  or_bit sz a h8 ha

theorem GET_frame {m m2 : Mem} {p : Nat} (h : ∀ x, p ≤ x → x < p + 4 → m2 x = m x) :
    GET m2 p = GET m p := by
  unfold GET
  rw [h p (by omega) (by omega), h (p + 1) (by omega) (by omega),
    h (p + 2) (by omega) (by omega), h (p + 3) (by omega) (by omega)]

theorem Outside_of_block {bs : List Blk} {p e : Nat} (h : Tiling p bs e) {c : Blk}
    (hc : c ∈ bs) {x : Nat} (h1 : c.addr - 4 ≤ x) (h2 : x < c.addr + c.size - 4)
    (h3 : c.alloc = 0 → x < c.addr ∨ c.addr + 8 ≤ x) : Outside bs x := by
  intro b hb hb0
  have hcm := Tiling_mem h hc
  have hbm := Tiling_mem h hb
  rcases Tiling_sep h hb hc with e1 | e1 | e1
  · subst e1; exact h3 hb0
  · omega
  · omega

theorem Outside_low {bs : List Blk} {p e : Nat} (h : Tiling p bs e) {x : Nat} (hx : x < p) :
    Outside bs x := by
  intro b hb _
  have := Tiling_mem h hb
  omega

theorem Outside_high {bs : List Blk} {p e : Nat} (h : Tiling p bs e) {x : Nat}
    (hx : e ≤ x + 8) : Outside bs x := by
  intro b hb _
  have := Tiling_mem h hb
  omega

theorem Rep.size_lt {s : State} {bs : List Blk} {F : Nat → List Nat} (h : Rep s bs F)
    {b : Blk} (hb : b ∈ bs) : b.addr + b.size < W32 := by
  have := Tiling_mem h.til hb
  have := h.brk
  have := h.max
  omega

theorem Rep.get_size {s : State} {bs : List Blk} {F : Nat → List Nat} (h : Rep s bs F)
    {b : Blk} (hb : b ∈ bs) : GET_SIZE s.mem (b.addr - 4) = b.size := by
  have hm := Tiling_mem h.til hb
  have := h.size_lt hb
  unfold GET_SIZE
  rw [(h.sto b hb).1]
  exact dec_size hm.2.2.1 hm.2.2.2.2.1 (by omega)

theorem Rep.get_alloc {s : State} {bs : List Blk} {F : Nat → List Nat} (h : Rep s bs F)
    {b : Blk} (hb : b ∈ bs) : GET_ALLOC s.mem (b.addr - 4) = b.alloc := by
  have hm := Tiling_mem h.til hb
  unfold GET_ALLOC
  rw [(h.sto b hb).1]
  exact dec_alloc hm.2.2.1 hm.2.2.2.2.1

theorem Rep.get_size_ftr {s : State} {bs : List Blk} {F : Nat → List Nat} (h : Rep s bs F)
    {b : Blk} (hb : b ∈ bs) : GET_SIZE s.mem (b.addr + b.size - 8) = b.size := by
  have hm := Tiling_mem h.til hb
  have := h.size_lt hb
  unfold GET_SIZE
  rw [(h.sto b hb).2]
  exact dec_size hm.2.2.1 hm.2.2.2.2.1 (by omega)

/-- A listed pointer is the payload address of a free block of its class. -/
theorem Rep.listed {s : State} {bs : List Blk} {F : Nat → List Nat} (h : Rep s bs F)
    {k q : Nat} (hq : q ∈ F k) :
    ∃ b ∈ bs, b.addr = q ∧ b.alloc = 0 ∧ cls b.size = k ∧ s.heap_listp + 8 ≤ q ∧
      q + 16 ≤ s.mem_brk ∧ q % 8 = 0 := by
  obtain ⟨b, hb, h1, h2, h3⟩ := h.fre k q hq
  have hm := Tiling_mem h.til hb
  have := h.hl8
  exact ⟨b, hb, h1, h2, h3, by omega, by omega, by omega⟩

/-- Two distinct listed pointers are at least 16 bytes apart. -/
theorem Rep.gap {s : State} {bs : List Blk} {F : Nat → List Nat} (h : Rep s bs F)
    {k k2 q q2 : Nat} (hq : q ∈ F k) (hq2 : q2 ∈ F k2) (hne : q ≠ q2) :
    q + 16 ≤ q2 ∨ q2 + 16 ≤ q := by
  obtain ⟨b, hb, h1, -⟩ := h.fre k q hq
  obtain ⟨b2, hb2, h12, -⟩ := h.fre k2 q2 hq2
  have hm := Tiling_mem h.til hb
  have hm2 := Tiling_mem h.til hb2
  rcases Tiling_sep h.til hb hb2 with e | e | e
  · subst e; omega
  · omega
  · omega

/-- A block address and a listed pointer are equal or 16 bytes apart. -/
theorem Rep.gap_blk {s : State} {bs : List Blk} {F : Nat → List Nat} (h : Rep s bs F)
    {k q : Nat} (hq : q ∈ F k) {c : Blk} (hc : c ∈ bs) (hne : q ≠ c.addr) :
    q + 16 ≤ c.addr ∨ c.addr + 16 ≤ q := by
  obtain ⟨b, hb, h1, -⟩ := h.fre k q hq
  have hm := Tiling_mem h.til hb
  have hm2 := Tiling_mem h.til hc
  rcases Tiling_sep h.til hb hc with e | e | e
  · subst e; omega
  · omega
  · omega

/-- A listed pointer is on the list of one class only. -/
theorem Rep.class_unique {s : State} {bs : List Blk} {F : Nat → List Nat} (h : Rep s bs F)
    {k k2 q : Nat} (hq : q ∈ F k) (hq2 : q ∈ F k2) : k = k2 := by
  obtain ⟨b, hb, h1, -, h3⟩ := h.fre k q hq
  obtain ⟨b2, hb2, h12, -, h32⟩ := h.fre k2 q hq2
  have := Tiling_addr_inj h.til hb hb2 (by omega)
  subst this
  omega

theorem Rep.listed_blk {s : State} {bs : List Blk} {F : Nat → List Nat} (h : Rep s bs F)
    {k : Nat} {c : Blk} (hc : c ∈ bs) (hq : c.addr ∈ F k) : c.alloc = 0 ∧ cls c.size = k := by
  obtain ⟨b, hb, h1, h2, h3⟩ := h.fre k c.addr hq
  have := Tiling_addr_inj h.til hb hc h1
  subst this
  exact ⟨h2, h3⟩

/-- The head pointer of a class list is null exactly when the list is empty. -/
theorem Seg_head {m : Mem} {l : List Nat} {prev p : Nat} (h : Seg m prev p l 0) :
    (p = 0 ↔ l = []) ∧ ∀ hne : l ≠ [], p = l.head hne := by
  cases l with
  | nil => simp [Seg] at h; simp [h]
  | cons b l =>
    obtain ⟨h1, h2, -⟩ := h
    subst h1
    simp [h2]

/-- Memory changes that stay inside the link words of free blocks preserve the
block structure; the lists are re-established by the caller. -/
theorem Rep_of_frame {s : State} {bs : List Blk} {F F2 : Nat → List Nat} (h : Rep s bs F)
    {m2 : Mem} {sl2 : Nat → Nat} (hm : ∀ x, Outside bs x → m2 x = s.mem x)
    (chn2 : ∀ k, Seg m2 0 (sl2 k) (F2 k) 0)
    (fre2 : ∀ k, ∀ p ∈ F2 k, ∃ b ∈ bs, b.addr = p ∧ b.alloc = 0 ∧ cls b.size = k)
    (nd2 : ∀ k, (F2 k).Nodup) :
    Rep { s with mem := m2, seg_list := sl2 } bs F2 := by
  have hl := h.hl
  have hle := Tiling_le h.til
  refine ⟨h.hl8, h.hl, h.brk, h.max, ?_, ?_, ?_, h.til, ?_, chn2, fre2, nd2⟩
  · show GET m2 (s.heap_listp - 4) = 9
    rw [GET_frame (fun x _ _ => hm x (Outside_low h.til (by omega)))]
    exact h.pro_h
  · show GET m2 s.heap_listp = 9
    rw [GET_frame (fun x _ _ => hm x (Outside_low h.til (by omega)))]
    exact h.pro_f
  · show GET m2 (s.mem_brk - 4) = 1
    rw [GET_frame (fun x _ _ => hm x (Outside_high h.til (by omega)))]
    exact h.epi
  · intro b hb
    have hbm := Tiling_mem h.til hb
    obtain ⟨s1, s2⟩ := h.sto b hb
    constructor
    · show GET m2 _ = _
      rw [GET_frame (fun x _ _ => hm x (Outside_of_block h.til hb (by omega) (by omega)
        (by intro; omega)))]
      exact s1
    · show GET m2 _ = _
      rw [GET_frame (fun x _ _ => hm x (Outside_of_block h.til hb (by omega) (by omega)
        (by intro; omega)))]
      exact s2

theorem insert_walk_head {s : State} {bs : List Blk} {F : Nat → List Nat} (h : Rep s bs F)
    {size : Nat} (h32 : size < W32) :
    insert_walk s.mem (class_loop LEN 0 size).2 s.mem_brk 0
      (s.seg_list (class_loop LEN 0 size).1) = some (0, s.seg_list (class_loop LEN 0 size).1) := by
  have hb : 1 ≤ s.mem_brk := by have := h.hl; have := Tiling_le h.til; omega
  obtain ⟨f, hf⟩ : ∃ f, s.mem_brk = f + 1 := ⟨s.mem_brk - 1, by omega⟩
  rw [hf]
  unfold insert_walk
  rw [if_neg]
  rintro ⟨hne, hgt⟩
  have hs := h.chn (cls size)
  cases hF : F (cls size) with
  | nil => rw [hF] at hs; exact hne hs
  | cons q t =>
    rw [hF] at hs
    obtain ⟨h1, -⟩ := hs
    obtain ⟨b, hb, hb1, hb2, hb3, -⟩ := h.listed (k := cls size) (q := q) (by rw [hF]; simp)
    have hm := Tiling_mem h.til hb
    have e1 := h.get_size hb
    have e2 := shifted_le h32 hm.2.2.2.1 hb3
    have e3 : s.seg_list (class_loop LEN 0 size).1 = b.addr := by rw [hb1]; exact h1
    rw [e3] at hgt
    simp only [HDRP, WSIZE] at hgt
    rw [e1] at hgt
    omega

theorem insert_node_spec {s : State} {bs : List Blk} {F : Nat → List Nat} (h : Rep s bs F)
    {b : Blk} (hb : b ∈ bs) (hb0 : b.alloc = 0) (hn : b.addr ∉ F (cls b.size)) :
    ∃ s2, insert_node s b.addr b.size = some s2 ∧
      Rep s2 bs (Function.update F (cls b.size) (b.addr :: F (cls b.size))) ∧ Fr s s2 bs := by
  have hbm := Tiling_mem h.til hb
  have hlt := h.size_lt hb
  have hw := @insert_walk_head _ _ _ h b.size (by omega)
  have hl := h.hl
  -- frame facts for the two link words of `b`
  have hset : ∀ (m2 : Mem) (sl2 : Nat → Nat),
      (∀ x, Outside bs x → m2 x = s.mem x) →
      (∀ k, Seg m2 0 (sl2 k) (Function.update F (cls b.size) (b.addr :: F (cls b.size)) k) 0) →
      Rep { s with mem := m2, seg_list := sl2 } bs
        (Function.update F (cls b.size) (b.addr :: F (cls b.size))) ∧
      Fr s { s with mem := m2, seg_list := sl2 } bs := by
    intro m2 sl2 hm hc
    refine ⟨Rep_of_frame h hm hc ?_ ?_, hm, rfl, rfl, rfl, rfl⟩
    · intro k p hp
      by_cases hk : k = cls b.size
      · subst hk
        rw [Function.update_same] at hp
        rcases List.mem_cons.mp hp with rfl | hp
        · exact ⟨b, hb, rfl, hb0, rfl⟩
        · exact h.fre _ p hp
      · rw [Function.update_noteq hk] at hp
        exact h.fre k p hp
    · intro k
      by_cases hk : k = cls b.size
      · subst hk
        rw [Function.update_same]
        exact List.nodup_cons.mpr ⟨hn, h.nd _⟩
      · rw [Function.update_noteq hk]
        exact h.nd k
  unfold insert_node
  simp only [hw]
  have hs := h.chn (cls b.size)
  have hcases : F (cls b.size) = [] ∨ ∃ q t, F (cls b.size) = q :: t := by
    cases F (cls b.size) <;> simp
  rcases hcases with hF | ⟨q, t, hF⟩
  · rw [hF] at hs
    have hnext : s.seg_list (class_loop LEN 0 b.size).1 = 0 := hs
    simp only [hnext, ne_eq, not_true_eq_false, if_false, SET_PTR, SUCC_PTR, PRED_PTR, WSIZE]
    refine ⟨_, rfl, ?_⟩
    rw [show (class_loop LEN 0 b.size).1 = cls b.size from rfl]
    have hbyte : ∀ x, (x < b.addr ∨ b.addr + 8 ≤ x) →
        PUT (PUT s.mem (b.addr + 4) 0) b.addr 0 x = s.mem x := by
      intro x hx
      rw [PUT_byte_ne _ _ _ _ (by omega), PUT_byte_ne _ _ _ _ (by omega)]
    apply hset
    · intro x hx
      exact hbyte x (hx b hb hb0)
    · intro k
      by_cases hk : k = cls b.size
      · subst hk
        rw [Function.update_same, Function.update_same, hF]
        refine ⟨rfl, by omega, ?_, ?_⟩
        · rw [GET_PUT_same]; rfl
        · rw [GET_PUT_ne _ _ _ _ (by omega), GET_PUT_same]
          rfl
      · rw [Function.update_noteq hk]
        rw [Function.update_noteq hk]
        refine Seg_congr ?_ (h.chn k)
        intro q hq
        have hne : q ≠ b.addr := by
          rintro rfl
          exact hk (h.listed_blk hb hq).2.symm
        have := h.gap_blk hq hb hne
        constructor
        · exact GET_frame (fun x _ _ => hbyte x (by omega))
        · exact GET_frame (fun x _ _ => hbyte x (by omega))
  · rw [hF] at hs
    obtain ⟨h1, hq0, hq1, hq2⟩ := hs
    have hnext : s.seg_list (class_loop LEN 0 b.size).1 = q := h1
    have hqF : q ∈ F (cls b.size) := by rw [hF]; simp
    obtain ⟨c, hc, hc1, hc2, hc3, hc4, hc5, hc6⟩ := h.listed hqF
    have hqb : q ≠ b.addr := by
      rintro rfl
      exact hn hqF
    have hgap := h.gap_blk hqF hb hqb
    have hbrk := h.brk
    have hmax := h.max
    simp only [hnext, ne_eq, hq0, not_false_eq_true, if_true, not_true_eq_false, if_false,
      SET_PTR, SUCC_PTR, PRED_PTR, WSIZE]
    refine ⟨_, rfl, ?_⟩
    rw [show (class_loop LEN 0 b.size).1 = cls b.size from rfl]
    have hbyte : ∀ x, (x < b.addr ∨ b.addr + 8 ≤ x) → (x < q ∨ q + 4 ≤ x) →
        PUT (PUT (PUT s.mem (b.addr + 4) q) b.addr 0) q b.addr x = s.mem x := by
      intro x hx hx2
      rw [PUT_byte_ne _ _ _ _ (by omega), PUT_byte_ne _ _ _ _ (by omega),
        PUT_byte_ne _ _ _ _ (by omega)]
    apply hset
    · intro x hx
      have := hx c hc hc2
      exact hbyte x (hx b hb hb0) (by omega)
    · intro k
      by_cases hk : k = cls b.size
      · subst hk
        rw [Function.update_same, Function.update_same, hF]
        have ht : ∀ r ∈ t, GET (PUT (PUT (PUT s.mem (b.addr + 4) q) b.addr 0) q b.addr) r
              = GET s.mem r ∧
            GET (PUT (PUT (PUT s.mem (b.addr + 4) q) b.addr 0) q b.addr) (r + 4)
              = GET s.mem (r + 4) := by
          intro r hr
          have hrF : r ∈ F (cls b.size) := by rw [hF]; exact List.mem_cons_of_mem _ hr
          have hrq : r ≠ q := by
            rintro rfl
            have := h.nd (cls b.size)
            rw [hF] at this
            exact (List.nodup_cons.mp this).1 hr
          have hrb : r ≠ b.addr := by
            rintro rfl
            exact hn hrF
          have g1 := h.gap hrF hqF hrq
          have g2 := h.gap_blk hrF hb hrb
          constructor
          · exact GET_frame (fun x _ _ => hbyte x (by omega) (by omega))
          · exact GET_frame (fun x _ _ => hbyte x (by omega) (by omega))
        have e4 : GET (PUT (PUT (PUT s.mem (b.addr + 4) q) b.addr 0) q b.addr) (q + 4)
            = GET s.mem (q + 4) :=
          GET_frame (fun x _ _ => hbyte x (by omega) (by omega))
        have e5 : GET (PUT (PUT (PUT s.mem (b.addr + 4) q) b.addr 0) q b.addr) (b.addr + 4)
            = q := by
          rw [GET_PUT_ne _ _ _ _ (by omega), GET_PUT_ne _ _ _ _ (by omega), GET_PUT_same]
          simp only [W32] at hmax ⊢
          omega
        refine ⟨rfl, by omega, ?_, e5, hq0, ?_, ?_⟩
        · rw [GET_PUT_ne _ _ _ _ (by omega), GET_PUT_same]; rfl
        · rw [GET_PUT_same]
          simp only [W32] at hlt ⊢
          omega
        · rw [e4]
          exact Seg_congr ht hq2
      · rw [Function.update_noteq hk]
        rw [Function.update_noteq hk]
        refine Seg_congr ?_ (h.chn k)
        intro r hr
        have hne : r ≠ b.addr := by
          rintro rfl
          exact hk (h.listed_blk hb hr).2.symm
        have hne2 : r ≠ q := by
          rintro rfl
          exact hk (h.class_unique hr hqF)
        have g1 := h.gap hr hqF hne2
        have g2 := h.gap_blk hr hb hne
        constructor
        · exact GET_frame (fun x _ _ => hbyte x (by omega) (by omega))
        · exact GET_frame (fun x _ _ => hbyte x (by omega) (by omega))

/-- Re-linking one class list by writes inside the link words of its own
members preserves the representation. -/
theorem Rep_relink {s s2 : State} {bs : List Blk} {F : Nat → List Nat} (h : Rep s bs F)
    {m2 : Mem} {sl2 : Nat → Nat} {k hd : Nat} {L : List Nat}
    (hs2 : s2 = { s with mem := m2, seg_list := sl2 })
    (hbyte : ∀ x, (∀ r ∈ F k, x < r ∨ r + 8 ≤ x) → m2 x = s.mem x)
    (hslk : sl2 k = hd) (hslo : ∀ j, j ≠ k → sl2 j = s.seg_list j)
    (hseg : Seg m2 0 hd L 0) (hsub : ∀ r ∈ L, r ∈ F k) (hnd : L.Nodup) :
    Rep s2 bs (Function.update F k L) ∧ Fr s s2 bs := by
  subst hs2
  have hm : ∀ x, Outside bs x → m2 x = s.mem x := by
    intro x hx
    apply hbyte
    intro r hr
    obtain ⟨b, hb, hb1, hb2, -⟩ := h.fre k r hr
    have := hx b hb hb2
    omega
  refine ⟨Rep_of_frame h hm ?_ ?_ ?_, hm, rfl, rfl, rfl, rfl⟩
  · intro j
    by_cases hj : j = k
    · subst hj
      rw [Function.update_same, hslk]
      exact hseg
    · rw [Function.update_noteq hj, hslo j hj]
      refine Seg_congr ?_ (h.chn j)
      intro r hr
      have hfar : ∀ r2 ∈ F k, r + 16 ≤ r2 ∨ r2 + 16 ≤ r := by
        intro r2 hr2
        apply h.gap hr hr2
        rintro rfl
        exact hj (h.class_unique hr hr2)
      constructor
      · exact GET_frame (fun x _ _ => hbyte x (fun r2 hr2 => by have := hfar r2 hr2; omega))
      · exact GET_frame (fun x _ _ => hbyte x (fun r2 hr2 => by have := hfar r2 hr2; omega))
  · intro j q hq
    by_cases hj : j = k
    · subst hj
      rw [Function.update_same] at hq
      exact h.fre _ q (hsub q hq)
    · rw [Function.update_noteq hj] at hq
      exact h.fre j q hq
  · intro j
    by_cases hj : j = k
    · subst hj
      rw [Function.update_same]
      exact hnd
    · rw [Function.update_noteq hj]
      exact h.nd j

theorem delete_node_spec {s : State} {bs : List Blk} {F : Nat → List Nat} (h : Rep s bs F)
    {k p : Nat} (hp : p ∈ F k) :
    Rep (delete_node s p) bs (Function.update F k ((F k).erase p)) ∧
      Fr s (delete_node s p) bs := by
  obtain ⟨b, hb, hb1, hb2, hb3, -⟩ := h.listed hp
  have hbrk := h.brk
  have hmax : s.mem_max_addr < 4294967296 := h.max
  have hidx : (class_loop LEN 0 (GET_SIZE s.mem (HDRP p))).1 = k := by
    simp only [HDRP, WSIZE]
    rw [← hb1, h.get_size hb]
    exact hb3
  obtain ⟨L1, L2, hFk⟩ := List.mem_iff_append.mp hp
  have hnd := h.nd k
  rw [hFk] at hnd
  have hnd1 : p ∉ L1 := by
    intro hc
    have := List.nodup_append.mp hnd
    exact this.2.2 hc (List.mem_cons_self _ _)
  have hnd2 : (L1 ++ L2).Nodup := by
    have := List.nodup_middle.mp hnd
    exact (List.nodup_cons.mp this).2
  have hnd3 : p ∉ L2 := by
    have := (List.nodup_append.mp hnd).2.1
    exact (List.nodup_cons.mp this).1
  have herase : (F k).erase p = L1 ++ L2 := by
    rw [hFk, List.erase_append_right _ hnd1, List.erase_cons_head]
  rw [herase]
  have hmemF : ∀ r, r ∈ L1 ++ L2 → r ∈ F k := by
    intro r hr
    rw [hFk]
    rcases List.mem_append.mp hr with h1 | h1
    · exact List.mem_append_left _ h1
    · exact List.mem_append_right _ (List.mem_cons_of_mem _ h1)
  have hlt : ∀ r ∈ F k, r < 4294967296 := by
    intro r hr
    obtain ⟨-, -, -, -, -, -, h5, -⟩ := h.listed hr
    omega
  have hgap : ∀ r ∈ F k, ∀ r2 ∈ F k, r ≠ r2 → r + 16 ≤ r2 ∨ r2 + 16 ≤ r :=
    fun r hr r2 hr2 hne => h.gap hr hr2 hne
  have hchn := h.chn k
  rw [hFk] at hchn
  obtain ⟨q, hS1, hS2⟩ := Seg_append.mp hchn
  obtain ⟨hqp, hp0, hpred, hS3⟩ := hS2
  subst hqp
  rcases List.eq_nil_or_concat L1 with hL1 | ⟨L1a, a, hL1⟩
  · -- `p` is the head
    subst hL1
    have hhead : s.seg_list k = q := hS1
    have hpred0 : GET s.mem q = 0 := hpred
    rcases L2 with _ | ⟨c, t⟩
    · have hsucc0 : GET s.mem (q + 4) = 0 := hS3
      have e : delete_node s q = { s with mem := s.mem, seg_list := Function.update s.seg_list k 0 } := by
        simp only [delete_node, SUCC_BLK, PRED_BLK, SUCC_PTR, PRED_PTR, WSIZE, hsucc0, hpred0,
          hidx, ne_eq, not_true_eq_false, if_false]
      exact Rep_relink h e (fun x _ => rfl) (Function.update_same _ _ _)
        (fun j hj => Function.update_noteq hj _ _) rfl (by simp) hnd2
    · obtain ⟨hc1, hc0, hc2, hS4⟩ := hS3
      have hcF : c ∈ F k := by rw [hFk]; simp
      have hcq : c ≠ q := by
        rintro rfl
        exact hnd3 (List.mem_cons_self _ _)
      have g := hgap c hcF q hp hcq
      have e : delete_node s q =
          { s with mem := PUT s.mem c 0, seg_list := Function.update s.seg_list k c } := by
        simp only [delete_node, SUCC_BLK, PRED_BLK, SUCC_PTR, PRED_PTR, SET_PTR, WSIZE, hc1,
          hpred0, hidx, ne_eq, hc0, not_false_eq_true, not_true_eq_false, if_true, if_false]
        rw [GET_PUT_ne _ _ _ _ (by omega), hc1]
      have hbyte : ∀ x, (∀ r ∈ F k, x < r ∨ r + 8 ≤ x) → PUT s.mem c 0 x = s.mem x := by
        intro x hx
        have := hx c hcF
        rw [PUT_byte_ne _ _ _ _ (by omega)]
      refine Rep_relink h e hbyte (Function.update_same _ _ _)
        (fun j hj => Function.update_noteq hj _ _) ?_ hmemF hnd2
      refine ⟨rfl, hc0, ?_, ?_⟩
      · rw [GET_PUT_same]; rfl
      · rw [GET_PUT_ne _ _ _ _ (by omega)]
        refine Seg_congr ?_ hS4
        intro r hr
        have hrF : r ∈ F k := by rw [hFk]; simp [hr]
        have hrc : r ≠ c := by
          rintro rfl
          have := (List.nodup_cons.mp hnd2).1
          exact this hr
        have g2 := hgap r hrF c hcF hrc
        exact ⟨GET_PUT_ne _ _ _ _ (by omega), GET_PUT_ne _ _ _ _ (by omega)⟩
  · -- `p` has the predecessor `a`
    rw [List.concat_eq_append] at hL1
    subst hL1
    have hlast : (L1a ++ [a]).getLast?.getD 0 = a := by simp
    rw [hlast] at hpred
    obtain ⟨q2, hS5, hS6⟩ := Seg_append.mp hS1
    obtain ⟨hq2a, ha0, hapred, haS⟩ := hS6
    subst hq2a
    have hasucc : GET s.mem (q2 + 4) = q := haS
    have haF : q2 ∈ F k := by rw [hFk]; simp
    have haq : q2 ≠ q := by
      rintro rfl
      exact hnd1 (by simp)
    have g := hgap q2 haF q hp haq
    have hkeep1 : ∀ r ∈ L1a, r ∈ F k ∧ r ≠ q2 := by
      intro r hr
      refine ⟨by rw [hFk]; simp [hr], ?_⟩
      rintro rfl
      have := (List.nodup_append.mp hnd2).1
      have := (List.nodup_append.mp this).2.2 hr (List.mem_singleton_self _)
      exact this
    rcases L2 with _ | ⟨c, t⟩
    · have hsucc0 : GET s.mem (q + 4) = 0 := hS3
      have e : delete_node s q =
          { s with mem := PUT s.mem (q2 + 4) 0, seg_list := s.seg_list } := by
        simp only [delete_node, SUCC_BLK, PRED_BLK, SUCC_PTR, PRED_PTR, SET_PTR, WSIZE, hsucc0,
          hpred, ne_eq, ha0, not_false_eq_true, not_true_eq_false, if_true, if_false]
      have hbyte : ∀ x, (∀ r ∈ F k, x < r ∨ r + 8 ≤ x) →
          PUT s.mem (q2 + 4) 0 x = s.mem x := by
        intro x hx
        have := hx q2 haF
        rw [PUT_byte_ne _ _ _ _ (by omega)]
      refine Rep_relink h e hbyte rfl (fun j _ => rfl) ?_ hmemF hnd2
      rw [List.append_nil]
      refine Seg_append.mpr ⟨q2, ?_, rfl, ha0, ?_, ?_⟩
      · refine Seg_congr ?_ hS5
        intro r hr
        obtain ⟨hrF, hra⟩ := hkeep1 r hr
        have g2 := hgap r hrF q2 haF hra
        exact ⟨GET_PUT_ne _ _ _ _ (by omega), GET_PUT_ne _ _ _ _ (by omega)⟩
      · rw [GET_PUT_ne _ _ _ _ (by omega)]
        exact hapred
      · show GET _ _ = 0
        rw [GET_PUT_same]; rfl
    · obtain ⟨hc1, hc0, hc2, hS4⟩ := hS3
      have hcF : c ∈ F k := by rw [hFk]; simp
      have hcq : c ≠ q := by
        rintro rfl
        exact hnd3 (List.mem_cons_self _ _)
      have hca : c ≠ q2 := by
        rintro rfl
        have := (List.nodup_append.mp hnd2).2.2 (by simp : c ∈ L1a ++ [c])
          (List.mem_cons_self _ _)
        exact this
      have g3 := hgap c hcF q hp hcq
      have g4 := hgap c hcF q2 haF hca
      have hcl := hlt c hcF
      have hal := hlt q2 haF
      have e : delete_node s q =
          { s with mem := PUT (PUT s.mem (q2 + 4) c) c q2, seg_list := s.seg_list } := by
        simp only [delete_node, SUCC_BLK, PRED_BLK, SUCC_PTR, PRED_PTR, SET_PTR, WSIZE, hc1,
          hpred, ne_eq, ha0, hc0, not_false_eq_true, not_true_eq_false, if_true, if_false]
        rw [GET_PUT_ne _ _ _ _ (by omega), GET_PUT_ne _ _ _ _ (by omega), hc1, hpred]
      have hbyte : ∀ x, (∀ r ∈ F k, x < r ∨ r + 8 ≤ x) →
          PUT (PUT s.mem (q2 + 4) c) c q2 x = s.mem x := by
        intro x hx
        have := hx q2 haF
        have := hx c hcF
        rw [PUT_byte_ne _ _ _ _ (by omega), PUT_byte_ne _ _ _ _ (by omega)]
      refine Rep_relink h e hbyte rfl (fun j _ => rfl) ?_ hmemF hnd2
      refine Seg_append.mpr ⟨c, Seg_append.mpr ⟨q2, ?_, rfl, ha0, ?_, ?_⟩, ?_⟩
      · refine Seg_congr ?_ hS5
        intro r hr
        obtain ⟨hrF, hra⟩ := hkeep1 r hr
        have hrc : r ≠ c := by
          rintro rfl
          have := (List.nodup_append.mp hnd2).2.2 (by simp [hr] : r ∈ L1a ++ [q2])
            (List.mem_cons_self _ _)
          exact this
        have g2 := hgap r hrF q2 haF hra
        have g5 := hgap r hrF c hcF hrc
        exact ⟨by rw [GET_PUT_ne _ _ _ _ (by omega), GET_PUT_ne _ _ _ _ (by omega)],
          by rw [GET_PUT_ne _ _ _ _ (by omega), GET_PUT_ne _ _ _ _ (by omega)]⟩
      · rw [GET_PUT_ne _ _ _ _ (by omega), GET_PUT_ne _ _ _ _ (by omega)]
        exact hapred
      · show GET _ _ = c
        rw [GET_PUT_ne _ _ _ _ (by omega), GET_PUT_same]
        simp only [W32]; omega
      · rw [hlast]
        refine ⟨rfl, hc0, ?_, ?_⟩
        · rw [GET_PUT_same]
          simp only [W32]; omega
        · rw [GET_PUT_ne _ _ _ _ (by omega), GET_PUT_ne _ _ _ _ (by omega)]
          refine Seg_congr ?_ hS4
          intro r hr
          have hrF : r ∈ F k := by rw [hFk]; simp [hr]
          have hrc : r ≠ c := by
            rintro rfl
            have := (List.nodup_append.mp hnd2).2.1
            exact (List.nodup_cons.mp this).1 hr
          have hra : r ≠ q2 := by
            rintro rfl
            have := (List.nodup_append.mp hnd2).2.2 (by simp : r ∈ L1a ++ [r])
              (List.mem_cons_of_mem _ hr)
            exact this
          have g2 := hgap r hrF q2 haF hra
          have g5 := hgap r hrF c hcF hrc
          exact ⟨by rw [GET_PUT_ne _ _ _ _ (by omega), GET_PUT_ne _ _ _ _ (by omega)],
            by rw [GET_PUT_ne _ _ _ _ (by omega), GET_PUT_ne _ _ _ _ (by omega)]⟩

/-- Rewriting the headers and footers inside the span `[a, e)` of the blocks
`mid` so that it is tiled by `mid2` instead, when no listed block lies in the
span. -/
theorem Rep_replace {s : State} {F : Nat → List Nat} {l mid mid2 r : List Blk}
    (h : Rep s (l ++ mid ++ r) F) {a e : Nat} {m2 : Mem}
    (hl : Tiling (s.heap_listp + 8) l a) (hmid : Tiling a mid e) (hr : Tiling e r s.mem_brk)
    (hmid2 : Tiling a mid2 e)
    (hm : ∀ x, (x + 4 < a ∨ e ≤ x + 4) → m2 x = s.mem x)
    (hsto : ∀ b ∈ mid2, Stored m2 b)
    (hF : ∀ k, ∀ p ∈ F k, p < a ∨ e ≤ p) :
    Rep { s with mem := m2 } (l ++ mid2 ++ r) F := by
  have h8 := h.hl
  have hla := Tiling_le hl
  have hae := Tiling_le hmid
  have heb := Tiling_le hr
  have hold : ∀ b, b ∈ l ∨ b ∈ r → Stored m2 b := by
    intro b hb
    have hbs : b ∈ l ++ mid ++ r := by
      rcases hb with hb | hb
      · exact List.mem_append_left _ (List.mem_append_left _ hb)
      · exact List.mem_append_right _ hb
    obtain ⟨s1, s2⟩ := h.sto b hbs
    have hpos : (b.addr + b.size ≤ a) ∨ (e ≤ b.addr) := by
      rcases hb with hb | hb
      · exact Or.inl (Tiling_mem hl hb).2.1
      · exact Or.inr (Tiling_mem hr hb).1
    have hbm := Tiling_mem h.til hbs
    constructor
    · rw [GET_frame (fun x _ _ => hm x (by omega))]; exact s1
    · rw [GET_frame (fun x _ _ => hm x (by omega))]; exact s2
  have hside : ∀ k, ∀ p ∈ F k, ∃ b, (b ∈ l ∨ b ∈ r) ∧ b.addr = p ∧ b.alloc = 0 ∧
      cls b.size = k := by
    intro k p hp
    obtain ⟨b, hb, h1, h2, h3⟩ := h.fre k p hp
    refine ⟨b, ?_, h1, h2, h3⟩
    rcases List.mem_append.mp hb with hb | hb
    · rcases List.mem_append.mp hb with hb | hb
      · exact Or.inl hb
      · have := Tiling_mem hmid hb
        have := hF k p hp
        omega
    · exact Or.inr hb
  refine ⟨h.hl8, h.hl, h.brk, h.max, ?_, ?_, ?_, ?_, ?_, ?_, ?_, h.nd⟩
  · show GET m2 (s.heap_listp - 4) = 9
    rw [GET_frame (fun x _ _ => hm x (by omega))]; exact h.pro_h
  · show GET m2 s.heap_listp = 9
    rw [GET_frame (fun x _ _ => hm x (by omega))]; exact h.pro_f
  · show GET m2 (s.mem_brk - 4) = 1
    rw [GET_frame (fun x _ _ => hm x (by omega))]; exact h.epi
  · exact Tiling_append.mpr ⟨e, Tiling_append.mpr ⟨a, hl, hmid2⟩, hr⟩
  · intro b hb
    rcases List.mem_append.mp hb with hb | hb
    · rcases List.mem_append.mp hb with hb | hb
      · exact hold b (Or.inl hb)
      · exact hsto b hb
    · exact hold b (Or.inr hb)
  · intro k
    refine Seg_congr ?_ (h.chn k)
    intro p hp
    obtain ⟨b, hb, h1, -, -⟩ := hside k p hp
    have hpos : (b.addr + b.size ≤ a ∧ 16 ≤ b.size) ∨ (e ≤ b.addr) := by
      rcases hb with hb | hb
      · exact Or.inl ⟨(Tiling_mem hl hb).2.1, (Tiling_mem hl hb).2.2.2.1⟩
      · exact Or.inr (Tiling_mem hr hb).1
    constructor
    · exact GET_frame (fun x _ _ => hm x (by omega))
    · exact GET_frame (fun x _ _ => hm x (by omega))
  · intro k p hp
    obtain ⟨b, hb, h1, h2, h3⟩ := hside k p hp
    refine ⟨b, ?_, h1, h2, h3⟩
    rcases hb with hb | hb
    · exact List.mem_append_left _ (List.mem_append_left _ hb)
    · exact List.mem_append_right _ hb

/-- Appending a block at the old epilogue after the host moved the break. -/
theorem Rep_extend {s : State} {bs : List Blk} {F : Nat → List Nat} (h : Rep s bs F)
    {m2 : Mem} {nb : Blk} (ha : nb.addr = s.mem_brk) (h8 : nb.size % 8 = 0)
    (h16 : 16 ≤ nb.size) (hal : nb.alloc ≤ 1) (hmax : s.mem_brk + nb.size ≤ s.mem_max_addr)
    (hm : ∀ x, x + 4 < s.mem_brk → m2 x = s.mem x)
    (hsto : Stored m2 nb) (hepi : GET m2 (s.mem_brk + nb.size - 4) = 1) :
    Rep { s with mem := m2, mem_brk := s.mem_brk + nb.size } (bs ++ [nb]) F := by
  have hl := h.hl
  have hle := Tiling_le h.til
  refine ⟨h.hl8, h.hl, hmax, h.max, ?_, ?_, hepi, ?_, ?_, ?_, ?_, h.nd⟩
  · show GET m2 (s.heap_listp - 4) = 9
    rw [GET_frame (fun x _ _ => hm x (by omega))]; exact h.pro_h
  · show GET m2 s.heap_listp = 9
    rw [GET_frame (fun x _ _ => hm x (by omega))]; exact h.pro_f
  · exact Tiling_append.mpr ⟨s.mem_brk, h.til, ha, h8, h16, hal, rfl⟩
  · intro b hb
    rcases List.mem_append.mp hb with hb | hb
    · obtain ⟨s1, s2⟩ := h.sto b hb
      have hbm := Tiling_mem h.til hb
      constructor
      · rw [GET_frame (fun x _ _ => hm x (by omega))]; exact s1
      · rw [GET_frame (fun x _ _ => hm x (by omega))]; exact s2
    · rw [List.mem_singleton.mp hb]; exact hsto
  · intro k
    refine Seg_congr ?_ (h.chn k)
    intro p hp
    obtain ⟨b, hb, h1, -, -, -, h5, -⟩ := h.listed hp
    constructor
    · exact GET_frame (fun x _ _ => hm x (by omega))
    · exact GET_frame (fun x _ _ => hm x (by omega))
  · intro k p hp
    obtain ⟨b, hb, h1, h2, h3⟩ := h.fre k p hp
    exact ⟨b, List.mem_append_left _ hb, h1, h2, h3⟩

/-! ### Protected bytes -/

theorem Prot_mono {bs bs2 : List Blk} (h : ∀ d ∈ bs, d.alloc = 1 → d ∈ bs2) {x : Nat}
    (hx : Prot bs x) : Prot bs2 x := by
  obtain ⟨d, hd, h1, h2, h3⟩ := hx
  exact ⟨d, h d hd h1, h1, h2, h3⟩

/-- A protected byte lies outside every other block, and strictly between
header and footer of its own. -/
theorem Prot_sep {bs : List Blk} {p e : Nat} (h : Tiling p bs e) {x : Nat} (hx : Prot bs x)
    {c : Blk} (hc : c ∈ bs) :
    (x + 4 < c.addr ∨ c.addr + c.size ≤ x + 4) ∨
      (c.alloc = 1 ∧ c.addr ≤ x ∧ x + 8 < c.addr + c.size) := by
  obtain ⟨d, hd, h1, h2, h3⟩ := hx
  have hdm := Tiling_mem h hd
  have hcm := Tiling_mem h hc
  rcases Tiling_sep h hd hc with e1 | e1 | e1
  · subst e1
    right
    exact ⟨h1, h2, by omega⟩
  · left; omega
  · left; omega

theorem Prot_outside {bs : List Blk} {p e : Nat} (h : Tiling p bs e) {x : Nat}
    (hx : Prot bs x) : Outside bs x := by
  intro c hc hc0
  rcases Prot_sep h hx hc with h1 | h1
  · have := Tiling_mem h hc
    omega
  · omega

theorem Step.step_refl (s : State) (bs : List Blk) : Step s bs s bs :=
  ⟨rfl, rfl, rfl, le_refl _, fun _ hd _ => hd, fun _ _ => rfl⟩

theorem Step.step_trans {s s1 s2 : State} {bs bs1 bs2 : List Blk} (h1 : Step s bs s1 bs1)
    (h2 : Step s1 bs1 s2 bs2) : Step s bs s2 bs2 := by
  obtain ⟨a1, a2, a3, a4, a5, a6⟩ := h1
  obtain ⟨b1, b2, b3, b4, b5, b6⟩ := h2
  refine ⟨by rw [b1, a1], by rw [b2, a2], by rw [b3, a3], le_trans a4 b4,
    fun d hd hd1 => b5 d (a5 d hd hd1) hd1, ?_⟩
  intro x hx
  rw [b6 x (Prot_mono a5 hx), a6 x hx]

theorem Step_of_Fr {s s2 : State} {bs : List Blk} {p e : Nat} (ht : Tiling p bs e)
    (h : Fr s s2 bs) : Step s bs s2 bs := by
  obtain ⟨h1, h2, h3, h4, h5⟩ := h
  exact ⟨h4, h3, h5, by omega, fun _ hd _ => hd, fun x hx => h1 x (Prot_outside ht hx)⟩

/-! ### Reading neighbours -/

theorem Rep.right_blkp {s : State} {bs : List Blk} {F : Nat → List Nat} (h : Rep s bs F)
    {b : Blk} (hb : b ∈ bs) : RIGHT_BLKP s.mem b.addr = b.addr + b.size := by
  simp only [RIGHT_BLKP, WSIZE]
  rw [h.get_size hb]

theorem Rep.ftrp {s : State} {bs : List Blk} {F : Nat → List Nat} (h : Rep s bs F)
    {b : Blk} (hb : b ∈ bs) : FTRP s.mem b.addr = b.addr + b.size - 8 := by
  simp only [FTRP, HDRP, WSIZE, DSIZE]
  rw [h.get_size hb]

theorem Rep.left_blkp {s : State} {l r : List Blk} {a b : Blk} {F : Nat → List Nat}
    (h : Rep s (l ++ a :: b :: r) F) :
    LEFT_BLKP s.mem b.addr = a.addr ∧ a.addr + a.size = b.addr := by
  have ha : a ∈ l ++ a :: b :: r := by simp
  obtain ⟨-, h2, -⟩ := Tiling_split h.til
  obtain ⟨h3, -⟩ := h2
  have hm := Tiling_mem h.til ha
  simp only [LEFT_BLKP, DSIZE]
  have e : b.addr - 8 = a.addr + a.size - 8 := by omega
  rw [e, h.get_size_ftr ha]
  omega

theorem Rep.left_pro {s : State} {r : List Blk} {b : Blk} {F : Nat → List Nat}
    (h : Rep s (b :: r) F) : GET_ALLOC s.mem (HDRP (LEFT_BLKP s.mem b.addr)) = 1 := by
  obtain ⟨h1, -⟩ := h.til
  have hl := h.hl
  have e : b.addr - 8 = s.heap_listp := by omega
  simp only [LEFT_BLKP, DSIZE, HDRP, WSIZE, GET_SIZE, GET_ALLOC]
  rw [e, h.pro_f]
  have e2 : b.addr - (9 &&& 4294967288) - 4 = s.heap_listp - 4 := by
    have : (9 &&& 4294967288 : Nat) = 8 := by decide
    omega
  rw [e2, h.pro_h]
  decide

theorem Rep.right_epi {s : State} {l : List Blk} {b : Blk} {F : Nat → List Nat}
    (h : Rep s (l ++ [b]) F) : GET_ALLOC s.mem (HDRP (RIGHT_BLKP s.mem b.addr)) = 1 := by
  have hb : b ∈ l ++ [b] := by simp
  obtain ⟨-, h2, -⟩ := Tiling_split h.til
  have h3 : b.addr + b.size = s.mem_brk := h2
  rw [h.right_blkp hb]
  simp only [HDRP, WSIZE, GET_ALLOC]
  rw [h3, h.epi]
  decide

theorem Rep.right_next {s : State} {l r : List Blk} {b c : Blk} {F : Nat → List Nat}
    (h : Rep s (l ++ b :: c :: r) F) :
    RIGHT_BLKP s.mem b.addr = c.addr ∧ c.addr = b.addr + b.size := by
  have hb : b ∈ l ++ b :: c :: r := by simp
  obtain ⟨-, h2, -⟩ := Tiling_split h.til
  obtain ⟨h3, -⟩ := h2
  rw [h.right_blkp hb]
  omega

/-! ### The abstract effect of coalescing -/

theorem left_info {s : State} {l r : List Blk} {b : Blk} {F : Nat → List Nat}
    (h : Rep s (l ++ b :: r) F) :
    (GET_ALLOC s.mem (HDRP (LEFT_BLKP s.mem b.addr)) = 1 ∧ absorb_left l = (l, 0) ∧
      ∀ x ∈ l.getLast?, x.alloc = 1) ∨
    (GET_ALLOC s.mem (HDRP (LEFT_BLKP s.mem b.addr)) = 0 ∧
      ∃ l0 a, l = l0 ++ [a] ∧ a.alloc = 0 ∧ absorb_left l = (l0, a.size)) := by
  rcases List.eq_nil_or_concat l with rfl | ⟨l0, a, rfl⟩
  · left
    exact ⟨h.left_pro, rfl, by simp⟩
  · rw [List.concat_eq_append] at h ⊢
    have h2 : Rep s (l0 ++ a :: b :: r) F := by simpa using h
    have ha : a ∈ l0 ++ a :: b :: r := by simp
    have hm := Tiling_mem h2.til ha
    have e := h2.left_blkp.1
    have e2 : GET_ALLOC s.mem (HDRP (LEFT_BLKP s.mem b.addr)) = a.alloc := by
      rw [e]
      exact h2.get_alloc ha
    by_cases ha0 : a.alloc = 0
    · right
      refine ⟨by rw [e2, ha0], l0, a, rfl, ha0, ?_⟩
      simp [absorb_left, ha0]
    · left
      have ha1 : a.alloc = 1 := by omega
      refine ⟨by rw [e2, ha1], ?_, ?_⟩
      · simp [absorb_left, ha0]
      · simp [ha1]

theorem right_info {s : State} {l r : List Blk} {b : Blk} {F : Nat → List Nat}
    (h : Rep s (l ++ b :: r) F) :
    (GET_ALLOC s.mem (HDRP (RIGHT_BLKP s.mem b.addr)) = 1 ∧ absorb_right r = (r, 0) ∧
      ∀ x ∈ r.head?, x.alloc = 1) ∨
    (GET_ALLOC s.mem (HDRP (RIGHT_BLKP s.mem b.addr)) = 0 ∧
      ∃ c t, r = c :: t ∧ c.alloc = 0 ∧ absorb_right r = (t, c.size)) := by
  rcases r with _ | ⟨c, t⟩
  · left
    exact ⟨h.right_epi, rfl, by simp⟩
  · have hc : c ∈ l ++ b :: c :: t := by simp
    have hm := Tiling_mem h.til hc
    have e2 : GET_ALLOC s.mem (HDRP (RIGHT_BLKP s.mem b.addr)) = c.alloc := by
      rw [h.right_next.1]
      exact h.get_alloc hc
    by_cases hc0 : c.alloc = 0
    · right
      exact ⟨by rw [e2, hc0], c, t, rfl, hc0, by simp [absorb_right, hc0]⟩
    · left
      have hc1 : c.alloc = 1 := by omega
      exact ⟨by rw [e2, hc1], by simp [absorb_right, hc0], by simp [hc1]⟩

theorem delete_node_spec2 {s : State} {bs : List Blk} {F : Nat → List Nat} (h : Rep s bs F)
    {b : Blk} (hp : b.addr ∈ F (cls b.size)) :
    ∃ F2, Rep (delete_node s b.addr) bs F2 ∧ (∀ j q, q ∈ F2 j ↔ q ∈ F j ∧ q ≠ b.addr) ∧
      Fr s (delete_node s b.addr) bs := by
  obtain ⟨h1, h2⟩ := delete_node_spec h hp
  refine ⟨_, h1, ?_, h2⟩
  intro j q
  by_cases hj : j = cls b.size
  · subst hj
    rw [Function.update_same, (h.nd _).mem_erase_iff]
    tauto
  · rw [Function.update_noteq hj]
    constructor
    · intro hq
      refine ⟨hq, ?_⟩
      rintro rfl
      exact hj (h.class_unique hq hp)
    · exact fun hq => hq.1

theorem insert_node_spec2 {s : State} {bs : List Blk} {F : Nat → List Nat} (h : Rep s bs F)
    {b : Blk} (hb : b ∈ bs) (hb0 : b.alloc = 0) (hn : b.addr ∉ F (cls b.size)) :
    ∃ s2 F2, insert_node s b.addr b.size = some s2 ∧ Rep s2 bs F2 ∧
      (∀ j q, q ∈ F2 j ↔ q ∈ F j ∨ (j = cls b.size ∧ q = b.addr)) ∧ Fr s s2 bs := by
  obtain ⟨s2, h1, h2, h3⟩ := insert_node_spec h hb hb0 hn
  refine ⟨s2, _, h1, h2, ?_, h3⟩
  intro j q
  by_cases hj : j = cls b.size
  · subst hj
    rw [Function.update_same, List.mem_cons]
    tauto
  · rw [Function.update_noteq hj]
    tauto

/-- Writing the header and footer of one free block over the span of the
unlisted blocks `mid` and inserting it into the index. -/
theorem merge_finish {s1 : State} {F1 : Nat → List Nat} {l0 mid t : List Blk} {a n : Nat}
    {m2 : Mem} (h1 : Rep s1 (l0 ++ mid ++ t) F1)
    (hl : Tiling (s1.heap_listp + 8) l0 a) (hmid : Tiling a mid (a + n))
    (hr : Tiling (a + n) t s1.mem_brk) (hsz : 16 ≤ n)
    (hF1 : ∀ j q, q ∈ F1 j → ∀ d ∈ mid, q ≠ d.addr)
    (hm : ∀ x, (x + 4 < a ∨ a + n ≤ x + 4) → m2 x = s1.mem x)
    (hsto : Stored m2 ⟨a, n, 0⟩) :
    ∃ s2 F2, insert_node { s1 with mem := m2 } a n = some s2 ∧
      Rep s2 (l0 ++ [⟨a, n, 0⟩] ++ t) F2 ∧
      (∀ j q, q ∈ F2 j ↔ q ∈ F1 j ∨ (j = cls n ∧ q = a)) ∧
      Fr { s1 with mem := m2 } s2 (l0 ++ [⟨a, n, 0⟩] ++ t) := by
  have hmod := Tiling_mod hmid
  have hside : ∀ k, ∀ p ∈ F1 k, ∃ b, (b ∈ l0 ∨ b ∈ t) ∧ b.addr = p := by
    intro k p hp
    obtain ⟨b, hb, h1, -⟩ := h1.fre k p hp
    refine ⟨b, ?_, h1⟩
    rcases List.mem_append.mp hb with hb | hb
    · rcases List.mem_append.mp hb with hb | hb
      · exact Or.inl hb
      · exact absurd h1.symm (hF1 k p hp b hb)
    · exact Or.inr hb
  have hpos : ∀ k, ∀ p ∈ F1 k, p < a ∨ a + n ≤ p := by
    intro k p hp
    obtain ⟨b, hb, rfl⟩ := hside k p hp
    rcases hb with hb | hb
    · have := Tiling_mem hl hb; omega
    · have := Tiling_mem hr hb; omega
  have hnew : Tiling a [(⟨a, n, 0⟩ : Blk)] (a + n) :=
    ⟨rfl, by show n % 8 = 0; omega, hsz, by show 0 ≤ 1; omega, rfl⟩
  have h2 := Rep_replace h1 hl hmid hr hnew hm
    (by intro b hb; rw [List.mem_singleton.mp hb]; exact hsto) hpos
  have hin : (⟨a, n, 0⟩ : Blk) ∈ l0 ++ [(⟨a, n, 0⟩ : Blk)] ++ t := by simp
  have := insert_node_spec2 h2 hin rfl
    (by intro hc; have := hpos _ _ hc; simp only at this; omega)
  exact this

theorem Fr.fr_trans {s s1 s2 : State} {bs : List Blk} (h1 : Fr s s1 bs) (h2 : Fr s1 s2 bs) :
    Fr s s2 bs := by
  obtain ⟨a1, a2, a3, a4, a5⟩ := h1
  obtain ⟨b1, b2, b3, b4, b5⟩ := h2
  exact ⟨fun x hx => by rw [b1 x hx, a1 x hx], by rw [b2, a2], by rw [b3, a3], by rw [b4, a4],
    by rw [b5, a5]⟩

theorem Fr.fr_refl (s : State) (bs : List Blk) : Fr s s bs :=
  ⟨fun _ _ => rfl, rfl, rfl, rfl, rfl⟩

/-- Deleting several listed free blocks in turn. -/
theorem delete_all_spec {bs : List Blk} (ds : List Blk) :
    ∀ {s : State} {F : Nat → List Nat}, Rep s bs F →
    (∀ d ∈ ds, d.addr ∈ F (cls d.size)) → (ds.map Blk.addr).Nodup →
    ∃ F2, Rep ((ds.map Blk.addr).foldl delete_node s) bs F2 ∧
      (∀ j q, q ∈ F2 j ↔ q ∈ F j ∧ ∀ d ∈ ds, q ≠ d.addr) ∧
      Fr s ((ds.map Blk.addr).foldl delete_node s) bs := by
  induction ds with
  | nil =>
    intro s F h _ _
    exact ⟨F, h, by simp, Fr.fr_refl _ _⟩
  | cons d ds ih =>
    intro s F h hd hnd
    obtain ⟨F1, r1, m1, f1⟩ := delete_node_spec2 h (hd d (List.mem_cons_self _ _))
    rw [List.map_cons, List.nodup_cons] at hnd
    obtain ⟨F2, r2, m2, f2⟩ := ih r1 (by
      intro c hc
      refine (m1 _ _).mpr ⟨hd c (List.mem_cons_of_mem _ hc), ?_⟩
      intro heq
      exact hnd.1 (by rw [← heq]; exact List.mem_map_of_mem _ hc)) hnd.2
    refine ⟨F2, r2, ?_, f1.fr_trans f2⟩
    intro j q
    rw [m2, m1]
    simp only [List.mem_cons, forall_eq_or_imp]
    tauto

/-- The common tail of the merging cases of `coalesce`: the blocks `mid`
have been deleted from the index, one header and one footer are rewritten, and
the merged block is inserted. -/
theorem merge_post {s s1 : State} {F F1 : Nat → List Nat} {l0 mid t : List Blk} {a n : Nat}
    {m2 : Mem} (hC : Complete (l0 ++ mid ++ t) F) (hfree : ∀ d ∈ mid, d.alloc = 0)
    (h1 : Rep s1 (l0 ++ mid ++ t) F1)
    (hF1 : ∀ j q, q ∈ F1 j ↔ q ∈ F j ∧ ∀ d ∈ mid, q ≠ d.addr)
    (hfr : Fr s s1 (l0 ++ mid ++ t))
    (hl : Tiling (s1.heap_listp + 8) l0 a) (hmid : Tiling a mid (a + n))
    (hr : Tiling (a + n) t s1.mem_brk) (hsz : 16 ≤ n)
    (hm : ∀ x, (x + 4 < a ∨ a + n ≤ x + 4) → m2 x = s1.mem x)
    (hmP : ∀ x, Prot (l0 ++ mid ++ t) x → m2 x = s1.mem x)
    (hsto : Stored m2 ⟨a, n, 0⟩)
    (hN : NoAdj (l0 ++ [⟨a, n, 0⟩] ++ t)) :
    ∃ s2 F2, insert_node { s1 with mem := m2 } a n = some s2 ∧
      Rep s2 (l0 ++ [⟨a, n, 0⟩] ++ t) F2 ∧ Complete (l0 ++ [⟨a, n, 0⟩] ++ t) F2 ∧
      NoAdj (l0 ++ [⟨a, n, 0⟩] ++ t) ∧
      Step s (l0 ++ mid ++ t) s2 (l0 ++ [⟨a, n, 0⟩] ++ t) ∧ s2.mem_brk = s.mem_brk ∧
      (∀ d ∈ l0 ++ [⟨a, n, 0⟩] ++ t, d.alloc = 1 → d ∈ l0 ++ mid ++ t) := by
  obtain ⟨s2, F2, e1, r2, mem2, f2⟩ := merge_finish h1 hl hmid hr hsz
    (fun j q hq => ((hF1 j q).mp hq).2) hm hsto
  refine ⟨s2, F2, e1, r2, ?_, hN, ?_, ?_, ?_⟩
  · intro d hd hd0
    rw [mem2]
    rcases List.mem_append.mp hd with hd | hd
    · rcases List.mem_append.mp hd with hd | hd
      · left
        rw [hF1]
        refine ⟨hC d (by simp [hd]) hd0, ?_⟩
        intro c hc
        have := Tiling_mem hl hd
        have := Tiling_mem hmid hc
        omega
      · right
        rw [List.mem_singleton.mp hd]
        exact ⟨rfl, rfl⟩
    · left
      rw [hF1]
      refine ⟨hC d (by simp [hd]) hd0, ?_⟩
      intro c hc
      have := Tiling_mem hr hd
      have := Tiling_mem hmid hc
      omega
  · have st1 : Step s (l0 ++ mid ++ t) s1 (l0 ++ mid ++ t) := Step_of_Fr h1.til hfr
    have st2 : Step s1 (l0 ++ mid ++ t) { s1 with mem := m2 } (l0 ++ [⟨a, n, 0⟩] ++ t) := by
      refine ⟨rfl, rfl, rfl, le_refl _, ?_, hmP⟩
      intro d hd hd1
      rcases List.mem_append.mp hd with hd | hd
      · rcases List.mem_append.mp hd with hd | hd
        · simp [hd]
        · have := hfree d hd; omega
      · simp [hd]
    have st3 := Step_of_Fr r2.til f2
    exact st1.step_trans (st2.step_trans st3)
  · rw [f2.2.1]
    exact hfr.2.1
  · intro d hd hd1
    rcases List.mem_append.mp hd with hd | hd
    · rcases List.mem_append.mp hd with hd | hd
      · simp [hd]
      · rw [List.mem_singleton.mp hd] at hd1
        simp at hd1
    · simp [hd]

theorem Blk.eta0 (b : Blk) (h : b.alloc = 0) : (⟨b.addr, b.size, 0⟩ : Blk) = b := by
  cases b; simp_all

theorem NoAdj_mid {l r : List Blk} {b1 b : Blk} (h : NoAdj (l ++ b1 :: r))
    (hl : ∀ x ∈ l.getLast?, x.alloc = 1) (hr : ∀ x ∈ r.head?, x.alloc = 1) :
    NoAdj (l ++ b :: r) := by
  unfold NoAdj at *
  rw [List.chain'_split] at h ⊢
  obtain ⟨h1, h2⟩ := h
  constructor
  · rw [List.chain'_append] at h1 ⊢
    refine ⟨h1.1, List.chain'_singleton _, ?_⟩
    intro x hx y hy
    have := hl x hx
    omega
  · cases r with
    | nil => exact List.chain'_singleton _
    | cons c t =>
      rw [List.chain'_cons] at h2 ⊢
      refine ⟨?_, h2.2⟩
      have := hr c (by simp)
      omega

theorem coalesce_case2 {s : State} {l t : List Blk} {b c : Blk} {F : Nat → List Nat}
    (h : Rep s (l ++ b :: c :: t) F) (hb0 : b.alloc = 0) (hc0 : c.alloc = 0)
    (hC : Complete (l ++ b :: c :: t) F)
    (hL : GET_ALLOC s.mem (HDRP (LEFT_BLKP s.mem b.addr)) = 1)
    (hR : GET_ALLOC s.mem (HDRP (RIGHT_BLKP s.mem b.addr)) = 0)
    (hN : NoAdj (l ++ [⟨b.addr, b.size + c.size, 0⟩] ++ t)) :
    ∃ s2 F2, coalesce s b.addr = some (s2, b.addr) ∧
      Rep s2 (l ++ [⟨b.addr, b.size + c.size, 0⟩] ++ t) F2 ∧
      Complete (l ++ [⟨b.addr, b.size + c.size, 0⟩] ++ t) F2 ∧
      NoAdj (l ++ [⟨b.addr, b.size + c.size, 0⟩] ++ t) ∧
      Step s (l ++ [b, c] ++ t) s2 (l ++ [⟨b.addr, b.size + c.size, 0⟩] ++ t) ∧
      s2.mem_brk = s.mem_brk ∧
      (∀ d ∈ l ++ [⟨b.addr, b.size + c.size, 0⟩] ++ t, d.alloc = 1 → d ∈ l ++ [b, c] ++ t) := by
  have hbs : l ++ b :: c :: t = l ++ [b, c] ++ t := by simp
  have hbin : b ∈ l ++ b :: c :: t := by simp
  have hcin : c ∈ l ++ b :: c :: t := by simp
  have hbm := Tiling_mem h.til hbin
  have hcm := Tiling_mem h.til hcin
  have hclt := h.size_lt hcin
  obtain ⟨tl, tr, -⟩ := Tiling_split h.til
  obtain ⟨tc, -, -, -, tr⟩ := tr
  have hds : ∀ d ∈ [b, c], d.addr ∈ F (cls d.size) := by
    intro d hd
    simp only [List.mem_cons, List.mem_singleton, List.not_mem_nil, or_false] at hd
    rcases hd with rfl | rfl
    · exact hC _ hbin hb0
    · exact hC _ hcin hc0
  obtain ⟨F1, r1, m1, f1⟩ := delete_all_spec [b, c] h hds (by simp; omega)
  simp only [List.map_cons, List.map_nil, List.foldl_cons, List.foldl_nil] at r1 f1
  have e1 : RIGHT_BLKP (delete_node s b.addr).mem b.addr = c.addr := by
    obtain ⟨F0, r0, -⟩ := delete_node_spec2 h (hds b (by simp))
    exact r0.right_next.1
  have e2 : RIGHT_BLKP (delete_node (delete_node s b.addr) c.addr).mem b.addr = c.addr :=
    r1.right_next.1
  have e3 : GET_SIZE (delete_node (delete_node s b.addr) c.addr).mem (c.addr - 4) = c.size :=
    r1.get_size hcin
  have e4 : GET_SIZE s.mem (b.addr - 4) = b.size := h.get_size hbin
  have e5 : (b.size + c.size) % W32 = b.size + c.size :=
    Nat.mod_eq_of_lt (by omega)
  have e6 : PACK (b.size + c.size) 0 = b.size + c.size := by
    rw [PACK_eq (by omega) (by omega)]; rfl
  have e7 : ∀ m : Mem, GET_SIZE (PUT m (b.addr - 4) (b.size + c.size)) (b.addr - 4)
      = b.size + c.size := by
    intro m
    unfold GET_SIZE
    rw [GET_PUT_same, e5]
    have := @dec_size (b.size + c.size) 0 (by omega) (by omega) (by omega)
    simpa using this
  have hcode : coalesce s b.addr = (insert_node
      { delete_node (delete_node s b.addr) c.addr with
        mem := PUT (PUT (delete_node (delete_node s b.addr) c.addr).mem (b.addr - 4)
          (b.size + c.size)) (b.addr + (b.size + c.size) - 8) (b.size + c.size) }
      b.addr (b.size + c.size)).map (fun s => (s, b.addr)) := by
    simp only [HDRP, WSIZE] at hL hR
    simp only [coalesce, hL, hR, e1, e2, HDRP, WSIZE, FTRP, DSIZE, e3, e4, e5, e6, e7]
    simp
  clear e1 e2 e3 e7
  generalize delete_node (delete_node s b.addr) c.addr = s3 at *
  rw [hbs] at r1 f1 hC
  obtain ⟨s2, F2, i1, i2, i3, i4, i5, i6, i7⟩ := @merge_post s _ _ _ _ _ _ b.addr
    (b.size + c.size)
    (PUT (PUT s3.mem (b.addr - 4)
          (b.size + c.size)) (b.addr + (b.size + c.size) - 8) (b.size + c.size))
    hC (by simp [hb0, hc0]) r1
    (by intro j q; rw [m1]) f1 (by rw [f1.2.2.2.1]; exact tl)
    ⟨rfl, hbm.2.2.1, hbm.2.2.2.1, hbm.2.2.2.2.1, tc, hcm.2.2.1, hcm.2.2.2.1, hcm.2.2.2.2.1,
      by show b.addr + b.size + c.size = _; omega⟩
    (by rw [f1.2.1]; rw [← Nat.add_assoc]; exact tr) (by omega)
    (by intro x hx
        rw [PUT_byte_ne _ _ _ _ (by omega), PUT_byte_ne _ _ _ _ (by omega)])
    (by intro x hx
        have p1 := Prot_sep r1.til hx (c := b) (by simp)
        have p2 := Prot_sep r1.til hx (c := c) (by simp)
        rw [PUT_byte_ne _ _ _ _ (by omega), PUT_byte_ne _ _ _ _ (by omega)])
    ⟨by show GET _ (b.addr - 4) = b.size + c.size + 0
        rw [GET_PUT_ne _ _ _ _ (by omega), GET_PUT_same, e5]; rfl,
     by show GET _ (b.addr + (b.size + c.size) - 8) = b.size + c.size + 0
        rw [GET_PUT_same, e5]; rfl⟩
    hN
  refine ⟨s2, F2, ?_, i2, i3, i4, i5, i6, i7⟩
  rw [hcode, i1]
  rfl

theorem LEFT_BLKP_congr {m m2 : Mem} {p : Nat} (h : GET m2 (p - 8) = GET m (p - 8)) :
    LEFT_BLKP m2 p = LEFT_BLKP m p := by
  simp only [LEFT_BLKP, DSIZE, GET_SIZE, h]

theorem RIGHT_BLKP_congr {m m2 : Mem} {p : Nat} (h : GET m2 (p - 4) = GET m (p - 4)) :
    RIGHT_BLKP m2 p = RIGHT_BLKP m p := by
  simp only [RIGHT_BLKP, WSIZE, GET_SIZE, h]

theorem GET_SIZE_congr {m m2 : Mem} {p : Nat} (h : GET m2 p = GET m p) :
    GET_SIZE m2 p = GET_SIZE m p := by
  simp only [GET_SIZE, h]

theorem coalesce_case3 {s : State} {l0 r : List Blk} {a b : Blk} {F : Nat → List Nat}
    (h : Rep s (l0 ++ a :: b :: r) F) (ha0 : a.alloc = 0) (hb0 : b.alloc = 0)
    (hC : Complete (l0 ++ a :: b :: r) F)
    (hL : GET_ALLOC s.mem (HDRP (LEFT_BLKP s.mem b.addr)) = 0)
    (hR : GET_ALLOC s.mem (HDRP (RIGHT_BLKP s.mem b.addr)) = 1)
    (hN : NoAdj (l0 ++ [⟨a.addr, b.size + a.size, 0⟩] ++ r)) :
    ∃ s2 F2, coalesce s b.addr = some (s2, a.addr) ∧
      Rep s2 (l0 ++ [⟨a.addr, b.size + a.size, 0⟩] ++ r) F2 ∧
      Complete (l0 ++ [⟨a.addr, b.size + a.size, 0⟩] ++ r) F2 ∧
      NoAdj (l0 ++ [⟨a.addr, b.size + a.size, 0⟩] ++ r) ∧
      Step s (l0 ++ [a, b] ++ r) s2 (l0 ++ [⟨a.addr, b.size + a.size, 0⟩] ++ r) ∧
      s2.mem_brk = s.mem_brk ∧
      (∀ d ∈ l0 ++ [⟨a.addr, b.size + a.size, 0⟩] ++ r, d.alloc = 1 →
        d ∈ l0 ++ [a, b] ++ r) := by
  have hbs : l0 ++ a :: b :: r = l0 ++ [a, b] ++ r := by simp
  have hain : a ∈ l0 ++ a :: b :: r := by simp
  have hbin : b ∈ l0 ++ a :: b :: r := by simp
  have ham := Tiling_mem h.til hain
  have hbm := Tiling_mem h.til hbin
  have hblt := h.size_lt hbin
  obtain ⟨tl, tr, -⟩ := Tiling_split h.til
  obtain ⟨tb, -, -, -, tr⟩ := tr
  have hds : ∀ d ∈ [b, a], d.addr ∈ F (cls d.size) := by
    intro d hd
    simp only [List.mem_cons, List.mem_singleton, List.not_mem_nil, or_false] at hd
    rcases hd with rfl | rfl
    · exact hC _ hbin hb0
    · exact hC _ hain ha0
  obtain ⟨F1, r1, m1, f1⟩ := delete_all_spec [b, a] h hds (by simp; omega)
  simp only [List.map_cons, List.map_nil, List.foldl_cons, List.foldl_nil] at r1 f1
  have e1 : LEFT_BLKP (delete_node s b.addr).mem b.addr = a.addr := by
    obtain ⟨F0, r0, -⟩ := delete_node_spec2 h (hds b (by simp))
    exact r0.left_blkp.1
  have e2 : LEFT_BLKP (delete_node (delete_node s b.addr) a.addr).mem b.addr = a.addr :=
    r1.left_blkp.1
  have e3 : GET_SIZE (delete_node (delete_node s b.addr) a.addr).mem (a.addr - 4) = a.size :=
    r1.get_size hain
  have e4 : GET_SIZE s.mem (b.addr - 4) = b.size := h.get_size hbin
  have e4b : GET_SIZE (delete_node (delete_node s b.addr) a.addr).mem (b.addr - 4) = b.size :=
    r1.get_size hbin
  have e5 : (b.size + a.size) % W32 = b.size + a.size :=
    Nat.mod_eq_of_lt (by omega)
  have e6 : PACK (b.size + a.size) 0 = b.size + a.size := by
    rw [PACK_eq (by omega) (by omega)]; rfl
  have e7 : ∀ v, LEFT_BLKP (PUT (delete_node (delete_node s b.addr) a.addr).mem
      (b.addr + b.size - 8) v) b.addr = a.addr := by
    intro v
    rw [LEFT_BLKP_congr (GET_PUT_ne _ _ _ _ (by omega)), e2]
  have e8 : ∀ v w, LEFT_BLKP (PUT (PUT (delete_node (delete_node s b.addr) a.addr).mem
      (b.addr + b.size - 8) v) (a.addr - 4) w) b.addr = a.addr := by
    intro v w
    have e : GET (PUT (PUT (delete_node (delete_node s b.addr) a.addr).mem
        (b.addr + b.size - 8) v) (a.addr - 4) w) (b.addr - 8) =
        GET (delete_node (delete_node s b.addr) a.addr).mem (b.addr - 8) := by
      rw [GET_PUT_ne _ _ _ _ (by omega), GET_PUT_ne _ _ _ _ (by omega)]
    rw [LEFT_BLKP_congr e, e2]
  have hcode : coalesce s b.addr = (insert_node
      { delete_node (delete_node s b.addr) a.addr with
        mem := PUT (PUT (delete_node (delete_node s b.addr) a.addr).mem (b.addr + b.size - 8)
          (b.size + a.size)) (a.addr - 4) (b.size + a.size) }
      a.addr (b.size + a.size)).map (fun s => (s, a.addr)) := by
    simp only [HDRP, WSIZE] at hL hR
    simp only [coalesce, hL, hR, e1, e2, HDRP, WSIZE, FTRP, DSIZE, e3, e4, e4b, e5, e6, e7, e8]
    simp
  clear e1 e2 e3 e4b e7 e8
  generalize delete_node (delete_node s b.addr) a.addr = s3 at *
  rw [hbs] at r1 f1 hC
  obtain ⟨s2, F2, i1, i2, i3, i4, i5, i6, i7⟩ := @merge_post s _ _ _ _ _ _ a.addr
    (b.size + a.size)
    (PUT (PUT s3.mem (b.addr + b.size - 8)
          (b.size + a.size)) (a.addr - 4) (b.size + a.size))
    hC (by simp [hb0, ha0]) r1
    (by intro j q; rw [m1]; simp only [List.mem_cons, List.mem_singleton, List.not_mem_nil,
          or_false, forall_eq_or_imp, forall_eq]; tauto)
    f1 (by rw [f1.2.2.2.1]; exact tl)
    ⟨rfl, ham.2.2.1, ham.2.2.2.1, ham.2.2.2.2.1, tb, hbm.2.2.1, hbm.2.2.2.1, hbm.2.2.2.2.1,
      by show a.addr + a.size + b.size = _; omega⟩
    (by rw [f1.2.1]
        have e : a.addr + (b.size + a.size) = a.addr + a.size + b.size := by omega
        rw [e]; exact tr) (by omega)
    (by intro x hx
        rw [PUT_byte_ne _ _ _ _ (by omega), PUT_byte_ne _ _ _ _ (by omega)])
    (by intro x hx
        have p1 := Prot_sep r1.til hx (c := a) (by simp)
        have p2 := Prot_sep r1.til hx (c := b) (by simp)
        rw [PUT_byte_ne _ _ _ _ (by omega), PUT_byte_ne _ _ _ _ (by omega)])
    ⟨by show GET _ (a.addr - 4) = b.size + a.size + 0
        rw [GET_PUT_same, e5]; rfl,
     by show GET _ (a.addr + (b.size + a.size) - 8) = b.size + a.size + 0
        have e : a.addr + (b.size + a.size) - 8 = b.addr + b.size - 8 := by omega
        rw [e, GET_PUT_ne _ _ _ _ (by omega), GET_PUT_same, e5]; rfl⟩
    hN
  refine ⟨s2, F2, ?_, i2, i3, i4, i5, i6, i7⟩
  rw [hcode, i1]
  rfl

theorem coalesce_case4 {s : State} {l0 t : List Blk} {a b c : Blk} {F : Nat → List Nat}
    (h : Rep s (l0 ++ a :: b :: c :: t) F) (ha0 : a.alloc = 0) (hb0 : b.alloc = 0)
    (hc0 : c.alloc = 0) (hC : Complete (l0 ++ a :: b :: c :: t) F)
    (hL : GET_ALLOC s.mem (HDRP (LEFT_BLKP s.mem b.addr)) = 0)
    (hR : GET_ALLOC s.mem (HDRP (RIGHT_BLKP s.mem b.addr)) = 0)
    (hN : NoAdj (l0 ++ [⟨a.addr, b.size + (a.size + c.size), 0⟩] ++ t)) :
    ∃ s2 F2, coalesce s b.addr = some (s2, a.addr) ∧
      Rep s2 (l0 ++ [⟨a.addr, b.size + (a.size + c.size), 0⟩] ++ t) F2 ∧
      Complete (l0 ++ [⟨a.addr, b.size + (a.size + c.size), 0⟩] ++ t) F2 ∧
      NoAdj (l0 ++ [⟨a.addr, b.size + (a.size + c.size), 0⟩] ++ t) ∧
      Step s (l0 ++ [a, b, c] ++ t) s2
        (l0 ++ [⟨a.addr, b.size + (a.size + c.size), 0⟩] ++ t) ∧
      s2.mem_brk = s.mem_brk ∧
      (∀ d ∈ l0 ++ [⟨a.addr, b.size + (a.size + c.size), 0⟩] ++ t, d.alloc = 1 →
        d ∈ l0 ++ [a, b, c] ++ t) := by
  have hbs : l0 ++ a :: b :: c :: t = l0 ++ [a, b, c] ++ t := by simp
  have hbs2 : l0 ++ a :: b :: c :: t = (l0 ++ [a]) ++ b :: c :: t := by simp
  have hain : a ∈ l0 ++ a :: b :: c :: t := by simp
  have hbin : b ∈ l0 ++ a :: b :: c :: t := by simp
  have hcin : c ∈ l0 ++ a :: b :: c :: t := by simp
  have ham := Tiling_mem h.til hain
  have hbm := Tiling_mem h.til hbin
  have hcm := Tiling_mem h.til hcin
  have hclt := h.size_lt hcin
  obtain ⟨tl, tr, -⟩ := Tiling_split h.til
  obtain ⟨tb, -, -, -, tc, -, -, -, tr⟩ := tr
  have hds : ∀ d ∈ [b, a, c], d.addr ∈ F (cls d.size) := by
    intro d hd
    simp only [List.mem_cons, List.mem_singleton, List.not_mem_nil, or_false] at hd
    rcases hd with rfl | rfl | rfl
    · exact hC _ hbin hb0
    · exact hC _ hain ha0
    · exact hC _ hcin hc0
  obtain ⟨F1, r1, m1, f1⟩ := delete_all_spec [b, a, c] h hds (by simp; omega)
  simp only [List.map_cons, List.map_nil, List.foldl_cons, List.foldl_nil] at r1 f1
  obtain ⟨F0, r0, m0, -⟩ := delete_all_spec [b, a] h
    (fun d hd => hds d (by simp at hd ⊢; tauto)) (by simp; omega)
  simp only [List.map_cons, List.map_nil, List.foldl_cons, List.foldl_nil] at r0
  have e1 : LEFT_BLKP (delete_node s b.addr).mem b.addr = a.addr := by
    obtain ⟨F0, r0, -⟩ := delete_node_spec2 h (hds b (by simp))
    exact r0.left_blkp.1
  have e1b : RIGHT_BLKP (delete_node (delete_node s b.addr) a.addr).mem b.addr = c.addr := by
    rw [hbs2] at r0
    exact r0.right_next.1
  have e2 : LEFT_BLKP (delete_node (delete_node (delete_node s b.addr) a.addr) c.addr).mem
      b.addr = a.addr := r1.left_blkp.1
  have e2b : RIGHT_BLKP (delete_node (delete_node (delete_node s b.addr) a.addr) c.addr).mem
      b.addr = c.addr := by
    have r1b := r1
    rw [hbs2] at r1b
    exact r1b.right_next.1
  have e3 : GET_SIZE (delete_node (delete_node (delete_node s b.addr) a.addr) c.addr).mem
      (a.addr - 4) = a.size := r1.get_size hain
  have e3c : GET_SIZE (delete_node (delete_node (delete_node s b.addr) a.addr) c.addr).mem
      (c.addr - 4) = c.size := r1.get_size hcin
  have e4 : GET_SIZE s.mem (b.addr - 4) = b.size := h.get_size hbin
  have e5 : (b.size + (a.size + c.size) % W32) % W32 = b.size + (a.size + c.size) := by
    rw [Nat.mod_eq_of_lt (by omega : a.size + c.size < W32)]
    exact Nat.mod_eq_of_lt (by omega)
  have e5b : (b.size + (a.size + c.size)) % W32 = b.size + (a.size + c.size) :=
    Nat.mod_eq_of_lt (by omega)
  have e6 : PACK (b.size + (a.size + c.size)) 0 = b.size + (a.size + c.size) := by
    rw [PACK_eq (by omega) (by omega)]; rfl
  have e7 : ∀ v, RIGHT_BLKP (PUT
      (delete_node (delete_node (delete_node s b.addr) a.addr) c.addr).mem (a.addr - 4) v)
      b.addr = c.addr := by
    intro v
    rw [RIGHT_BLKP_congr (GET_PUT_ne _ _ _ _ (by omega)), e2b]
  have e7b : ∀ v, GET_SIZE (PUT
      (delete_node (delete_node (delete_node s b.addr) a.addr) c.addr).mem (a.addr - 4) v)
      (c.addr - 4) = c.size := by
    intro v
    rw [GET_SIZE_congr (GET_PUT_ne _ _ _ _ (by omega)), e3c]
  have e8 : ∀ v w, LEFT_BLKP (PUT (PUT
      (delete_node (delete_node (delete_node s b.addr) a.addr) c.addr).mem (a.addr - 4) v)
      (c.addr + c.size - 8) w) b.addr = a.addr := by
    intro v w
    have e : GET (PUT (PUT
        (delete_node (delete_node (delete_node s b.addr) a.addr) c.addr).mem (a.addr - 4) v)
        (c.addr + c.size - 8) w) (b.addr - 8) =
        GET (delete_node (delete_node (delete_node s b.addr) a.addr) c.addr).mem
          (b.addr - 8) := by
      rw [GET_PUT_ne _ _ _ _ (by omega), GET_PUT_ne _ _ _ _ (by omega)]
    rw [LEFT_BLKP_congr e, e2]
  have hcode : coalesce s b.addr = (insert_node
      { delete_node (delete_node (delete_node s b.addr) a.addr) c.addr with
        mem := PUT (PUT (delete_node (delete_node (delete_node s b.addr) a.addr) c.addr).mem
          (a.addr - 4) (b.size + (a.size + c.size))) (c.addr + c.size - 8)
          (b.size + (a.size + c.size)) }
      a.addr (b.size + (a.size + c.size))).map (fun s => (s, a.addr)) := by
    simp only [HDRP, WSIZE] at hL hR
    simp only [coalesce, hL, hR, e1, e1b, e2, e2b, HDRP, WSIZE, FTRP, DSIZE, e3, e3c, e4, e5,
      e6, e7, e7b, e8]
    simp
  clear e1 e1b e2 e2b e3 e3c e7 e7b e8 r0 m0
  generalize delete_node (delete_node (delete_node s b.addr) a.addr) c.addr = s3 at *
  rw [hbs] at r1 f1 hC
  obtain ⟨s2, F2, i1, i2, i3, i4, i5, i6, i7⟩ := @merge_post s _ _ _ _ _ _ a.addr
    (b.size + (a.size + c.size))
    (PUT (PUT s3.mem
          (a.addr - 4) (b.size + (a.size + c.size))) (c.addr + c.size - 8)
          (b.size + (a.size + c.size)))
    hC (by simp [hb0, ha0, hc0]) r1
    (by intro j q; rw [m1]; simp only [List.mem_cons, List.mem_singleton, List.not_mem_nil,
          or_false, forall_eq_or_imp, forall_eq]; tauto)
    f1 (by rw [f1.2.2.2.1]; exact tl)
    ⟨rfl, ham.2.2.1, ham.2.2.2.1, ham.2.2.2.2.1, tb, hbm.2.2.1, hbm.2.2.2.1, hbm.2.2.2.2.1,
      tc, hcm.2.2.1, hcm.2.2.2.1, hcm.2.2.2.2.1,
      by show a.addr + a.size + b.size + c.size = _; omega⟩
    (by rw [f1.2.1]
        have e : a.addr + (b.size + (a.size + c.size)) = a.addr + a.size + b.size + c.size := by
          omega
        rw [e]; exact tr) (by omega)
    (by intro x hx
        rw [PUT_byte_ne _ _ _ _ (by omega), PUT_byte_ne _ _ _ _ (by omega)])
    (by intro x hx
        have p1 := Prot_sep r1.til hx (c := a) (by simp)
        have p2 := Prot_sep r1.til hx (c := c) (by simp)
        rw [PUT_byte_ne _ _ _ _ (by omega), PUT_byte_ne _ _ _ _ (by omega)])
    ⟨by show GET _ (a.addr - 4) = b.size + (a.size + c.size) + 0
        rw [GET_PUT_ne _ _ _ _ (by omega), GET_PUT_same, e5b]; rfl,
     by show GET _ (a.addr + (b.size + (a.size + c.size)) - 8) = b.size + (a.size + c.size) + 0
        have e : a.addr + (b.size + (a.size + c.size)) - 8 = c.addr + c.size - 8 := by omega
        rw [e, GET_PUT_same, e5b]; rfl⟩
    hN
  refine ⟨s2, F2, ?_, i2, i3, i4, i5, i6, i7⟩
  rw [hcode, i1]
  rfl

theorem NoAdj_left {l r : List Blk} {x : Blk} (h : NoAdj (l ++ x :: r)) : NoAdj l :=
  (List.chain'_append.mp h).1

theorem NoAdj_right {l r : List Blk} {x : Blk} (h : NoAdj (l ++ x :: r)) : NoAdj r :=
  ((List.chain'_cons'.mp (List.chain'_append.mp h).2.1)).2

theorem NoAdj_head {t : List Blk} {c : Blk} (h : NoAdj (c :: t)) (hc : c.alloc = 0) :
    ∀ x ∈ t.head?, x.alloc ≠ 0 := by
  intro x hx h0
  exact (List.chain'_cons'.mp h).1 x hx ⟨hc, h0⟩

theorem NoAdj_last {l : List Blk} {a : Blk} (h : NoAdj (l ++ [a])) (ha : a.alloc = 0) :
    ∀ x ∈ l.getLast?, x.alloc ≠ 0 := by
  intro x hx h0
  exact (List.chain'_append.mp h).2.2 x hx a (by simp) ⟨h0, ha⟩

theorem NoAdj_build {l t : List Blk} (nb : Blk) (hl : NoAdj l) (ht : NoAdj t)
    (h1 : ∀ x ∈ l.getLast?, x.alloc ≠ 0) (h2 : ∀ x ∈ t.head?, x.alloc ≠ 0) :
    NoAdj (l ++ [nb] ++ t) := by
  unfold NoAdj at *
  rw [List.append_assoc, List.chain'_append]
  refine ⟨hl, ?_, ?_⟩
  · rw [List.singleton_append, List.chain'_cons']
    exact ⟨fun y hy hc => h2 y hy hc.2, ht⟩
  · intro x hx y hy hc
    exact h1 x hx hc.1

theorem coalesce_spec {s : State} {l r : List Blk} {b : Blk} {F : Nat → List Nat}
    (h : Rep s (l ++ b :: r) F) (hb0 : b.alloc = 0) (hC : Complete (l ++ b :: r) F)
    (hN : NoAdj (l ++ ⟨b.addr, b.size, 1⟩ :: r)) :
    ∃ s2 F2, coalesce s b.addr = some (s2, (coalesced_blk l b r).addr) ∧
      Rep s2 (coalesced l b r) F2 ∧ Complete (coalesced l b r) F2 ∧
      NoAdj (coalesced l b r) ∧ Step s (l ++ b :: r) s2 (coalesced l b r) ∧
      s2.mem_brk = s.mem_brk ∧ (∀ d ∈ coalesced l b r, d.alloc = 1 → d ∈ l ++ b :: r) := by
  have hNl := NoAdj_left hN
  have hNr := NoAdj_right hN
  rcases left_info h with ⟨hL, aL, lastL⟩ | ⟨hL, l0, a, rfl, ha0, aL⟩
  · rcases right_info h with ⟨hR, aR, headR⟩ | ⟨hR, c, t, rfl, hc0, aR⟩
    · have e : coalesced l b r = l ++ b :: r := by
        simp only [coalesced, coalesced_blk, aL, aR, Nat.sub_zero, Nat.zero_add, Nat.add_zero]
        rw [Blk.eta0 b hb0]
      have e2 : (coalesced_blk l b r).addr = b.addr := by
        simp only [coalesced_blk, aL, Nat.sub_zero]
      rw [e, e2]
      refine ⟨s, F, ?_, h, hC, ?_, Step.step_refl _ _, rfl, fun _ hd _ => hd⟩
      · simp only [HDRP, WSIZE] at hL hR
        simp [coalesce, HDRP, WSIZE, hL, hR]
      · have := NoAdj_build b hNl hNr (fun x hx => by rw [lastL x hx]; omega)
          (fun x hx => by rw [headR x hx]; omega)
        simpa using this
    · have e : coalesced l b (c :: t) = l ++ [⟨b.addr, b.size + c.size, 0⟩] ++ t := by
        simp only [coalesced, coalesced_blk, aL, aR, Nat.sub_zero, Nat.zero_add]
        simp
      have e2 : (coalesced_blk l b (c :: t)).addr = b.addr := by
        simp only [coalesced_blk, aL, Nat.sub_zero]
      have e3 : l ++ b :: c :: t = l ++ [b, c] ++ t := by simp
      rw [e, e2, e3]
      exact coalesce_case2 h hb0 hc0 hC hL hR
        (NoAdj_build _ hNl (NoAdj_right (l := []) hNr)
          (fun x hx => by rw [lastL x hx]; omega) (NoAdj_head hNr hc0))
  · have hNl0 : NoAdj l0 := by
      have : NoAdj (l0 ++ a :: []) := hNl
      exact NoAdj_left this
    have h2 : Rep s (l0 ++ a :: b :: r) F := by simpa using h
    have hC2 : Complete (l0 ++ a :: b :: r) F := by simpa using hC
    have hab := h2.left_blkp.2
    rcases right_info h with ⟨hR, aR, headR⟩ | ⟨hR, c, t, rfl, hc0, aR⟩
    · have e : coalesced (l0 ++ [a]) b r = l0 ++ [⟨a.addr, b.size + a.size, 0⟩] ++ r := by
        simp only [coalesced, coalesced_blk, aL, aR, Nat.add_zero]
        have e1 : b.addr - a.size = a.addr := by omega
        rw [e1, Nat.add_comm a.size b.size]
        simp
      have e2 : (coalesced_blk (l0 ++ [a]) b r).addr = a.addr := by
        simp only [coalesced_blk, aL]
        omega
      have e3 : l0 ++ [a] ++ b :: r = l0 ++ [a, b] ++ r := by simp
      rw [e, e2, e3]
      exact coalesce_case3 h2 ha0 hb0 hC2 hL hR
        (NoAdj_build _ hNl0 hNr (NoAdj_last hNl ha0) (fun x hx => by rw [headR x hx]; omega))
    · have e : coalesced (l0 ++ [a]) b (c :: t) =
          l0 ++ [⟨a.addr, b.size + (a.size + c.size), 0⟩] ++ t := by
        simp only [coalesced, coalesced_blk, aL, aR]
        have e1 : b.addr - a.size = a.addr := by omega
        have e4 : a.size + b.size + c.size = b.size + (a.size + c.size) := by omega
        rw [e1, e4]
        simp
      have e2 : (coalesced_blk (l0 ++ [a]) b (c :: t)).addr = a.addr := by
        simp only [coalesced_blk, aL]
        omega
      have e3 : l0 ++ [a] ++ b :: c :: t = l0 ++ [a, b, c] ++ t := by simp
      rw [e, e2, e3]
      have h3 : Rep s (l0 ++ a :: b :: c :: t) F := by simpa using h
      have hC3 : Complete (l0 ++ a :: b :: c :: t) F := by simpa using hC
      exact coalesce_case4 h3 ha0 hb0 hc0 hC3 hL hR
        (NoAdj_build _ hNl0 (NoAdj_right (l := []) hNr) (NoAdj_last hNl ha0)
          (NoAdj_head hNr hc0))

theorem Blk.eta1 (b : Blk) (h : b.alloc = 1) : (⟨b.addr, b.size, 1⟩ : Blk) = b := by
  cases b; simp_all

theorem mm_free_spec {s : State} {l r : List Blk} {b : Blk} {F : Nat → List Nat}
    (h : Rep s (l ++ b :: r) F) (hb1 : b.alloc = 1) (hC : Complete (l ++ b :: r) F)
    (hN : NoAdj (l ++ b :: r)) :
    ∃ s2 F2, mm_free s b.addr = some s2 ∧
      Rep s2 (coalesced l ⟨b.addr, b.size, 0⟩ r) F2 ∧
      Complete (coalesced l ⟨b.addr, b.size, 0⟩ r) F2 ∧
      NoAdj (coalesced l ⟨b.addr, b.size, 0⟩ r) ∧
      Step s (l ++ ⟨b.addr, b.size, 0⟩ :: r) s2 (coalesced l ⟨b.addr, b.size, 0⟩ r) ∧
      s2.mem_brk = s.mem_brk ∧
      (∀ d ∈ coalesced l ⟨b.addr, b.size, 0⟩ r, d.alloc = 1 →
        d ∈ l ++ ⟨b.addr, b.size, 0⟩ :: r) := by
  have hbin : b ∈ l ++ b :: r := by simp
  have hbm := Tiling_mem h.til hbin
  have hblt := h.size_lt hbin
  obtain ⟨tl, tr, -⟩ := Tiling_split h.til
  have e4 : GET_SIZE s.mem (b.addr - 4) = b.size := h.get_size hbin
  have e5 : b.size % W32 = b.size := Nat.mod_eq_of_lt (by omega)
  have e6 : PACK b.size 0 = b.size := by
    rw [PACK_eq (by omega) (by omega)]; rfl
  have e7 : ∀ m : Mem, GET_SIZE (PUT m (b.addr - 4) b.size) (b.addr - 4) = b.size := by
    intro m
    unfold GET_SIZE
    rw [GET_PUT_same, e5]
    have := dec_size (a := 0) hbm.2.2.1 (by omega) (by omega : b.size + 0 < W32)
    simpa using this
  have hbs : l ++ b :: r = l ++ [b] ++ r := by simp
  have h' := h
  rw [hbs] at h'
  obtain ⟨s1, F1, i1, i2, i3, i4⟩ := merge_finish (a := b.addr) (n := b.size) h' tl
    ⟨rfl, hbm.2.2.1, hbm.2.2.2.1, hbm.2.2.2.2.1, rfl⟩ tr hbm.2.2.2.1
    (by intro j q hq d hd heq
        rw [List.mem_singleton.mp hd] at heq
        rw [heq] at hq
        have := (h.listed_blk hbin hq).1
        omega)
    (by intro x hx
        show PUT (PUT s.mem (b.addr - 4) b.size) (b.addr + b.size - 8) b.size x = s.mem x
        rw [PUT_byte_ne _ _ _ _ (by omega), PUT_byte_ne _ _ _ _ (by omega)])
    ⟨by show GET _ (b.addr - 4) = b.size + 0
        rw [GET_PUT_ne _ _ _ _ (by omega), GET_PUT_same, e5]; rfl,
     by show GET _ (b.addr + b.size - 8) = b.size + 0
        rw [GET_PUT_same, e5]; rfl⟩
  have hbs1 : l ++ [(⟨b.addr, b.size, 0⟩ : Blk)] ++ r = l ++ ⟨b.addr, b.size, 0⟩ :: r := by simp
  rw [hbs1] at i2 i4
  have hC1 : Complete (l ++ ⟨b.addr, b.size, 0⟩ :: r) F1 := by
    intro d hd hd0
    rw [i3]
    rcases List.mem_append.mp hd with hd | hd
    · left; exact hC d (by simp [hd]) hd0
    · rcases List.mem_cons.mp hd with hd | hd
      · right; rw [hd]; exact ⟨rfl, rfl⟩
      · left; exact hC d (by simp [hd]) hd0
  have hN1 : NoAdj (l ++ ⟨b.addr, b.size, 1⟩ :: r) := by
    rw [Blk.eta1 b hb1]; exact hN
  obtain ⟨s2, F2, c1, c2, c3, c4, c5, c6, c7⟩ :=
    coalesce_spec (b := ⟨b.addr, b.size, 0⟩) i2 rfl hC1 hN1
  refine ⟨s2, F2, ?_, c2, c3, c4, ?_, ?_, c7⟩
  · simp only at c1
    simp only [mm_free, HDRP, WSIZE, FTRP, DSIZE, e4, e6, e7, i1, c1]
    rfl
  · have st1 : Step s (l ++ ⟨b.addr, b.size, 0⟩ :: r)
        { s with mem := PUT (PUT s.mem (b.addr - 4) b.size) (b.addr + b.size - 8) b.size }
        (l ++ ⟨b.addr, b.size, 0⟩ :: r) := by
      refine ⟨rfl, rfl, rfl, le_refl _, fun _ hd _ => hd, ?_⟩
      intro x hx
      have p1 := Prot_sep i2.til hx (c := ⟨b.addr, b.size, 0⟩) (by simp)
      simp only at p1
      show PUT (PUT s.mem (b.addr - 4) b.size) (b.addr + b.size - 8) b.size x = s.mem x
      rw [PUT_byte_ne _ _ _ _ (by omega), PUT_byte_ne _ _ _ _ (by omega)]
    exact st1.step_trans ((Step_of_Fr i2.til i4).step_trans c5)
  · rw [c6, i4.2.1]

theorem ALIGN_eq {x : Nat} (h : x + 7 < W32) : ALIGN x = (x + 7) / 8 * 8 := by
  unfold ALIGN ALIGNMENT
  rw [Nat.mod_eq_of_lt (by omega), and_mask _ (by simpa [W32] using h)]
  omega

theorem ALIGN_aligned {x : Nat} (h : x + 7 < W32) (h8 : x % 8 = 0) : ALIGN x = x := by
  rw [ALIGN_eq h]; omega

theorem coalesced_blk_mem (l r : List Blk) (b : Blk) : coalesced_blk l b r ∈ coalesced l b r := by
  simp [coalesced]

theorem coalesced_blk_size (l r : List Blk) (b : Blk) : b.size ≤ (coalesced_blk l b r).size := by
  simp only [coalesced_blk]; omega

theorem NoAdj_snoc {bs : List Blk} {x : Blk} (h : NoAdj bs) (hx : x.alloc ≠ 0) :
    NoAdj (bs ++ [x]) := by
  unfold NoAdj at *
  rw [List.chain'_append]
  exact ⟨h, List.chain'_singleton _, fun a _ b hb hc => by
    simp only [List.head?_cons, Option.mem_def, Option.some.injEq] at hb
    subst hb
    exact hx hc.2⟩

theorem extend_heap_fail {s : State} {words : Nat} (hw8 : words % 8 = 0)
    (hw32 : words + 7 < W32) (hmax : s.mem_max_addr < s.mem_brk + words) :
    extend_heap s words = some (s, 0) := by
  simp only [extend_heap, ALIGN_aligned hw32 hw8, mem_sbrk]
  rw [if_neg (by omega)]

theorem extend_heap_spec {s : State} {bs : List Blk} {F : Nat → List Nat} (h : Rep s bs F)
    (hC : Complete bs F) (hN : NoAdj bs) {words : Nat} (hw8 : words % 8 = 0)
    (hw16 : 16 ≤ words) (hmax : s.mem_brk + words ≤ s.mem_max_addr) :
    ∃ s2 F2, extend_heap s words =
        some (s2, (coalesced_blk bs ⟨s.mem_brk, words, 0⟩ []).addr) ∧
      Rep s2 (coalesced bs ⟨s.mem_brk, words, 0⟩ []) F2 ∧
      Complete (coalesced bs ⟨s.mem_brk, words, 0⟩ []) F2 ∧
      NoAdj (coalesced bs ⟨s.mem_brk, words, 0⟩ []) ∧
      Step s bs s2 (coalesced bs ⟨s.mem_brk, words, 0⟩ []) ∧
      s2.mem_brk = s.mem_brk + words ∧
      (∀ d ∈ coalesced bs ⟨s.mem_brk, words, 0⟩ [], d.alloc = 1 → d ∈ bs) := by
  have hl := h.hl
  have hle := Tiling_le h.til
  have hm32 := h.max
  have hw32 : words + 7 < W32 := by omega
  have e5 : words % W32 = words := Nat.mod_eq_of_lt (by omega)
  have e6 : PACK words 0 = words := by
    rw [PACK_eq (by omega) (by omega)]; rfl
  have e6b : PACK 0 1 = 1 := by decide
  have e7 : ∀ m : Mem, GET_SIZE (PUT m (s.mem_brk - 4) words) (s.mem_brk - 4) = words := by
    intro m
    unfold GET_SIZE
    rw [GET_PUT_same, e5]
    have := dec_size (a := 0) hw8 (by omega) (by omega : words + 0 < W32)
    simpa using this
  have e8 : ∀ (m : Mem) v, GET_SIZE (PUT (PUT m (s.mem_brk - 4) words)
      (s.mem_brk + words - 8) v) (s.mem_brk - 4) = words := by
    intro m v
    rw [GET_SIZE_congr (GET_PUT_ne _ _ _ _ (by omega)), e7]
  obtain ⟨M, hM⟩ : ∃ M, M = PUT (PUT (PUT s.mem (s.mem_brk - 4) words)
      (s.mem_brk + words - 8) words) (s.mem_brk + words - 4) 1 := ⟨_, rfl⟩
  have hcode : extend_heap s words =
      match insert_node { s with mem := M, mem_brk := s.mem_brk + words } s.mem_brk words with
      | none => none
      | some s1 => coalesce s1 s.mem_brk := by
    simp only [extend_heap, ALIGN_aligned hw32 hw8, mem_sbrk, if_pos hmax, HDRP, WSIZE, FTRP,
      DSIZE, RIGHT_BLKP, e6, e6b, e7, e8, hM]
  have hMb : ∀ x, x + 4 < s.mem_brk → M x = s.mem x := by
    intro x hx
    rw [hM, PUT_byte_ne _ _ _ _ (by omega), PUT_byte_ne _ _ _ _ (by omega),
      PUT_byte_ne _ _ _ _ (by omega)]
  have r1 : Rep { s with mem := M, mem_brk := s.mem_brk + words }
      (bs ++ [⟨s.mem_brk, words, 0⟩]) F :=
    @Rep_extend _ _ _ h _ ⟨s.mem_brk, words, 0⟩ rfl hw8 hw16 (by show 0 ≤ 1; omega) hmax hMb
      ⟨by show GET M (s.mem_brk - 4) = words + 0
          rw [hM, GET_PUT_ne _ _ _ _ (by omega), GET_PUT_ne _ _ _ _ (by omega), GET_PUT_same,
            e5]; rfl,
       by show GET M (s.mem_brk + words - 8) = words + 0
          rw [hM, GET_PUT_ne _ _ _ _ (by omega), GET_PUT_same, e5]; rfl⟩
      (by show GET M (s.mem_brk + words - 4) = 1
          rw [hM, GET_PUT_same]; rfl)
  obtain ⟨s1, F1, i1, i2, i3, i4⟩ := insert_node_spec2 (b := ⟨s.mem_brk, words, 0⟩) r1
    (by simp) rfl
    (by intro hc
        obtain ⟨-, -, -, -, -, -, h5, -⟩ := h.listed hc
        simp only at h5
        omega)
  have hC1 : Complete (bs ++ [⟨s.mem_brk, words, 0⟩]) F1 := by
    intro d hd hd0
    rw [i3]
    rcases List.mem_append.mp hd with hd | hd
    · left; exact hC d hd hd0
    · right; rw [List.mem_singleton.mp hd]; exact ⟨rfl, rfl⟩
  obtain ⟨s2, F2, c1, c2, c3, c4, c5, c6, c7⟩ :=
    coalesce_spec (b := ⟨s.mem_brk, words, 0⟩) (r := []) i2 rfl hC1
      (NoAdj_snoc hN (by show (1 : Nat) ≠ 0; omega))
  refine ⟨s2, F2, ?_, c2, c3, c4, ?_, ?_, ?_⟩
  · rw [hcode]
    simp only at i1 c1
    simp only [i1, c1]
  · have st1 : Step s bs { s with mem := M, mem_brk := s.mem_brk + words }
        (bs ++ [⟨s.mem_brk, words, 0⟩]) := by
      refine ⟨rfl, rfl, rfl, Nat.le_add_right _ _, fun d hd _ => List.mem_append_left _ hd, ?_⟩
      intro x hx
      obtain ⟨d, hd, -, h2, h3⟩ := hx
      have := Tiling_mem h.til hd
      exact hMb x (by omega)
    exact st1.step_trans ((Step_of_Fr i2.til i4).step_trans c5)
  · rw [c6, i4.2.1]
  · intro d hd hd1
    have := c7 d hd hd1
    rcases List.mem_append.mp this with hd | hd
    · exact hd
    · rw [List.mem_singleton.mp hd] at hd1
      simp at hd1

theorem NoAdj_alloc {l r : List Blk} (x : Blk) (hl : NoAdj l) (hr : NoAdj r)
    (hx : x.alloc ≠ 0) : NoAdj (l ++ [x] ++ r) := by
  unfold NoAdj at *
  rw [List.append_assoc, List.chain'_append]
  refine ⟨hl, ?_, ?_⟩
  · rw [List.singleton_append, List.chain'_cons']
    exact ⟨fun y _ hc => hx hc.1, hr⟩
  · intro a _ y hy hc
    simp only [List.singleton_append, List.head?_cons, Option.mem_def,
      Option.some.injEq] at hy
    subst hy
    exact hx hc.2

theorem place_spec {s : State} {l r : List Blk} {b : Blk} {F : Nat → List Nat} {asize : Nat}
    (h : Rep s (l ++ b :: r) F) (hb0 : b.alloc = 0) (hC : Complete (l ++ b :: r) F)
    (hN : NoAdj (l ++ b :: r)) (ha8 : asize % 8 = 0) (ha16 : 16 ≤ asize)
    (hle : asize ≤ b.size) :
    ∃ s2 F2, place s b.addr asize = some s2 ∧ Rep s2 (l ++ placed b asize ++ r) F2 ∧
      Complete (l ++ placed b asize ++ r) F2 ∧ NoAdj (l ++ placed b asize ++ r) ∧
      Step s (l ++ b :: r) s2 (l ++ placed b asize ++ r) ∧ s2.mem_brk = s.mem_brk := by
  have hbin : b ∈ l ++ b :: r := by simp
  have hbm := Tiling_mem h.til hbin
  have hblt := h.size_lt hbin
  obtain ⟨tl, tr, -⟩ := Tiling_split h.til
  have hNl := NoAdj_left hN
  have hNr := NoAdj_right hN
  have hbs : l ++ b :: r = l ++ [b] ++ r := by simp
  obtain ⟨F1, r1, m1, f1⟩ := delete_node_spec2 h (hC b hbin hb0)
  have e4 : GET_SIZE s.mem (b.addr - 4) = b.size := h.get_size hbin
  have erem : (b.size + W32 - asize) % W32 = b.size - asize := by
    have : b.size + W32 - asize = (b.size - asize) + W32 := by omega
    rw [this, Nat.add_mod_right]
    exact Nat.mod_eq_of_lt (by omega)
  have hF1pos : ∀ k, ∀ p ∈ F1 k, p < b.addr ∨ b.addr + b.size ≤ p := by
    intro k p hp
    obtain ⟨hp1, hp2⟩ := (m1 k p).mp hp
    obtain ⟨d, hd, hd1, -⟩ := h.fre k p hp1
    have := Tiling_mem h.til hd
    rcases Tiling_sep h.til hd hbin with e | e | e
    · subst e; exact absurd hd1.symm hp2
    · omega
    · omega
  have hside : ∀ d ∈ l ++ b :: r, d.addr ≠ b.addr → d ∈ l ∨ d ∈ r := by
    intro d hd hne
    rcases List.mem_append.mp hd with hd | hd
    · exact Or.inl hd
    · rcases List.mem_cons.mp hd with hd | hd
      · subst hd; exact absurd rfl hne
      · exact Or.inr hd
  have hposl : ∀ d ∈ l, d.addr ≠ b.addr := by
    intro d hd
    have := Tiling_mem tl hd
    omega
  have hposr : ∀ d ∈ r, d.addr ≠ b.addr := by
    intro d hd
    have := Tiling_mem tr hd
    omega
  have hprot : ∀ x, Prot (l ++ b :: r) x → x + 4 < b.addr ∨ b.addr + b.size ≤ x + 4 := by
    intro x hx
    rcases Prot_sep h.til hx hbin with p1 | p1
    · exact p1
    · omega
  have hkeep : ∀ bs2 : List Blk, ∀ d ∈ l ++ b :: r, d.alloc = 1 → d ∈ l ++ bs2 ++ r := by
    intro bs2 d hd hd1
    rcases List.mem_append.mp hd with hd | hd
    · simp [hd]
    · rcases List.mem_cons.mp hd with hd | hd
      · subst hd; omega
      · simp [hd]
  generalize hs1 : delete_node s b.addr = s1 at r1 f1
  rw [hbs] at r1
  by_cases hsplit : 16 ≤ b.size - asize
  · -- split
    have epl : placed b asize = [⟨b.addr, asize, 1⟩, ⟨b.addr + asize, b.size - asize, 0⟩] := by
      simp [placed, hsplit]
    rw [epl]
    have e5 : (asize + 1) % W32 = asize + 1 := Nat.mod_eq_of_lt (by omega)
    have e5b : (b.size - asize) % W32 = b.size - asize := Nat.mod_eq_of_lt (by omega)
    have e6 : PACK asize 1 = asize + 1 := PACK_eq ha8 (by omega)
    have e6b : PACK (b.size - asize) 0 = b.size - asize := by
      rw [PACK_eq (by omega) (by omega)]; rfl
    have e7 : ∀ m : Mem, GET_SIZE (PUT m (b.addr - 4) (asize + 1)) (b.addr - 4) = asize := by
      intro m
      unfold GET_SIZE
      rw [GET_PUT_same, e5]
      exact dec_size ha8 (by omega) (by omega)
    have e8 : ∀ (m : Mem) v, GET_SIZE (PUT (PUT m (b.addr - 4) (asize + 1))
        (b.addr + asize - 8) v) (b.addr - 4) = asize := by
      intro m v
      rw [GET_SIZE_congr (GET_PUT_ne _ _ _ _ (by omega)), e7]
    have e9 : ∀ m : Mem, GET_SIZE (PUT m (b.addr + asize - 4) (b.size - asize))
        (b.addr + asize - 4) = b.size - asize := by
      intro m
      unfold GET_SIZE
      rw [GET_PUT_same, e5b]
      have := @dec_size (b.size - asize) 0 (by omega) (by omega) (by omega)
      simpa using this
    obtain ⟨M, hM⟩ : ∃ M, M = PUT (PUT (PUT (PUT s1.mem (b.addr - 4) (asize + 1))
        (b.addr + asize - 8) (asize + 1)) (b.addr + asize - 4) (b.size - asize))
        (b.addr + asize + (b.size - asize) - 8) (b.size - asize) := ⟨_, rfl⟩
    have hcode : place s b.addr asize =
        insert_node { s1 with mem := M } (b.addr + asize) (b.size - asize) := by
      simp only [place, HDRP, WSIZE, FTRP, DSIZE, RIGHT_BLKP, e4, erem, hs1, e6, e6b, e7, e8, e9,
        hM]
      rw [if_pos (by omega)]
    have hMb : ∀ x, (x + 4 < b.addr ∨ b.addr + b.size ≤ x + 4) → M x = s1.mem x := by
      intro x hx
      rw [hM, PUT_byte_ne _ _ _ _ (by omega), PUT_byte_ne _ _ _ _ (by omega),
        PUT_byte_ne _ _ _ _ (by omega), PUT_byte_ne _ _ _ _ (by omega)]
    have r2 : Rep { s1 with mem := M }
        (l ++ [⟨b.addr, asize, 1⟩, ⟨b.addr + asize, b.size - asize, 0⟩] ++ r) F1 := by
      refine Rep_replace (a := b.addr) (e := b.addr + b.size) r1
        (by rw [f1.2.2.2.1]; exact tl)
        ⟨rfl, hbm.2.2.1, hbm.2.2.2.1, hbm.2.2.2.2.1, rfl⟩ (by rw [f1.2.1]; exact tr)
        ⟨rfl, ha8, ha16, by show 1 ≤ 1; omega, rfl, by show (b.size - asize) % 8 = 0; omega,
          hsplit, by show 0 ≤ 1; omega, by show b.addr + asize + (b.size - asize) = _; omega⟩
        hMb ?_ hF1pos
      intro d hd
      simp only [List.mem_cons, List.mem_singleton, List.not_mem_nil, or_false] at hd
      rcases hd with rfl | rfl
      · constructor
        · show GET M (b.addr - 4) = asize + 1
          rw [hM, GET_PUT_ne _ _ _ _ (by omega), GET_PUT_ne _ _ _ _ (by omega),
            GET_PUT_ne _ _ _ _ (by omega), GET_PUT_same, e5]
        · show GET M (b.addr + asize - 8) = asize + 1
          rw [hM, GET_PUT_ne _ _ _ _ (by omega), GET_PUT_ne _ _ _ _ (by omega),
            GET_PUT_same, e5]
      · constructor
        · show GET M (b.addr + asize - 4) = b.size - asize + 0
          rw [hM, GET_PUT_ne _ _ _ _ (by omega), GET_PUT_same, e5b]; rfl
        · show GET M (b.addr + asize + (b.size - asize) - 8) = b.size - asize + 0
          rw [hM, GET_PUT_same, e5b]; rfl
    obtain ⟨s2, F2, i1, i2, i3, i4⟩ :=
      insert_node_spec2 (b := ⟨b.addr + asize, b.size - asize, 0⟩) r2 (by simp) rfl
        (by intro hc
            have := hF1pos _ _ hc
            simp only at this
            omega)
    refine ⟨s2, F2, by rw [hcode]; exact i1, i2, ?_, ?_, ?_, ?_⟩
    · intro d hd hd0
      rw [i3, m1]
      simp only [List.mem_append, List.mem_cons, List.mem_singleton, List.not_mem_nil,
        or_false] at hd
      rcases hd with (hd | hd | hd) | hd
      · left; exact ⟨hC d (by simp [hd]) hd0, hposl d hd⟩
      · subst hd; simp at hd0
      · subst hd; right; exact ⟨rfl, rfl⟩
      · left; exact ⟨hC d (by simp [hd]) hd0, hposr d hd⟩
    · have := NoAdj_build ⟨b.addr + asize, b.size - asize, 0⟩
        (NoAdj_snoc (x := ⟨b.addr, asize, 1⟩) hNl (by show (1 : Nat) ≠ 0; omega)) hNr
        (by intro x hx
            simp only [List.getLast?_append, List.getLast?_singleton, Option.mem_def] at hx
            simp at hx
            subst hx
            show (1 : Nat) ≠ 0
            omega)
        (NoAdj_head (List.chain'_append.mp hN).2.1 hb0)
      simpa using this
    · have st1 : Step s (l ++ b :: r) s1 (l ++ b :: r) := Step_of_Fr h.til f1
      have st2 : Step s1 (l ++ b :: r) { s1 with mem := M }
          (l ++ [⟨b.addr, asize, 1⟩, ⟨b.addr + asize, b.size - asize, 0⟩] ++ r) :=
        ⟨rfl, rfl, rfl, le_refl _, hkeep _, fun x hx => hMb x (hprot x hx)⟩
      exact st1.step_trans (st2.step_trans (Step_of_Fr i2.til i4))
    · rw [i4.2.1]; exact f1.2.1
  · -- no split
    have epl : placed b asize = [⟨b.addr, b.size, 1⟩] := by
      simp [placed, hsplit]
    rw [epl]
    have e5 : (b.size + 1) % W32 = b.size + 1 := Nat.mod_eq_of_lt (by omega)
    have e6 : PACK b.size 1 = b.size + 1 := PACK_eq hbm.2.2.1 (by omega)
    have e7 : ∀ m : Mem, GET_SIZE (PUT m (b.addr - 4) (b.size + 1)) (b.addr - 4) = b.size := by
      intro m
      unfold GET_SIZE
      rw [GET_PUT_same, e5]
      exact dec_size hbm.2.2.1 (by omega) (by omega)
    obtain ⟨M, hM⟩ : ∃ M, M = PUT (PUT s1.mem (b.addr - 4) (b.size + 1))
        (b.addr + b.size - 8) (b.size + 1) := ⟨_, rfl⟩
    have hcode : place s b.addr asize = some { s1 with mem := M } := by
      simp only [place, HDRP, WSIZE, FTRP, DSIZE, e4, erem, hs1, e6, e7, hM]
      rw [if_neg (by omega)]
    have hMb : ∀ x, (x + 4 < b.addr ∨ b.addr + b.size ≤ x + 4) → M x = s1.mem x := by
      intro x hx
      rw [hM, PUT_byte_ne _ _ _ _ (by omega), PUT_byte_ne _ _ _ _ (by omega)]
    have r2 : Rep { s1 with mem := M } (l ++ [⟨b.addr, b.size, 1⟩] ++ r) F1 := by
      refine Rep_replace (a := b.addr) (e := b.addr + b.size) r1
        (by rw [f1.2.2.2.1]; exact tl)
        ⟨rfl, hbm.2.2.1, hbm.2.2.2.1, hbm.2.2.2.2.1, rfl⟩ (by rw [f1.2.1]; exact tr)
        ⟨rfl, hbm.2.2.1, hbm.2.2.2.1, by show 1 ≤ 1; omega, rfl⟩
        hMb ?_ hF1pos
      intro d hd
      rw [List.mem_singleton.mp hd]
      constructor
      · show GET M (b.addr - 4) = b.size + 1
        rw [hM, GET_PUT_ne _ _ _ _ (by omega), GET_PUT_same, e5]
      · show GET M (b.addr + b.size - 8) = b.size + 1
        rw [hM, GET_PUT_same, e5]
    refine ⟨_, F1, hcode, r2, ?_, ?_, ?_, ?_⟩
    · intro d hd hd0
      rw [m1]
      simp only [List.mem_append, List.mem_cons, List.mem_singleton, List.not_mem_nil,
        or_false] at hd
      rcases hd with (hd | hd) | hd
      · exact ⟨hC d (by simp [hd]) hd0, hposl d hd⟩
      · subst hd; simp at hd0
      · exact ⟨hC d (by simp [hd]) hd0, hposr d hd⟩
    · exact NoAdj_alloc _ hNl hNr (by show (1 : Nat) ≠ 0; omega)
    · have st1 : Step s (l ++ b :: r) s1 (l ++ b :: r) := Step_of_Fr h.til f1
      have st2 : Step s1 (l ++ b :: r) { s1 with mem := M } (l ++ [⟨b.addr, b.size, 1⟩] ++ r) :=
        ⟨rfl, rfl, rfl, le_refl _, hkeep _, fun x hx => hMb x (hprot x hx)⟩
      exact st1.step_trans st2
    · exact f1.2.1

/-- The inner walk of the search returns the first node of the list that is
large enough, or null. -/
theorem fit_walk_spec {m : Mem} {asize : Nat} {L : List Nat} :
    ∀ {prev p : Nat}, Seg m prev p L 0 → ∀ fuel, L.length < fuel →
    fit_walk m asize fuel p =
      some ((L.find? (fun q => decide (asize ≤ GET_SIZE m (HDRP q)))).getD 0) := by
  induction L with
  | nil =>
    intro prev p hS fuel hf
    obtain ⟨f, rfl⟩ : ∃ f, fuel = f + 1 := ⟨fuel - 1, by omega⟩
    have hp : p = 0 := hS
    subst hp
    simp [fit_walk]
  | cons b t ih =>
    intro prev p hS fuel hf
    obtain ⟨f, rfl⟩ : ∃ f, fuel = f + 1 := ⟨fuel - 1, by omega⟩
    obtain ⟨h1, h2, h3, h4⟩ := hS
    subst h1
    unfold fit_walk
    by_cases hc : asize > GET_SIZE m (HDRP p)
    · rw [if_pos ⟨h2, hc⟩, List.find?_cons_of_neg _ (by simpa using hc)]
      exact ih h4 f (by simp at hf; omega)
    · rw [if_neg (by tauto), List.find?_cons_of_pos _ (by simpa using hc)]
      rfl

theorem Rep.list_length {s : State} {bs : List Blk} {F : Nat → List Nat} (h : Rep s bs F)
    (k : Nat) : (F k).length < s.mem_brk := by
  have hsub : (F k).toFinset ⊆ Finset.range (s.mem_brk - 15) := by
    intro q hq
    rw [List.mem_toFinset] at hq
    obtain ⟨-, -, -, -, -, -, h5, -⟩ := h.listed hq
    rw [Finset.mem_range]
    omega
  have hc := Finset.card_le_card hsub
  rw [List.toFinset_card_of_nodup (h.nd k), Finset.card_range] at hc
  have := Tiling_le h.til
  omega

theorem Rep.fit {s : State} {bs : List Blk} {F : Nat → List Nat} (h : Rep s bs F)
    (asize k : Nat) :
    fit_walk s.mem asize s.mem_brk (s.seg_list k) =
      some (((F k).find? (fun q => decide (asize ≤ GET_SIZE s.mem (HDRP q)))).getD 0) :=
  fit_walk_spec (h.chn k) _ (h.list_length k)

/-- A pointer found by the search is a listed block that is large enough. -/
theorem search_loop_sound {s : State} {bs : List Blk} {F : Nat → List Nat} (h : Rep s bs F)
    (asize : Nat) : ∀ fuel idx ss, ∃ bp, search_loop s asize fuel idx ss 0 = some bp ∧
      (bp = 0 ∨ ∃ k, bp ∈ F k ∧ asize ≤ GET_SIZE s.mem (HDRP bp)) := by
  intro fuel
  induction fuel with
  | zero => intro idx ss; exact ⟨0, rfl, Or.inl rfl⟩
  | succ f ih =>
    intro idx ss
    unfold search_loop
    by_cases h1 : idx < LEN
    · rw [if_pos h1]
      by_cases h2 : idx = LEN - 1 ∨ (ss ≤ 1 ∧ s.seg_list idx ≠ 0)
      · rw [if_pos h2, h.fit asize idx]
        simp only
        cases hfind : (F idx).find? (fun q => decide (asize ≤ GET_SIZE s.mem (HDRP q))) with
        | none =>
          simp only [Option.getD_none, ne_eq, not_true_eq_false, if_false]
          exact ih _ _
        | some q =>
          have hq := List.mem_of_find?_eq_some hfind
          have hq2 := List.find?_some hfind
          have hq0 : q ≠ 0 := Seg_ne_zero (h.chn idx) q hq
          simp only [Option.getD_some, ne_eq, hq0, not_false_eq_true, if_true]
          exact ⟨q, rfl, Or.inr ⟨idx, hq, by simpa using hq2⟩⟩
      · rw [if_neg h2]
        exact ih _ _
    · rw [if_neg h1]
      exact ⟨0, rfl, Or.inl rfl⟩

theorem asize_spec {size : Nat} (h0 : size ≠ 0) (h : size ≤ W32 - 16) :
    adjusted_size size % 8 = 0 ∧ 16 ≤ adjusted_size size ∧ size + 8 ≤ adjusted_size size ∧
      adjusted_size size ≤ size + 15 := by
  unfold adjusted_size
  simp only [DSIZE, W32] at *
  by_cases hc : size ≤ 8
  · rw [if_pos hc]; omega
  · have e1 : (size + 8) % 4294967296 = size + 8 := Nat.mod_eq_of_lt (by omega)
    have e2 : ALIGN (size + 8) = (size + 8 + 7) / 8 * 8 :=
      ALIGN_eq (by simp only [W32]; omega)
    rw [if_neg hc, e1, e2]
    omega

theorem placed_spec {b : Blk} {asize : Nat} (hle : asize ≤ b.size) :
    ∃ nb, nb ∈ placed b asize ∧ nb.addr = b.addr ∧ nb.alloc = 1 ∧ asize ≤ nb.size ∧
      nb.size ≤ b.size ∧ ∀ d ∈ placed b asize, d.alloc = 1 → d = nb := by
  unfold placed
  by_cases hc : 16 ≤ b.size - asize
  · rw [if_pos hc]
    refine ⟨⟨b.addr, asize, 1⟩, by simp, rfl, rfl, le_refl _, hle, ?_⟩
    intro d hd hd1
    simp only [List.mem_cons, List.mem_singleton, List.not_mem_nil, or_false] at hd
    rcases hd with rfl | rfl
    · rfl
    · simp at hd1
  · rw [if_neg hc]
    refine ⟨⟨b.addr, b.size, 1⟩, by simp, rfl, rfl, hle, le_refl _, ?_⟩
    intro d hd _
    simpa using hd

theorem place_alloc {s : State} {l r : List Blk} {b : Blk} {F : Nat → List Nat}
    {live : List Nat} {asize : Nat}
    (h : Rep s (l ++ b :: r) F) (hb0 : b.alloc = 0) (hC : Complete (l ++ b :: r) F)
    (hN : NoAdj (l ++ b :: r))
    (hlive : ∀ p, p ∈ live ↔ ∃ d ∈ l ++ b :: r, d.addr = p ∧ d.alloc = 1)
    (ha8 : asize % 8 = 0) (ha16 : 16 ≤ asize) (hle : asize ≤ b.size) :
    ∃ s2 F2, place s b.addr asize = some s2 ∧
      Inv s2 (b.addr :: live) (l ++ placed b asize ++ r) F2 ∧
      Step s (l ++ b :: r) s2 (l ++ placed b asize ++ r) ∧ s2.mem_brk = s.mem_brk ∧
      (∃ nb ∈ l ++ placed b asize ++ r, nb.addr = b.addr ∧ nb.alloc = 1 ∧ asize ≤ nb.size) ∧
      b.addr ∉ live := by
  obtain ⟨s2, F2, p1, p2, p3, p4, p5, p6⟩ := place_spec h hb0 hC hN ha8 ha16 hle
  obtain ⟨nb, n1, n2, n3, n4, -, n6⟩ := placed_spec (b := b) hle
  have hbin : b ∈ l ++ b :: r := by simp
  have hnb : nb ∈ l ++ placed b asize ++ r := by simp [n1]
  have hnot : b.addr ∉ live := by
    intro hc
    obtain ⟨d, hd, hd1, hd2⟩ := (hlive _).mp hc
    have := Tiling_addr_inj h.til hd hbin hd1
    subst this
    omega
  refine ⟨s2, F2, p1, ⟨p2, p3, p4, ?_⟩, p5, p6, ⟨nb, hnb, n2, n3, n4⟩, hnot⟩
  intro p
  rw [List.mem_cons, hlive]
  constructor
  · rintro (rfl | ⟨d, hd, hd1, hd2⟩)
    · exact ⟨nb, hnb, n2, n3⟩
    · exact ⟨d, p5.2.2.2.2.1 d hd hd2, hd1, hd2⟩
  · rintro ⟨d, hd, hd1, hd2⟩
    rcases List.mem_append.mp hd with hd | hd
    · rcases List.mem_append.mp hd with hd | hd
      · right; exact ⟨d, by simp [hd], hd1, hd2⟩
      · left; rw [← hd1, n6 d hd hd2, n2]
    · right; exact ⟨d, by simp [hd], hd1, hd2⟩

theorem mm_malloc_spec {s : State} {live : List Nat} {bs : List Blk} {F : Nat → List Nat}
    (h : Inv s live bs F) {size : Nat} (hs : size ≤ W32 - 16) :
    ∃ s2 p bs2 F2, mm_malloc s size = some (s2, p) ∧
      Inv s2 (if p = 0 then live else p :: live) bs2 F2 ∧ Step s bs s2 bs2 ∧
      (p = 0 → s2 = s) ∧
      (p ≠ 0 → size ≠ 0 ∧ p ∉ live ∧
        ∃ nb ∈ bs2, nb.addr = p ∧ nb.alloc = 1 ∧ size + 8 ≤ nb.size) := by
  obtain ⟨hR, hC, hN, hlive⟩ := h
  have hl := hR.hl
  have hl0 : s.heap_listp ≠ 0 := by omega
  by_cases h0 : size = 0
  · refine ⟨s, 0, bs, F, ?_, ⟨hR, hC, hN, hlive⟩, Step.step_refl _ _, fun _ => rfl, fun hp => absurd rfl hp⟩
    simp [mm_malloc, hl0, h0]
  obtain ⟨a8, a16, ale, aub⟩ := asize_spec h0 hs
  obtain ⟨asize, hasz⟩ : ∃ asize, asize = adjusted_size size := ⟨_, rfl⟩
  rw [← hasz] at a8 a16 ale aub
  obtain ⟨bp, hsr, hbp⟩ := search_loop_sound hR asize (LEN + 1) 0 asize
  by_cases hbp0 : bp = 0
  · -- search miss: extend the heap
    subst hbp0
    have hm32 := hR.max
    have hbrk := hR.brk
    obtain ⟨w, hw⟩ : ∃ w, w = MAX asize CHUNKSIZE := ⟨_, rfl⟩
    have w8 : w % 8 = 0 := by
      rw [hw]; unfold MAX CHUNKSIZE; split <;> omega
    have hW : W32 = 4294967296 := rfl
    have wle : asize ≤ w ∧ 64 ≤ w ∧ (w = asize ∨ w = 64) := by
      rw [hw]; unfold MAX CHUNKSIZE; split <;> omega
    by_cases hmax : s.mem_brk + w ≤ s.mem_max_addr
    · obtain ⟨s1, F1, c1, c2, c3, c4, c5, c6, c7⟩ :=
        extend_heap_spec hR hC hN w8 (by omega) hmax
      have hcb := coalesced_blk_mem bs [] ⟨s.mem_brk, w, 0⟩
      have hcbsz := coalesced_blk_size bs [] ⟨s.mem_brk, w, 0⟩
      obtain ⟨cb, hcbdef⟩ : ∃ cb, cb = coalesced_blk bs ⟨s.mem_brk, w, 0⟩ [] := ⟨_, rfl⟩
      have hcb0 : cb.alloc = 0 := by rw [hcbdef]; rfl
      rw [← hcbdef] at hcb hcbsz c1
      have hcbm := Tiling_mem c2.til hcb
      have hl1 := c2.hl
      have hcbne : cb.addr ≠ 0 := by omega
      obtain ⟨l2, r2, hbs1⟩ := List.mem_iff_append.mp hcb
      rw [hbs1] at c2 c3 c4 c5 c7
      have hlive1 : ∀ p, p ∈ live ↔ ∃ d ∈ l2 ++ cb :: r2, d.addr = p ∧ d.alloc = 1 := by
        intro p
        rw [hlive]
        constructor
        · rintro ⟨d, hd, hd1, hd2⟩
          exact ⟨d, c5.2.2.2.2.1 d hd hd2, hd1, hd2⟩
        · rintro ⟨d, hd, hd1, hd2⟩
          exact ⟨d, c7 d hd hd2, hd1, hd2⟩
      obtain ⟨s2, F2, p1, p2, p3, p4, ⟨nb, n1, n2, n3, n4⟩, p6⟩ :=
        place_alloc c2 hcb0 c3 c4 hlive1 a8 a16 (by simp only at hcbsz; omega)
      refine ⟨s2, cb.addr, _, F2, ?_, by rw [if_neg hcbne]; exact p2, c5.step_trans p3,
        fun hp => absurd hp hcbne, fun _ => ⟨h0, p6, nb, n1, n2, n3, by omega⟩⟩
      simp only [mm_malloc, if_neg hl0, if_neg h0, ← hasz, hsr, ← hw, c1, if_neg hcbne, p1]
      rfl
    · refine ⟨s, 0, bs, F, ?_, ⟨hR, hC, hN, hlive⟩, Step.step_refl _ _, fun _ => rfl,
        fun hp => absurd rfl hp⟩
      have := extend_heap_fail (s := s) w8 (by omega) (by omega)
      simp only [mm_malloc, if_neg hl0, if_neg h0, ← hasz, hsr, ← hw, this]
      rfl
  · -- search hit
    rcases hbp with hbp | ⟨k, hk, hsz⟩
    · exact absurd hbp hbp0
    obtain ⟨b, hb, hb1, hb2, -⟩ := hR.listed hk
    subst hb1
    simp only [HDRP, WSIZE] at hsz
    rw [hR.get_size hb] at hsz
    obtain ⟨l2, r2, hbs⟩ := List.mem_iff_append.mp hb
    subst hbs
    obtain ⟨s2, F2, p1, p2, p3, p4, ⟨nb, n1, n2, n3, n4⟩, p6⟩ :=
      place_alloc hR hb2 hC hN hlive a8 a16 hsz
    refine ⟨s2, b.addr, _, F2, ?_, by rw [if_neg hbp0]; exact p2, p3,
      fun hp => absurd hp hbp0, fun _ => ⟨h0, p6, nb, n1, n2, n3, by omega⟩⟩
    simp only [mm_malloc, if_neg hl0, if_neg h0, ← hasz, hsr, if_neg hbp0, p1]
    rfl

theorem Inv.block_of_live {s : State} {live : List Nat} {bs : List Blk} {F : Nat → List Nat}
    (h : Inv s live bs F) {bp : Nat} (hbp : bp ∈ live) :
    ∃ l r b, bs = l ++ b :: r ∧ b.addr = bp ∧ b.alloc = 1 := by
  obtain ⟨b, hb, hb1, hb2⟩ := (h.2.2.2 bp).mp hbp
  obtain ⟨l, r, hbs⟩ := List.mem_iff_append.mp hb
  exact ⟨l, r, b, hbs, hb1, hb2⟩

theorem mm_free_inv {s : State} {live : List Nat} {l r : List Blk} {b : Blk}
    {F : Nat → List Nat} (h : Inv s live (l ++ b :: r) F) (hb1 : b.alloc = 1) :
    ∃ s2 F2, mm_free s b.addr = some s2 ∧
      Inv s2 (live.filter (fun q => q ≠ b.addr)) (coalesced l ⟨b.addr, b.size, 0⟩ r) F2 ∧
      Step s (l ++ ⟨b.addr, b.size, 0⟩ :: r) s2 (coalesced l ⟨b.addr, b.size, 0⟩ r) ∧
      s2.mem_brk = s.mem_brk := by
  obtain ⟨hR, hC, hN, hlive⟩ := h
  obtain ⟨s2, F2, f1, f2, f3, f4, f5, f6, f7⟩ := mm_free_spec hR hb1 hC hN
  obtain ⟨tl, tr, -⟩ := Tiling_split hR.til
  refine ⟨s2, F2, f1, ⟨f2, f3, f4, ?_⟩, f5, f6⟩
  intro p
  rw [List.mem_filter, hlive]
  simp only [ne_eq, decide_not, Bool.not_eq_eq_eq_not, Bool.not_true, decide_eq_false_iff_not]
  constructor
  · rintro ⟨⟨d, hd, hd1, hd2⟩, hne⟩
    refine ⟨d, f5.2.2.2.2.1 d ?_ hd2, hd1, hd2⟩
    rcases List.mem_append.mp hd with hd | hd
    · simp [hd]
    · rcases List.mem_cons.mp hd with hd | hd
      · subst hd; exact absurd hd1.symm hne
      · simp [hd]
  · rintro ⟨d, hd, hd1, hd2⟩
    have hd' := f7 d hd hd2
    rcases List.mem_append.mp hd' with hd' | hd'
    · have := Tiling_mem tl hd'
      exact ⟨⟨d, by simp [hd'], hd1, hd2⟩, by omega⟩
    · rcases List.mem_cons.mp hd' with hd' | hd'
      · subst hd'; simp at hd2
      · have := Tiling_mem tr hd'
        have hbm := Tiling_mem hR.til (show b ∈ l ++ b :: r by simp)
        exact ⟨⟨d, by simp [hd'], hd1, hd2⟩, by omega⟩

/-- Writes that stay inside the payload of an allocated block preserve the
representation. -/
theorem Rep_payload {s : State} {bs : List Blk} {F : Nat → List Nat} (h : Rep s bs F)
    {d : Blk} (hd : d ∈ bs) (hd1 : d.alloc = 1) {M : Mem}
    (hM : ∀ x, (x < d.addr ∨ d.addr + d.size ≤ x + 8) → M x = s.mem x) :
    Rep { s with mem := M } bs F := by
  obtain ⟨l, r, rfl⟩ := List.mem_iff_append.mp hd
  obtain ⟨tl, tr, t8, t16, tal⟩ := Tiling_split h.til
  have hbs : l ++ d :: r = l ++ [d] ++ r := by simp
  rw [hbs] at h ⊢
  obtain ⟨s1, s2⟩ := h.sto d (by simp)
  have hdm := Tiling_mem h.til (show d ∈ l ++ [d] ++ r by simp)
  refine Rep_replace (a := d.addr) (e := d.addr + d.size) h tl ⟨rfl, t8, t16, tal, rfl⟩ tr
    ⟨rfl, t8, t16, tal, rfl⟩ (fun x hx => hM x (by omega)) ?_ ?_
  · intro c hc
    rw [List.mem_singleton.mp hc]
    constructor
    · rw [GET_frame (fun x _ _ => hM x (by omega))]; exact s1
    · rw [GET_frame (fun x _ _ => hM x (by omega))]; exact s2
  · intro k p hp
    obtain ⟨c, hc, hc1, hc2, -⟩ := h.fre k p hp
    have := Tiling_mem h.til hc
    rcases Tiling_sep h.til hc (show d ∈ l ++ [d] ++ r by simp) with e | e | e
    · subst e; omega
    · omega
    · omega

theorem realloc_shrink {s : State} {bs : List Blk} {F : Nat → List Nat} (h : Rep s bs F)
    {b : Blk} (hb : b ∈ bs) {size : Nat} (h0 : size ≠ 0) (hlt : size < b.size - 8) :
    mm_realloc s b.addr size = some (s, b.addr) := by
  have hbm := Tiling_mem h.til hb
  have hl := h.hl
  have h32 := h.size_lt hb
  have hne : b.addr ≠ 0 := by omega
  have e1 : (b.size + W32 - DSIZE) % W32 = b.size - 8 := by
    have : b.size + W32 - DSIZE = (b.size - 8) + W32 := by simp only [DSIZE]; omega
    rw [this, Nat.add_mod_right]
    exact Nat.mod_eq_of_lt (by omega)
  simp only [mm_realloc, if_neg hne, if_neg h0, HDRP, WSIZE, h.get_size hb, e1, if_pos hlt]

theorem Inv_congr {s : State} {live live2 : List Nat} {bs : List Blk} {F : Nat → List Nat}
    (h : Inv s live bs F) (hl : ∀ p, p ∈ live2 ↔ p ∈ live) : Inv s live2 bs F :=
  ⟨h.1, h.2.1, h.2.2.1, fun p => by rw [hl, h.2.2.2]⟩

theorem sub8_mod {n : Nat} (h8 : 8 ≤ n) (h : n < W32) : (n + W32 - DSIZE) % W32 = n - 8 := by
  have : n + W32 - DSIZE = (n - 8) + W32 := by simp only [DSIZE]; omega
  rw [this, Nat.add_mod_right]
  exact Nat.mod_eq_of_lt (by omega)

theorem realloc_absorb {s : State} {live : List Nat} {l t : List Blk} {b c : Blk}
    {F : Nat → List Nat} {size : Nat} (h : Inv s live (l ++ b :: c :: t) F)
    (hb1 : b.alloc = 1) (hc0 : c.alloc = 0) (h0 : size ≠ 0) (h1 : b.size - 8 ≤ size)
    (h2 : size ≤ b.size + c.size - 8) :
    ∃ s2 F2, mm_realloc s b.addr size = some (s2, b.addr) ∧
      Inv s2 live (l ++ [⟨b.addr, c.size + b.size, 1⟩] ++ t) F2 ∧
      (∀ j q, q ∈ F2 j ↔ q ∈ F j ∧ q ≠ c.addr) ∧
      (∀ x, Prot (l ++ b :: c :: t) x → s2.mem x = s.mem x) ∧
      s2.mem_brk = s.mem_brk ∧ s2.heap_listp = s.heap_listp := by
  obtain ⟨hR, hC, hN, hlive⟩ := h
  have hbin : b ∈ l ++ b :: c :: t := by simp
  have hcin : c ∈ l ++ b :: c :: t := by simp
  have hbm := Tiling_mem hR.til hbin
  have hcm := Tiling_mem hR.til hcin
  have hclt := hR.size_lt hcin
  have hl := hR.hl
  have hW : W32 = 4294967296 := rfl
  have hne : b.addr ≠ 0 := by omega
  obtain ⟨tl, tr, -⟩ := Tiling_split hR.til
  obtain ⟨tc, -, -, -, tr⟩ := tr
  have hbs : l ++ b :: c :: t = l ++ [b, c] ++ t := by simp
  obtain ⟨F1, r1, m1, f1⟩ := delete_node_spec2 hR (hC c hcin hc0)
  have e1 := sub8_mod (n := b.size) (by omega) (by omega)
  have e2 : RIGHT_BLKP s.mem b.addr = c.addr := hR.right_next.1
  have e3 : GET_SIZE s.mem (c.addr - 4) = c.size := hR.get_size hcin
  have e3b : GET_ALLOC s.mem (c.addr - 4) = 0 := by rw [hR.get_alloc hcin, hc0]
  have e4 : GET_SIZE s.mem (b.addr - 4) = b.size := hR.get_size hbin
  have e5 : (c.size + b.size) % W32 = c.size + b.size := Nat.mod_eq_of_lt (by omega)
  have e5b : (c.size + b.size + 1) % W32 = c.size + b.size + 1 := Nat.mod_eq_of_lt (by omega)
  have e6 := sub8_mod (n := c.size + b.size) (by omega) (by omega)
  have e7 : PACK (c.size + b.size) 1 = c.size + b.size + 1 := PACK_eq (by omega) (by omega)
  have e8 : ∀ m : Mem, GET_SIZE (PUT m (b.addr - 4) (c.size + b.size + 1)) (b.addr - 4)
      = c.size + b.size := by
    intro m
    unfold GET_SIZE
    rw [GET_PUT_same, e5b]
    exact dec_size (by omega) (by omega) (by omega)
  generalize hs1 : delete_node s c.addr = s1 at r1 f1
  obtain ⟨M, hM⟩ : ∃ M, M = PUT (PUT s1.mem (b.addr - 4) (c.size + b.size + 1))
      (b.addr + (c.size + b.size) - 8) (c.size + b.size + 1) := ⟨_, rfl⟩
  have hcode : mm_realloc s b.addr size = some ({ s1 with mem := M }, b.addr) := by
    simp only [mm_realloc, if_neg hne, if_neg h0, HDRP, WSIZE, FTRP, e2, e3, e3b, e4, e1, e5, e6,
      e7, e8, hs1, hM]
    rw [if_neg (by omega), if_pos ⟨trivial, by omega⟩]
    rfl
  have hMb : ∀ x, (x + 4 < b.addr ∨ b.addr + (b.size + c.size) ≤ x + 4) → M x = s1.mem x := by
    intro x hx
    rw [hM, PUT_byte_ne _ _ _ _ (by omega), PUT_byte_ne _ _ _ _ (by omega)]
  rw [hbs] at r1
  have r2 : Rep { s1 with mem := M } (l ++ [⟨b.addr, c.size + b.size, 1⟩] ++ t) F1 := by
    refine Rep_replace (a := b.addr) (e := b.addr + (b.size + c.size)) r1
      (by rw [f1.2.2.2.1]; exact tl)
      ⟨rfl, hbm.2.2.1, hbm.2.2.2.1, hbm.2.2.2.2.1, tc, hcm.2.2.1, hcm.2.2.2.1, hcm.2.2.2.2.1,
        by show b.addr + b.size + c.size = _; omega⟩
      (by rw [f1.2.1, ← Nat.add_assoc]; exact tr)
      ⟨rfl, by show (c.size + b.size) % 8 = 0; omega, by show 16 ≤ c.size + b.size; omega,
        by show 1 ≤ 1; omega, by show b.addr + (c.size + b.size) = _; omega⟩
      hMb ?_ ?_
    · intro d hd
      rw [List.mem_singleton.mp hd]
      constructor
      · show GET M (b.addr - 4) = c.size + b.size + 1
        rw [hM, GET_PUT_ne _ _ _ _ (by omega), GET_PUT_same, e5b]
      · show GET M (b.addr + (c.size + b.size) - 8) = c.size + b.size + 1
        rw [hM, GET_PUT_same, e5b]
    · intro k p hp
      obtain ⟨hp1, hp2⟩ := (m1 k p).mp hp
      obtain ⟨d, hd, hd1, hd2, -⟩ := hR.fre k p hp1
      have hdm := Tiling_mem hR.til hd
      rcases Tiling_sep hR.til hd hbin with e | e | e
      · subst e; omega
      · omega
      · rcases Tiling_sep hR.til hd hcin with e' | e' | e'
        · subst e'; exact absurd hd1.symm hp2
        · omega
        · omega
  have hNl := NoAdj_left hN
  have hNt : NoAdj t := NoAdj_right (l := [])
    (x := c) (NoAdj_right hN)
  refine ⟨_, F1, hcode, ⟨r2, ?_, NoAdj_alloc _ hNl hNt (by show (1 : Nat) ≠ 0; omega), ?_⟩, m1,
    ?_, f1.2.1, f1.2.2.2.1⟩
  · intro d hd hd0
    rw [m1]
    simp only [List.mem_append, List.mem_cons, List.mem_singleton, List.not_mem_nil,
      or_false] at hd
    rcases hd with (hd | hd) | hd
    · have := Tiling_mem tl hd
      exact ⟨hC d (by simp [hd]) hd0, by omega⟩
    · subst hd; simp at hd0
    · have := Tiling_mem tr hd
      exact ⟨hC d (by simp [hd]) hd0, by omega⟩
  · intro p
    rw [hlive]
    constructor
    · rintro ⟨d, hd, hd1, hd2⟩
      simp only [List.mem_append, List.mem_cons] at hd
      rcases hd with hd | hd | hd | hd
      · exact ⟨d, by simp [hd], hd1, hd2⟩
      · rw [hd] at hd1
        exact ⟨⟨b.addr, c.size + b.size, 1⟩, by simp, hd1, rfl⟩
      · rw [hd] at hd2; omega
      · exact ⟨d, by simp [hd], hd1, hd2⟩
    · rintro ⟨d, hd, hd1, hd2⟩
      simp only [List.mem_append, List.mem_cons, List.mem_singleton, List.not_mem_nil,
        or_false] at hd
      rcases hd with (hd | hd) | hd
      · exact ⟨d, by simp [hd], hd1, hd2⟩
      · rw [hd] at hd1
        exact ⟨b, by simp, hd1, hb1⟩
      · exact ⟨d, by simp [hd], hd1, hd2⟩
  · intro x hx
    have p1 := Prot_sep hR.til hx hbin
    have p2 := Prot_sep hR.til hx hcin
    show M x = s.mem x
    rw [hM, PUT_byte_ne _ _ _ _ (by omega), PUT_byte_ne _ _ _ _ (by omega)]
    exact f1.1 x (Prot_outside hR.til hx)

theorem Kept_of_Step {s s2 : State} {bs bs2 : List Blk} (h : Step s bs s2 bs2) (bp : Nat) :
    Kept s bs bp s2 bs2 := by
  intro d hd hd1 _
  exact ⟨h.2.2.2.2.1 d hd hd1, fun x h1 h2 => h.2.2.2.2.2 x ⟨d, hd, hd1, h1, h2⟩⟩

theorem realloc_copy_spec {s : State} {live : List Nat} {l r : List Blk} {b : Blk}
    {F : Nat → List Nat} {size : Nat} (h : Inv s live (l ++ b :: r) F) (hb1 : b.alloc = 1)
    (hs : size ≤ W32 - 16) :
    ∃ s2 p bs2 F2, realloc_copy s b.addr size = some (s2, p) ∧ (p = 0 → s2 = s) ∧
      Inv s2 (if p = 0 then live else p :: live.filter (fun q => q ≠ b.addr)) bs2 F2 ∧
      Kept s (l ++ b :: r) b.addr s2 bs2 ∧
      (p ≠ 0 → p ∉ live ∧ (∃ nb ∈ bs2, nb.addr = p ∧ nb.alloc = 1 ∧ size + 8 ≤ nb.size) ∧
        ∀ i, i < size → i < b.size - 8 → s2.mem (p + i) = s.mem (b.addr + i)) := by
  have hbin : b ∈ l ++ b :: r := by simp
  have hblive : b.addr ∈ live := (h.2.2.2 _).mpr ⟨b, hbin, rfl, hb1⟩
  obtain ⟨s1, p, bs1, F1, m1, i1, st1, mz, mn⟩ := mm_malloc_spec h hs
  by_cases hp : p = 0
  · subst hp
    have := mz rfl
    subst this
    refine ⟨s1, 0, l ++ b :: r, F, ?_, fun _ => rfl, by simpa using h, ?_, fun hc => absurd rfl hc⟩
    · simp only [realloc_copy, m1]
      rfl
    · intro d hd _ _
      exact ⟨hd, fun _ _ _ => rfl⟩
  · obtain ⟨-, hpl, nb, hnb, n1, n2, n3⟩ := mn hp
    rw [if_neg hp] at i1
    have hpne : p ≠ b.addr := by
      rintro rfl
      exact hpl hblive
    have hb1in : b ∈ bs1 := st1.2.2.2.2.1 b hbin hb1
    have hbm := Tiling_mem i1.1.til hb1in
    have hnm := Tiling_mem i1.1.til hnb
    have esz : GET_SIZE s1.mem (b.addr - 4) = b.size := i1.1.get_size hb1in
    obtain ⟨n, hn⟩ : ∃ n, n = copy_size s1.mem b.addr size := ⟨_, rfl⟩
    have hnle : n ≤ size ∧ (size < b.size → n = size) ∧ (b.size ≤ size → n = b.size) := by
      rw [hn]
      simp only [copy_size, HDRP, WSIZE, esz]
      split <;> omega
    obtain ⟨M, hM⟩ : ∃ M, M = memcpy s1.mem p b.addr n := ⟨_, rfl⟩
    have hMout : ∀ x, (x < p ∨ p + n ≤ x) → M x = s1.mem x := by
      intro x hx
      rw [hM]
      unfold memcpy
      rw [if_neg (by omega)]
    have hMin : ∀ i, i < n → M (p + i) = s1.mem (b.addr + i) := by
      intro i hi
      rw [hM]
      unfold memcpy
      rw [if_pos (by omega)]
      congr 1
      omega
    have r2 : Rep { s1 with mem := M } bs1 F1 :=
      Rep_payload i1.1 hnb n2 (fun x hx => hMout x (by omega))
    have i2 : Inv { s1 with mem := M } (p :: live) bs1 F1 := ⟨r2, i1.2.1, i1.2.2.1, i1.2.2.2⟩
    obtain ⟨l1, r1, hbs1⟩ := List.mem_iff_append.mp hb1in
    rw [hbs1] at i2
    obtain ⟨s3, F3, f1, f2, f3, f4⟩ := mm_free_inv i2 hb1
    have hfilter : (p :: live).filter (fun q => q ≠ b.addr) =
        p :: live.filter (fun q => q ≠ b.addr) := by
      simp [List.filter_cons, hpne]
    rw [hfilter] at f2
    have hother : ∀ d ∈ bs1, d.addr ≠ b.addr → d ∈ l1 ++ ⟨b.addr, b.size, 0⟩ :: r1 := by
      intro d hd hne
      rw [hbs1] at hd
      rcases List.mem_append.mp hd with hd | hd
      · simp [hd]
      · rcases List.mem_cons.mp hd with hd | hd
        · subst hd; exact absurd rfl hne
        · simp [hd]
    have hnb2 := hother nb hnb (by rw [n1]; exact hpne)
    refine ⟨s3, p, _, F3, ?_, fun hc => absurd hc hp, by rw [if_neg hp]; exact f2, ?_,
      fun _ => ⟨hpl, ⟨nb, f3.2.2.2.2.1 nb hnb2 n2, n1, n2, n3⟩, ?_⟩⟩
    · simp only [realloc_copy, m1, if_neg hp, ← hn, ← hM, f1]
      rfl
    · intro d hd hd1 hdne
      have hd1in := st1.2.2.2.2.1 d hd hd1
      have hd2 := hother d hd1in hdne
      refine ⟨f3.2.2.2.2.1 d hd2 hd1, ?_⟩
      intro x hx1 hx2
      have hdp : d.addr ≠ p := by
        intro hc
        apply hpl
        rw [← hc]
        exact (h.2.2.2 _).mpr ⟨d, hd, rfl, hd1⟩
      have hsep := Tiling_sep i1.1.til hd1in hnb
      have hdm := Tiling_mem i1.1.til hd1in
      rw [f3.2.2.2.2.2 x ⟨d, hd2, hd1, hx1, hx2⟩]
      show M x = s.mem x
      rw [hMout x (by
        rcases hsep with e | e | e
        · rw [e, n1] at hdp; exact absurd rfl hdp
        · omega
        · omega)]
      exact st1.2.2.2.2.2 x ⟨d, hd, hd1, hx1, hx2⟩
    · intro i hi1 hi2
      rw [f3.2.2.2.2.2 (p + i) ⟨nb, hnb2, n2, by omega, by omega⟩]
      show M (p + i) = s.mem (b.addr + i)
      rw [hMin i (by omega)]
      exact st1.2.2.2.2.2 _ ⟨b, hbin, hb1, by omega, by omega⟩

/-- When the request does not fit the block and the right neighbour cannot be
absorbed, `mm_realloc` takes the malloc-copy-free path. -/
theorem realloc_to_copy {s : State} {l r : List Blk} {b : Blk} {F : Nat → List Nat}
    {size : Nat} (h : Rep s (l ++ b :: r) F) (h0 : size ≠ 0) (h1 : b.size - 8 ≤ size)
    (h2 : ∀ c ∈ r.head?, c.alloc = 0 → b.size + c.size - 8 < size) :
    mm_realloc s b.addr size = realloc_copy s b.addr size := by
  have hbin : b ∈ l ++ b :: r := by simp
  have hbm := Tiling_mem h.til hbin
  have hl := h.hl
  have hW : W32 = 4294967296 := rfl
  have hblt := h.size_lt hbin
  have hne : b.addr ≠ 0 := by omega
  have e1 := sub8_mod (n := b.size) (by omega) (by omega)
  have e4 : GET_SIZE s.mem (b.addr - 4) = b.size := h.get_size hbin
  rcases r with _ | ⟨c, t⟩
  · have e2 : GET_ALLOC s.mem (RIGHT_BLKP s.mem b.addr - 4) = 1 := h.right_epi
    simp only [mm_realloc, if_neg hne, if_neg h0, HDRP, WSIZE, e1, e2, e4]
    rw [if_neg (by omega)]
    simp
  · have hcin : c ∈ l ++ b :: c :: t := by simp
    have hcm := Tiling_mem h.til hcin
    have hclt := h.size_lt hcin
    have e2 : RIGHT_BLKP s.mem b.addr = c.addr := h.right_next.1
    have tc : c.addr = b.addr + b.size := h.right_next.2
    have e3 : GET_SIZE s.mem (c.addr - 4) = c.size := h.get_size hcin
    have e3b : GET_ALLOC s.mem (c.addr - 4) = c.alloc := h.get_alloc hcin
    have e5 : (c.size + b.size) % W32 = c.size + b.size := Nat.mod_eq_of_lt (by omega)
    have e6 := sub8_mod (n := c.size + b.size) (by omega) (by omega)
    have h2' := h2 c (by simp)
    simp only [mm_realloc, if_neg hne, if_neg h0, HDRP, WSIZE, e1, e2, e3, e3b, e4, e5, e6]
    rw [if_neg (by omega), if_neg (by intro hc; have := h2' hc.1; omega),
      if_neg (by intro hc; omega)]

theorem mem_live_same {live : List Nat} {bp : Nat} (hbp : bp ∈ live) (q : Nat) :
    q ∈ bp :: live.filter (fun q => q ≠ bp) ↔ q ∈ live := by
  rw [List.mem_cons, List.mem_filter]
  simp only [ne_eq, decide_not, Bool.not_eq_eq_eq_not, Bool.not_true, decide_eq_false_iff_not]
  by_cases h : q = bp
  · subst h; simp [hbp]
  · simp [h]

theorem mm_realloc_inv {s : State} {live : List Nat} {bs : List Blk} {F : Nat → List Nat}
    (h : Inv s live bs F) {bp size : Nat} (hbp : bp = 0 ∨ bp ∈ live) (hs : size ≤ W32 - 16) :
    ∃ s2 p bs2 F2, mm_realloc s bp size = some (s2, p) ∧
      Inv s2 (realloc_live live bp size p) bs2 F2 ∧ Kept s bs bp s2 bs2 ∧
      (p ≠ 0 → ∃ nb ∈ bs2, nb.addr = p ∧ nb.alloc = 1 ∧ size + 8 ≤ nb.size) ∧
      (bp ≠ 0 → p ≠ 0 → ∀ b ∈ bs, b.addr = bp → ∀ i, i < size → i < b.size - 8 →
        s2.mem (p + i) = s.mem (bp + i)) := by
  by_cases hbp0 : bp = 0
  · subst hbp0
    obtain ⟨s1, p, bs1, F1, m1, i1, st1, -, mn⟩ := mm_malloc_spec h hs
    refine ⟨s1, p, bs1, F1, ?_, ?_, Kept_of_Step st1 0, fun hp => (mn hp).2.2,
      fun hc => absurd rfl hc⟩
    · simp only [mm_realloc, if_true]
      exact m1
    · simpa [realloc_live] using i1
  have hbpl : bp ∈ live := by tauto
  obtain ⟨l, r, b, rfl, rfl, hb1⟩ := h.block_of_live hbpl
  have hbin : b ∈ l ++ b :: r := by simp
  have hbm := Tiling_mem h.1.til hbin
  have hkeepflip : ∀ d ∈ l ++ b :: r, d.addr ≠ b.addr → d ∈ l ++ ⟨b.addr, b.size, 0⟩ :: r := by
    intro d hd hne
    rcases List.mem_append.mp hd with hd | hd
    · simp [hd]
    · rcases List.mem_cons.mp hd with hd | hd
      · subst hd; exact absurd rfl hne
      · simp [hd]
  by_cases h0 : size = 0
  · subst h0
    obtain ⟨s2, F2, f1, f2, f3, f4⟩ := mm_free_inv h hb1
    refine ⟨s2, 0, coalesced l ⟨b.addr, b.size, 0⟩ r, F2, ?_, ?_, ?_, fun hc => absurd rfl hc,
      fun _ hc => absurd rfl hc⟩
    · simp only [mm_realloc, if_neg hbp0, if_true, f1]
      rfl
    · simpa [realloc_live, hbp0] using f2
    · intro d hd hd1 hne
      have hd2 := hkeepflip d hd hne
      exact ⟨f3.2.2.2.2.1 d hd2 hd1, fun x h1 h2 => f3.2.2.2.2.2 x ⟨d, hd2, hd1, h1, h2⟩⟩
  by_cases hshr : size < b.size - 8
  · refine ⟨s, b.addr, l ++ b :: r, F, realloc_shrink h.1 hbin h0 hshr, ?_,
      Kept_of_Step (Step.step_refl _ _) _,
      fun _ => ⟨b, hbin, rfl, hb1, by omega⟩, fun _ _ _ _ _ _ _ _ => rfl⟩
    refine Inv_congr h ?_
    intro q
    simp only [realloc_live, if_neg hbp0, if_neg h0]
    exact mem_live_same hbpl q
  have hcopy : (∀ c ∈ r.head?, c.alloc = 0 → b.size + c.size - 8 < size) →
      ∃ s2 p bs2 F2, mm_realloc s b.addr size = some (s2, p) ∧
      Inv s2 (realloc_live live b.addr size p) bs2 F2 ∧ Kept s (l ++ b :: r) b.addr s2 bs2 ∧
      (p ≠ 0 → ∃ nb ∈ bs2, nb.addr = p ∧ nb.alloc = 1 ∧ size + 8 ≤ nb.size) ∧
      (b.addr ≠ 0 → p ≠ 0 → ∀ b2 ∈ l ++ b :: r, b2.addr = b.addr → ∀ i, i < size →
        i < b2.size - 8 → s2.mem (p + i) = s.mem (b.addr + i)) := by
    intro hc
    obtain ⟨s2, p, bs2, F2, c1, c2, c3, c4, c5⟩ := realloc_copy_spec h hb1 hs
    refine ⟨s2, p, bs2, F2, ?_, ?_, c4, fun hp => (c5 hp).2.1, ?_⟩
    · rw [realloc_to_copy h.1 h0 (by omega) hc]
      exact c1
    · simp only [realloc_live, if_neg hbp0, if_neg h0]
      exact c3
    · intro _ hp b2 hb2 hb2a i hi1 hi2
      have := Tiling_addr_inj h.1.til hb2 hbin hb2a
      subst this
      exact (c5 hp).2.2 i hi1 hi2
  rcases r with _ | ⟨c, t⟩
  · exact hcopy (by simp)
  · by_cases hab : c.alloc = 0 ∧ size ≤ b.size + c.size - 8
    · obtain ⟨s2, F2, a1, a2, a3, a4, a5, a6⟩ := realloc_absorb h hb1 hab.1 h0 (by omega) hab.2
      have hnb : (⟨b.addr, c.size + b.size, 1⟩ : Blk) ∈
          l ++ [(⟨b.addr, c.size + b.size, 1⟩ : Blk)] ++ t := by simp
      refine ⟨s2, b.addr, l ++ [(⟨b.addr, c.size + b.size, 1⟩ : Blk)] ++ t, F2, a1, ?_, ?_,
        fun _ => ⟨_, hnb, rfl, rfl, ?_⟩, ?_⟩
      · refine Inv_congr a2 ?_
        intro q
        simp only [realloc_live, if_neg hbp0, if_neg h0]
        exact mem_live_same hbpl q
      · intro d hd hd1 hne
        refine ⟨?_, fun x h1 h2 => a4 x ⟨d, hd, hd1, h1, h2⟩⟩
        simp only [List.mem_append, List.mem_cons] at hd
        rcases hd with hd | hd | hd | hd
        · simp [hd]
        · subst hd; exact absurd rfl hne
        · subst hd; omega
        · simp [hd]
      · show size + 8 ≤ c.size + b.size
        have := Tiling_mem h.1.til (show c ∈ l ++ b :: c :: t by simp)
        omega
      · intro _ _ b2 hb2 hb2a i hi1 hi2
        have := Tiling_addr_inj h.1.til hb2 hbin hb2a
        subst this
        exact a4 _ ⟨b2, hbin, hb1, by omega, by omega⟩
    · apply hcopy
      intro c2 hc2 hc0
      simp only [List.head?_cons, Option.mem_def, Option.some.injEq] at hc2
      subst hc2
      have := Tiling_mem h.1.til (show c ∈ l ++ b :: c :: t by simp)
      by_contra hcon
      exact hab ⟨hc0, by omega⟩

theorem mm_init_inv {s0 s : State} (h8 : s0.mem_brk % 8 = 0)
    (hst : s0.mem_start_brk ≤ s0.mem_brk) (hmax : s0.mem_max_addr < W32)
    (h : mm_init s0 = some (s, 0)) : ∃ bs F, Inv s [] bs F := by
  by_cases hsb : s0.mem_brk + 16 ≤ s0.mem_max_addr
  · obtain ⟨M, hM⟩ : ∃ M, M = PUT (PUT (PUT (PUT s0.mem s0.mem_brk 0) (s0.mem_brk + 4) 9)
        (s0.mem_brk + 8) 9) (s0.mem_brk + 12) 1 := ⟨_, rfl⟩
    obtain ⟨s1, hs1⟩ : ∃ s1 : State, s1 = State.mk M s0.mem_start_brk (s0.mem_brk + 16)
        s0.mem_max_addr (fun _ => 0) (s0.mem_brk + 8) := ⟨_, rfl⟩
    have hcode : mm_init s0 = match extend_heap s1 CHUNKSIZE with
        | none => none
        | some (s, bp) => if bp = 0 then some (s, -1) else some (s, 0) := by
      have e1 : PACK DSIZE 1 = 9 := by decide
      have e2 : PACK 0 1 = 1 := by decide
      simp only [mm_init, mem_sbrk, DSIZE, WSIZE, Nat.reduceMul, if_pos hsb, e2, hs1, hM]
      simp only [DSIZE] at e1
      rw [e1]
    have r1 : Rep s1 [] (fun _ => []) := by
      subst hs1
      refine ⟨by show (s0.mem_brk + 8) % 8 = 0; omega,
        by show s0.mem_start_brk + 8 ≤ s0.mem_brk + 8; omega,
        by show s0.mem_brk + 16 ≤ s0.mem_max_addr; omega, hmax, ?_, ?_, ?_, ?_,
        by simp, fun _ => rfl, by simp, by simp⟩
      · show GET M (s0.mem_brk + 8 - 4) = 9
        have e : s0.mem_brk + 8 - 4 = s0.mem_brk + 4 := by omega
        rw [e, hM, GET_PUT_ne _ _ _ _ (by omega), GET_PUT_ne _ _ _ _ (by omega), GET_PUT_same]
        rfl
      · show GET M (s0.mem_brk + 8) = 9
        rw [hM, GET_PUT_ne _ _ _ _ (by omega), GET_PUT_same]
        rfl
      · show GET M (s0.mem_brk + 16 - 4) = 1
        have e : s0.mem_brk + 16 - 4 = s0.mem_brk + 12 := by omega
        rw [e, hM, GET_PUT_same]
        rfl
      · show s0.mem_brk + 8 + 8 = s0.mem_brk + 16
        omega
    have hC : Complete [] (fun _ => []) := by intro d hd; simp at hd
    have hN : NoAdj [] := List.chain'_nil
    by_cases hext : s1.mem_brk + CHUNKSIZE ≤ s1.mem_max_addr
    · obtain ⟨s2, F2, c1, c2, c3, c4, c5, c6, c7⟩ :=
        extend_heap_spec r1 hC hN (by decide : CHUNKSIZE % 8 = 0) (by decide) hext
      have hcb := coalesced_blk_mem [] [] ⟨s1.mem_brk, CHUNKSIZE, 0⟩
      have hcbm := Tiling_mem c2.til hcb
      have hl := c2.hl
      have hne : (coalesced_blk [] ⟨s1.mem_brk, CHUNKSIZE, 0⟩ []).addr ≠ 0 := by omega
      rw [hcode, c1] at h
      simp only [if_neg hne, Option.some.injEq, Prod.mk.injEq, and_true] at h
      subst h
      refine ⟨_, F2, c2, c3, c4, ?_⟩
      intro p
      constructor
      · intro hp; simp at hp
      · rintro ⟨d, hd, -, hd1⟩
        have := c7 d hd hd1
        simp at this
    · have := @extend_heap_fail s1 CHUNKSIZE (by decide) (by decide)
        (by omega)
      rw [hcode, this] at h
      simp at h
  · simp only [mm_init, mem_sbrk, DSIZE, Nat.reduceMul, if_neg hsb] at h
    simp at h

/-- Every reachable state satisfies the invariant. -/
theorem reachable_inv {s : State} {live : List Nat} (h : Reachable s live) :
    ∃ bs F, Inv s live bs F := by
  induction h with
  | init s0 s h8 hst hmax hi => exact mm_init_inv h8 hst hmax hi
  | malloc s s1 live size p _ hs hm ih =>
    obtain ⟨bs, F, hI⟩ := ih
    obtain ⟨s2, p2, bs2, F2, m1, i1, -⟩ := mm_malloc_spec hI hs
    rw [hm] at m1
    simp only [Option.some.injEq, Prod.mk.injEq] at m1
    obtain ⟨rfl, rfl⟩ := m1
    exact ⟨bs2, F2, i1⟩
  | free s s1 live bp _ hbp hf ih =>
    obtain ⟨bs, F, hI⟩ := ih
    obtain ⟨l, r, b, rfl, rfl, hb1⟩ := hI.block_of_live hbp
    obtain ⟨s2, F2, f1, f2, -⟩ := mm_free_inv hI hb1
    rw [hf] at f1
    simp only [Option.some.injEq] at f1
    subst f1
    exact ⟨_, F2, f2⟩
  | realloc s s1 live bp size p _ hbp hs hr ih =>
    obtain ⟨bs, F, hI⟩ := ih
    obtain ⟨s2, p2, bs2, F2, m1, i1, -⟩ := mm_realloc_inv hI hbp hs
    rw [hr] at m1
    simp only [Option.some.injEq, Prod.mk.injEq] at m1
    obtain ⟨rfl, rfl⟩ := m1
    exact ⟨bs2, F2, i1⟩

theorem Tiling_length {bs : List Blk} {p e : Nat} (h : Tiling p bs e) :
    p + 16 * bs.length ≤ e := by
  induction bs generalizing p with
  | nil => simp [Tiling] at h; simp; omega
  | cons b l ih =>
    obtain ⟨-, -, h3, -, h5⟩ := h
    have := ih h5
    simp only [List.length_cons]
    omega

theorem walk_heap_eq {m : Mem} {e : Nat} (hepi : GET m (e - 4) = 1) :
    ∀ {bs : List Blk} {p : Nat}, Tiling p bs e →
    (∀ b ∈ bs, Stored m b ∧ b.size + b.alloc < W32) →
    ∀ fuel, bs.length < fuel → walk_heap m fuel p = bs := by
  intro bs
  induction bs with
  | nil =>
    intro p ht _ fuel hf
    obtain ⟨f, rfl⟩ : ∃ f, fuel = f + 1 := ⟨fuel - 1, by omega⟩
    have hp : p = e := ht
    subst hp
    simp only [walk_heap, HDRP, WSIZE, GET_SIZE, hepi]
    rw [if_pos (by decide)]
  | cons b t ih =>
    intro p ht hs fuel hf
    obtain ⟨f, rfl⟩ : ∃ f, fuel = f + 1 := ⟨fuel - 1, by omega⟩
    obtain ⟨h1, h2, h3, h4, h5⟩ := ht
    obtain ⟨⟨s1, -⟩, s3⟩ := hs b (List.mem_cons_self _ _)
    subst h1
    have e1 : GET_SIZE m (b.addr - 4) = b.size := by
      unfold GET_SIZE; rw [s1]; exact dec_size h2 h4 s3
    have e2 : GET_ALLOC m (b.addr - 4) = b.alloc := by
      unfold GET_ALLOC; rw [s1]; exact dec_alloc h2 h4
    simp only [walk_heap, HDRP, WSIZE, RIGHT_BLKP, e1, e2]
    rw [if_neg (by omega)]
    congr 1
    exact ih h5 (fun c hc => hs c (List.mem_cons_of_mem _ hc)) f (by simp at hf; omega)

theorem walk_list_eq {m : Mem} : ∀ {L : List Nat} {prev p : Nat}, Seg m prev p L 0 →
    ∀ fuel, L.length < fuel → walk_list m fuel p = L := by
  intro L
  induction L with
  | nil =>
    intro prev p hS fuel hf
    obtain ⟨f, rfl⟩ : ∃ f, fuel = f + 1 := ⟨fuel - 1, by omega⟩
    have hp : p = 0 := hS
    subst hp
    simp [walk_list]
  | cons b t ih =>
    intro prev p hS fuel hf
    obtain ⟨f, rfl⟩ : ∃ f, fuel = f + 1 := ⟨fuel - 1, by omega⟩
    obtain ⟨h1, h2, h3, h4⟩ := hS
    subst h1
    simp only [walk_list, if_neg h2, SUCC_BLK, SUCC_PTR, WSIZE]
    congr 1
    exact ih h4 f (by simp at hf; omega)

/-- The blocks read back from the heap are the blocks of the representation. -/
theorem Rep.blocks_eq {s : State} {bs : List Blk} {F : Nat → List Nat} (h : Rep s bs F) :
    heap_blocks s = bs := by
  have hl := h.hl
  have hlen := Tiling_length h.til
  refine walk_heap_eq h.epi h.til ?_ _ (by omega)
  intro b hb
  have := h.size_lt hb
  have := Tiling_mem h.til hb
  exact ⟨h.sto b hb, by omega⟩

/-- The nodes read back from a class list are the list of the representation. -/
theorem Rep.lists_eq {s : State} {bs : List Blk} {F : Nat → List Nat} (h : Rep s bs F)
    (k : Nat) : class_list s k = F k :=
  walk_list_eq (h.chn k) _ (h.list_length k)

theorem Inv.concrete {s : State} {live : List Nat} {bs : List Blk} {F : Nat → List Nat}
    (h : Inv s live bs F) : Inv s live (heap_blocks s) (class_list s) := by
  have e1 := h.1.blocks_eq
  have e2 : class_list s = F := funext (fun k => h.1.lists_eq k)
  rw [e1, e2]
  exact h

/-- Every reachable state satisfies the invariant, for the blocks and lists
read back from its memory. -/
theorem reachable_inv_concrete {s : State} {live : List Nat} (h : Reachable s live) :
    Inv s live (heap_blocks s) (class_list s) := by
  obtain ⟨bs, F, hI⟩ := reachable_inv h
  exact hI.concrete

theorem reach_st1 : Reachable st1 [] :=
  Reachable.init s0 st1 (by decide) (by decide) (by decide) rfl

theorem reach_st2 : Reachable st2 [4112] :=
  Reachable.malloc st1 st2 [] 24 4112 reach_st1 (by decide) rfl

theorem Rep.block_reads {s : State} {bs : List Blk} {F : Nat → List Nat} (h : Rep s bs F)
    {nb : Blk} (hnb : nb ∈ bs) (h1 : nb.alloc = 1) {size : Nat} (hsz : size + 8 ≤ nb.size) :
    GET_ALLOC s.mem (HDRP nb.addr) = 1 ∧ size ≤ GET_SIZE s.mem (HDRP nb.addr) - DSIZE ∧
      nb.addr + size ≤ FTRP s.mem nb.addr ∧ nb.addr % 8 = 0 := by
  have hm := Tiling_mem h.til hnb
  have h8 := h.hl8
  simp only [HDRP, WSIZE, FTRP, DSIZE]
  rw [h.get_alloc hnb, h.get_size hnb]
  omega

/-- C1. In a reachable state, `mm_malloc(size)` and `mm_realloc(bp, size)` on
a live `bp` return, for `0 < size ≤ 2^32 - 16`; when the pointer `p` returned
is not null, the header of `p` has the allocated bit set, its size leaves
`size` bytes after header and footer, and `p + size` does not pass the footer. -/
theorem C1_capacity {s : State} {live : List Nat} (hR : Reachable s live) {size : Nat}
    (hs : size ≤ W32 - 16) :
    (∃ s2 p, mm_malloc s size = some (s2, p) ∧
      (p ≠ 0 → GET_ALLOC s2.mem (HDRP p) = 1 ∧ size ≤ GET_SIZE s2.mem (HDRP p) - DSIZE ∧
        p + size ≤ FTRP s2.mem p)) ∧
    ∀ bp ∈ live, ∃ s2 p, mm_realloc s bp size = some (s2, p) ∧
      (p ≠ 0 → GET_ALLOC s2.mem (HDRP p) = 1 ∧ size ≤ GET_SIZE s2.mem (HDRP p) - DSIZE ∧
        p + size ≤ FTRP s2.mem p) := by
  obtain ⟨bs, F, hI⟩ := reachable_inv hR
  constructor
  · obtain ⟨s2, p, bs2, F2, m1, i1, -, -, mn⟩ := mm_malloc_spec hI hs
    refine ⟨s2, p, m1, fun hp => ?_⟩
    obtain ⟨-, -, nb, hnb, n1, n2, n3⟩ := mn hp
    have := i1.1.block_reads hnb n2 n3
    rw [n1] at this
    exact ⟨this.1, this.2.1, this.2.2.1⟩
  · intro bp hbp
    obtain ⟨s2, p, bs2, F2, m1, i1, -, mn, -⟩ := mm_realloc_inv hI (Or.inr hbp) hs
    refine ⟨s2, p, m1, fun hp => ?_⟩
    obtain ⟨nb, hnb, n1, n2, n3⟩ := mn hp
    have := i1.1.block_reads hnb n2 n3
    rw [n1] at this
    exact ⟨this.1, this.2.1, this.2.2.1⟩

theorem C1_capacity_witness :
    (∃ s2 p, mm_malloc st2 40 = some (s2, p) ∧
      (p ≠ 0 → GET_ALLOC s2.mem (HDRP p) = 1 ∧ 40 ≤ GET_SIZE s2.mem (HDRP p) - DSIZE ∧
        p + 40 ≤ FTRP s2.mem p)) ∧
    ∀ bp ∈ [4112], ∃ s2 p, mm_realloc st2 bp 40 = some (s2, p) ∧
      (p ≠ 0 → GET_ALLOC s2.mem (HDRP p) = 1 ∧ 40 ≤ GET_SIZE s2.mem (HDRP p) - DSIZE ∧
        p + 40 ≤ FTRP s2.mem p) :=
  C1_capacity reach_st2 (by decide)

/-- C2. In a reachable state the prologue header and footer hold `{8,1}`; the
blocks read from the first block on by adding header sizes tile the heap up to
the break, each of a size that is a multiple of 8 and at least 16, with equal
header and footer words and a header inside the heap; the walk ends at the
epilogue `{0,1}` in the last 4 bytes; and the blocks do not overlap. -/
theorem C2_heap_well_formed {s : State} {live : List Nat} (hR : Reachable s live) :
    GET s.mem (HDRP s.heap_listp) = PACK DSIZE 1 ∧ GET s.mem s.heap_listp = PACK DSIZE 1 ∧
    Tiling (s.heap_listp + DSIZE) (heap_blocks s) s.mem_brk ∧
    (∀ b ∈ heap_blocks s, b.size % 8 = 0 ∧ 16 ≤ b.size ∧
      GET s.mem (HDRP b.addr) = GET s.mem (FTRP s.mem b.addr) ∧
      GET_SIZE s.mem (HDRP b.addr) = b.size ∧
      s.mem_start_brk ≤ HDRP b.addr ∧ HDRP b.addr < s.mem_brk - 1) ∧
    GET s.mem (s.mem_brk - WSIZE) = PACK 0 1 ∧
    (heap_blocks s).Pairwise (fun a b => a.addr + a.size ≤ b.addr) := by
  have hI := (reachable_inv_concrete hR).1
  have e1 : PACK DSIZE 1 = 9 := by decide
  have e2 : PACK 0 1 = 1 := by decide
  rw [e1, e2]
  refine ⟨hI.pro_h, hI.pro_f, hI.til, ?_, hI.epi, Tiling_pairwise hI.til⟩
  intro b hb
  have hm := Tiling_mem hI.til hb
  have hl := hI.hl
  obtain ⟨s1, s2⟩ := hI.sto b hb
  refine ⟨hm.2.2.1, hm.2.2.2.1, ?_, hI.get_size hb, ?_, ?_⟩
  · rw [hI.ftrp hb]
    simp only [HDRP, WSIZE]
    rw [s1, s2]
  · simp only [HDRP, WSIZE]; omega
  · simp only [HDRP, WSIZE]; omega

theorem C2_heap_well_formed_witness :
    GET st2.mem (HDRP st2.heap_listp) = PACK DSIZE 1 ∧
    GET st2.mem st2.heap_listp = PACK DSIZE 1 ∧
    Tiling (st2.heap_listp + DSIZE) (heap_blocks st2) st2.mem_brk ∧
    (∀ b ∈ heap_blocks st2, b.size % 8 = 0 ∧ 16 ≤ b.size ∧
      GET st2.mem (HDRP b.addr) = GET st2.mem (FTRP st2.mem b.addr) ∧
      GET_SIZE st2.mem (HDRP b.addr) = b.size ∧
      st2.mem_start_brk ≤ HDRP b.addr ∧ HDRP b.addr < st2.mem_brk - 1) ∧
    GET st2.mem (st2.mem_brk - WSIZE) = PACK 0 1 ∧
    (heap_blocks st2).Pairwise (fun a b => a.addr + a.size ≤ b.addr) :=
  C2_heap_well_formed reach_st2

/-- C3. In a reachable state every pointer returned by `mm_malloc(size)` and by
`mm_realloc(bp, size)` (for `bp` null or live, `size ≤ 2^32 - 16`) is a
multiple of 8; both calls return. -/
theorem C3_alignment {s : State} {live : List Nat} (hR : Reachable s live) {size : Nat}
    (hs : size ≤ W32 - 16) :
    (∃ s2 p, mm_malloc s size = some (s2, p) ∧ p % 8 = 0) ∧
    ∀ bp, bp = 0 ∨ bp ∈ live → ∃ s2 p, mm_realloc s bp size = some (s2, p) ∧ p % 8 = 0 := by
  obtain ⟨bs, F, hI⟩ := reachable_inv hR
  constructor
  · obtain ⟨s2, p, bs2, F2, m1, i1, -, -, mn⟩ := mm_malloc_spec hI hs
    refine ⟨s2, p, m1, ?_⟩
    by_cases hp : p = 0
    · rw [hp]
    · obtain ⟨-, -, nb, hnb, n1, n2, n3⟩ := mn hp
      have := i1.1.block_reads hnb n2 n3
      rw [n1] at this
      exact this.2.2.2
  · intro bp hbp
    obtain ⟨s2, p, bs2, F2, m1, i1, -, mn, -⟩ := mm_realloc_inv hI hbp hs
    refine ⟨s2, p, m1, ?_⟩
    by_cases hp : p = 0
    · rw [hp]
    · obtain ⟨nb, hnb, n1, n2, n3⟩ := mn hp
      have := i1.1.block_reads hnb n2 n3
      rw [n1] at this
      exact this.2.2.2

theorem C3_alignment_witness :
    (∃ s2 p, mm_malloc st2 100 = some (s2, p) ∧ p % 8 = 0) ∧
    ∀ bp, bp = 0 ∨ bp ∈ [4112] → ∃ s2 p, mm_realloc st2 bp 100 = some (s2, p) ∧ p % 8 = 0 :=
  C3_alignment reach_st2 (by decide)

/-- C4. In a reachable state, `mm_realloc(bp, size)` on a live `bp` of block
size `cur` returns; when the pointer `p` returned is not null, byte `p + i`
after the call equals byte `bp + i` before it, for every
`i < min(size, cur - DSIZE)`. -/
theorem C4_realloc_contents {s : State} {live : List Nat} (hR : Reachable s live)
    {bp size : Nat} (hbp : bp ∈ live) (hs : size ≤ W32 - 16) :
    ∃ s2 p, mm_realloc s bp size = some (s2, p) ∧
      (p ≠ 0 → ∀ i, i < min size (GET_SIZE s.mem (HDRP bp) - DSIZE) →
        s2.mem (p + i) = s.mem (bp + i)) := by
  obtain ⟨bs, F, hI⟩ := reachable_inv hR
  obtain ⟨l, r, b, hbs, hb, hb1⟩ := hI.block_of_live hbp
  have hbin : b ∈ bs := by rw [hbs]; simp
  have hl := hI.1.hl
  have hm := Tiling_mem hI.1.til hbin
  obtain ⟨s2, p, bs2, F2, m1, -, -, -, mc⟩ := mm_realloc_inv hI (Or.inr hbp) hs
  refine ⟨s2, p, m1, fun hp i hi => ?_⟩
  have e : GET_SIZE s.mem (HDRP bp) = b.size := by
    rw [← hb]; simp only [HDRP, WSIZE]; exact hI.1.get_size hbin
  rw [e] at hi
  simp only [DSIZE, lt_min_iff] at hi
  exact mc (by omega) hp b hbin hb i hi.1 hi.2

theorem C4_realloc_contents_witness :
    ∃ s2 p, mm_realloc st2 4112 100 = some (s2, p) ∧
      (p ≠ 0 → ∀ i, i < min 100 (GET_SIZE st2.mem (HDRP 4112) - DSIZE) →
        s2.mem (p + i) = st2.mem (4112 + i)) :=
  C4_realloc_contents reach_st2 (by decide) (by decide)

/-- C5. In a reachable state the blocks read from the heap tile it from the
first block up to the break, no two consecutive blocks of that list are both
free, and for no block do its header and the header of its right physical
neighbour both have allocated bit 0. -/
theorem C5_no_adjacent_free {s : State} {live : List Nat} (hR : Reachable s live) :
    Tiling (s.heap_listp + DSIZE) (heap_blocks s) s.mem_brk ∧ NoAdj (heap_blocks s) ∧
    ∀ b ∈ heap_blocks s, ¬ (GET_ALLOC s.mem (HDRP b.addr) = 0 ∧
      GET_ALLOC s.mem (HDRP (RIGHT_BLKP s.mem b.addr)) = 0) := by
  have hI := reachable_inv_concrete hR
  refine ⟨hI.1.til, hI.2.2.1, ?_⟩
  rintro b hb ⟨h1, h2⟩
  obtain ⟨l, r, hbs⟩ := List.mem_iff_append.mp hb
  rw [hbs] at hI
  have hbin : b ∈ l ++ b :: r := by simp
  have e1 : GET_ALLOC s.mem (HDRP b.addr) = b.alloc := hI.1.get_alloc hbin
  rw [e1] at h1
  rcases r with _ | ⟨c, t⟩
  · have := hI.1.right_epi
    omega
  · have hcin : c ∈ l ++ b :: c :: t := by simp
    have e2 : RIGHT_BLKP s.mem b.addr = c.addr := hI.1.right_next.1
    have e4 : GET_ALLOC s.mem (HDRP c.addr) = c.alloc := hI.1.get_alloc hcin
    rw [e2, e4] at h2
    have hN : NoAdj (l ++ b :: c :: t) := hI.2.2.1
    have hch := (List.chain'_append.mp hN).2.1
    exact (List.chain'_cons.mp hch).1 ⟨h1, h2⟩

theorem C5_no_adjacent_free_witness :
    Tiling (st2.heap_listp + DSIZE) (heap_blocks st2) st2.mem_brk ∧ NoAdj (heap_blocks st2) ∧
    ∀ b ∈ heap_blocks st2, ¬ (GET_ALLOC st2.mem (HDRP b.addr) = 0 ∧
      GET_ALLOC st2.mem (HDRP (RIGHT_BLKP st2.mem b.addr)) = 0) :=
  C5_no_adjacent_free reach_st2

theorem Seg_pred {m : Mem} : ∀ {L : List Nat} {prev p : Nat}, Seg m prev p L 0 →
    ∀ q ∈ L, SUCC_BLK m q ≠ 0 → SUCC_BLK m q ∈ L ∧ PRED_BLK m (SUCC_BLK m q) = q := by
  intro L
  induction L with
  | nil => intro _ _ _ q hq; simp at hq
  | cons b t ih =>
    intro prev p hS q hq hne
    obtain ⟨h1, h2, h3, h4⟩ := hS
    rcases List.mem_cons.mp hq with rfl | hq
    · simp only [SUCC_BLK, SUCC_PTR, WSIZE, PRED_BLK] at hne ⊢
      cases t with
      | nil => exact absurd h4 hne
      | cons c t =>
        obtain ⟨c1, c2, c3, c4⟩ := h4
        rw [c1]
        exact ⟨by simp, c3⟩
    · have := ih h4 q hq hne
      exact ⟨List.mem_cons_of_mem _ this.1, this.2⟩

/-- C6. In a reachable state, for each of the 20 classes the successor links
from `seg_list[k]` visit a finite list of distinct nodes and end in null, with
a null predecessor at the head and `pred(succ(B)) = B` along the list; every
node is the payload address of a free heap block whose size has class `k`;
and every free heap block is on the list of its class and on no other. -/
theorem C6_index_well_formed {s : State} {live : List Nat} (hR : Reachable s live) :
    (∀ k, k < LEN →
      Seg s.mem 0 (s.seg_list k) (class_list s k) 0 ∧ (class_list s k).Nodup ∧
      (∀ q ∈ class_list s k, SUCC_BLK s.mem q ≠ 0 →
        SUCC_BLK s.mem q ∈ class_list s k ∧ PRED_BLK s.mem (SUCC_BLK s.mem q) = q) ∧
      (s.seg_list k ≠ 0 → PRED_BLK s.mem (s.seg_list k) = 0) ∧
      ∀ q ∈ class_list s k, ∃ b ∈ heap_blocks s, b.addr = q ∧ b.alloc = 0 ∧
        GET_ALLOC s.mem (HDRP q) = 0 ∧ cls (GET_SIZE s.mem (HDRP q)) = k) ∧
    ∀ b ∈ heap_blocks s, b.alloc = 0 →
      cls b.size < LEN ∧ b.addr ∈ class_list s (cls b.size) ∧
      ∀ k, k < LEN → b.addr ∈ class_list s k → k = cls b.size := by
  obtain ⟨hI, hC, -, -⟩ := reachable_inv_concrete hR
  constructor
  · intro k _
    refine ⟨hI.chn k, hI.nd k, Seg_pred (hI.chn k), ?_, ?_⟩
    · intro hne
      have hS := hI.chn k
      cases hL : class_list s k with
      | nil => rw [hL] at hS; exact absurd hS hne
      | cons q t =>
        rw [hL] at hS
        obtain ⟨h1, -, h3, -⟩ := hS
        rw [h1]
        exact h3
    · intro q hq
      obtain ⟨b, hb, h1, h2, h3⟩ := hI.fre k q hq
      refine ⟨b, hb, h1, h2, ?_, ?_⟩
      · rw [← h1]; simp only [HDRP, WSIZE]; rw [hI.get_alloc hb, h2]
      · rw [← h1]; simp only [HDRP, WSIZE]; rw [hI.get_size hb, h3]
  · intro b hb hb0
    refine ⟨cls_lt _, hC b hb hb0, ?_⟩
    intro k _ hk
    exact (hI.listed_blk hb hk).2.symm

theorem C6_index_well_formed_witness :
    (∀ k, k < LEN →
      Seg st2.mem 0 (st2.seg_list k) (class_list st2 k) 0 ∧ (class_list st2 k).Nodup ∧
      (∀ q ∈ class_list st2 k, SUCC_BLK st2.mem q ≠ 0 →
        SUCC_BLK st2.mem q ∈ class_list st2 k ∧ PRED_BLK st2.mem (SUCC_BLK st2.mem q) = q) ∧
      (st2.seg_list k ≠ 0 → PRED_BLK st2.mem (st2.seg_list k) = 0) ∧
      ∀ q ∈ class_list st2 k, ∃ b ∈ heap_blocks st2, b.addr = q ∧ b.alloc = 0 ∧
        GET_ALLOC st2.mem (HDRP q) = 0 ∧ cls (GET_SIZE st2.mem (HDRP q)) = k) ∧
    ∀ b ∈ heap_blocks st2, b.alloc = 0 →
      cls b.size < LEN ∧ b.addr ∈ class_list st2 (cls b.size) ∧
      ∀ k, k < LEN → b.addr ∈ class_list st2 k → k = cls b.size :=
  C6_index_well_formed reach_st2

theorem after_malloc_eq {s : State} {size p : Nat}
    (h : (mm_malloc s size).map Prod.snd = some p) :
    mm_malloc s size = some (after_malloc s size, p) := by
  unfold after_malloc
  cases hm : mm_malloc s size with
  | none => rw [hm] at h; simp at h
  | some r =>
    obtain ⟨s2, q⟩ := r
    rw [hm] at h
    simp at h
    rw [h]

theorem after_free_eq {s : State} {bp : Nat} (h : (mm_free s bp).isSome = true) :
    mm_free s bp = some (after_free s bp) := by
  unfold after_free
  cases hm : mm_free s bp with
  | none => rw [hm] at h; simp at h
  | some r => rfl

theorem reach_st3 : Reachable st3 [4112] :=
  Reachable.malloc st1 st3 [] 16 4112 reach_st1 (by decide) (after_malloc_eq (by decide!))

theorem reach_st4 : Reachable st4 [4136, 4112] :=
  Reachable.malloc st3 st4 [4112] 16 4136 reach_st3 (by decide) (after_malloc_eq (by decide!))

theorem reach_st5 : Reachable st5 [4136] :=
  Reachable.free st4 st5 [4136, 4112] 4112 reach_st4 (by decide) (after_free_eq (by decide!))

/-- C7. The state reached by `mm_init`, `A = mm_malloc(16)`, `B = mm_malloc(16)`,
`mm_free(A)` has class list 4 equal to the block `A` of size 24 followed by
the block at 4160 of size 16: the sizes decrease from head to tail. -/
theorem C7_size_order_violated :
    Reachable st5 [4136] ∧ class_list st5 4 = [4112, 4160] ∧
      GET_SIZE st5.mem (HDRP 4112) = 24 ∧ GET_SIZE st5.mem (HDRP 4160) = 16 :=
  ⟨reach_st5, by decide!, by decide!, by decide!⟩

/-- C8. In a reachable state, when the search of `mm_malloc(size)` finds no
fit and the host refuses the extension, `mm_malloc(size)` returns null and the
state (heap bytes, break, list heads) is the state before the call; the same
holds of `mm_realloc(bp, size)` on a live `bp` that is neither a shrink nor
an absorption of a free right neighbour. -/
theorem C8_oom_atomic {s : State} {live : List Nat} (hR : Reachable s live) {size : Nat}
    (h0 : size ≠ 0)
    (hmiss : search_loop s (adjusted_size size) (LEN + 1) 0 (adjusted_size size) 0 = some 0)
    (hrefuse : mem_sbrk s (ALIGN (MAX (adjusted_size size) CHUNKSIZE)) = none) :
    mm_malloc s size = some (s, 0) ∧
    ∀ bp ∈ live, GET_SIZE s.mem (HDRP bp) - DSIZE ≤ size →
      (GET_ALLOC s.mem (HDRP (RIGHT_BLKP s.mem bp)) = 0 →
        GET_SIZE s.mem (HDRP bp) + GET_SIZE s.mem (HDRP (RIGHT_BLKP s.mem bp)) - DSIZE
          < size) →
      mm_realloc s bp size = some (s, 0) := by
  obtain ⟨bs, F, hI⟩ := reachable_inv hR
  have hl := hI.1.hl
  have hne : s.heap_listp ≠ 0 := by omega
  have hm : mm_malloc s size = some (s, 0) := by
    simp only [mm_malloc, if_neg hne, if_neg h0, hmiss, extend_heap, hrefuse]
    rfl
  refine ⟨hm, ?_⟩
  intro bp hbp h1 h2
  obtain ⟨l, r, b, hbs, hb, hb1⟩ := hI.block_of_live hbp
  rw [hbs] at hI
  have hbin : b ∈ l ++ b :: r := by simp
  have e : GET_SIZE s.mem (HDRP b.addr) = b.size := hI.1.get_size hbin
  rw [← hb] at h1 h2 ⊢
  rw [e] at h1 h2
  simp only [DSIZE] at h1 h2
  have h3 : ∀ c ∈ r.head?, c.alloc = 0 → b.size + c.size - 8 < size := by
    rcases r with _ | ⟨c, t⟩
    · intro c hc; simp at hc
    · intro d hd hc0
      have hcd : c = d := by simpa using hd
      rw [← hcd] at hc0 ⊢
      have hcin : c ∈ l ++ b :: c :: t := by simp
      have e2 : RIGHT_BLKP s.mem b.addr = c.addr := hI.1.right_next.1
      have e3 : GET_SIZE s.mem (HDRP c.addr) = c.size := hI.1.get_size hcin
      have e4 : GET_ALLOC s.mem (HDRP c.addr) = c.alloc := hI.1.get_alloc hcin
      rw [e2, e3, e4] at h2
      exact h2 hc0
  rw [realloc_to_copy hI.1 h0 h1 h3]
  simp only [realloc_copy, hm]
  rfl

theorem C8_oom_atomic_witness :
    mm_malloc st2 5000 = some (st2, 0) ∧
    ∀ bp ∈ [4112], GET_SIZE st2.mem (HDRP bp) - DSIZE ≤ 5000 →
      (GET_ALLOC st2.mem (HDRP (RIGHT_BLKP st2.mem bp)) = 0 →
        GET_SIZE st2.mem (HDRP bp) + GET_SIZE st2.mem (HDRP (RIGHT_BLKP st2.mem bp)) - DSIZE
          < 5000) →
      mm_realloc st2 bp 5000 = some (st2, 0) :=
  C8_oom_atomic reach_st2 (by decide) (by decide!) (Option.isNone_iff_eq_none.mp (by decide!))

/-- C9. In a reachable state, for a live `bp` of block size `cur` whose right
neighbour `R` is free, and `cur - DSIZE ≤ size ≤ cur + size(R) - DSIZE`,
`mm_realloc(bp, size)` returns `bp`; afterwards the header of `bp` and the
footer at the former end of `R` hold `{cur + size(R), 1}`, the nodes of every
class list are those of before without `R`, and the payload bytes
`[bp, bp + cur - DSIZE)` are unchanged. -/
theorem C9_realloc_absorbs_right {s : State} {live : List Nat} (hR : Reachable s live)
    {bp size : Nat} (hbp : bp ∈ live)
    (hfree : GET_ALLOC s.mem (HDRP (RIGHT_BLKP s.mem bp)) = 0)
    (h1 : GET_SIZE s.mem (HDRP bp) - DSIZE ≤ size)
    (h2 : size ≤
      GET_SIZE s.mem (HDRP bp) + GET_SIZE s.mem (HDRP (RIGHT_BLKP s.mem bp)) - DSIZE) :
    ∃ s2, mm_realloc s bp size = some (s2, bp) ∧
      GET s2.mem (HDRP bp) =
        PACK (GET_SIZE s.mem (HDRP bp) + GET_SIZE s.mem (HDRP (RIGHT_BLKP s.mem bp))) 1 ∧
      GET s2.mem (FTRP s.mem (RIGHT_BLKP s.mem bp)) =
        PACK (GET_SIZE s.mem (HDRP bp) + GET_SIZE s.mem (HDRP (RIGHT_BLKP s.mem bp))) 1 ∧
      (∀ k q, q ∈ class_list s2 k ↔ q ∈ class_list s k ∧ q ≠ RIGHT_BLKP s.mem bp) ∧
      ∀ x, bp ≤ x → x < bp + GET_SIZE s.mem (HDRP bp) - DSIZE → s2.mem x = s.mem x := by
  have hI := reachable_inv_concrete hR
  obtain ⟨l, r, b, hbs, hb, hb1⟩ := hI.block_of_live hbp
  rw [hbs] at hI
  rw [← hb] at hfree h1 h2 ⊢
  rcases r with _ | ⟨c, t⟩
  · have := hI.1.right_epi
    omega
  · have hbin : b ∈ l ++ b :: c :: t := by simp
    have hcin : c ∈ l ++ b :: c :: t := by simp
    have hbm := Tiling_mem hI.1.til hbin
    have hcm := Tiling_mem hI.1.til hcin
    have e1 : GET_SIZE s.mem (HDRP b.addr) = b.size := hI.1.get_size hbin
    have e2 : RIGHT_BLKP s.mem b.addr = c.addr := hI.1.right_next.1
    have tc : c.addr = b.addr + b.size := hI.1.right_next.2
    have e3 : GET_SIZE s.mem (HDRP c.addr) = c.size := hI.1.get_size hcin
    have e4 : GET_ALLOC s.mem (HDRP c.addr) = c.alloc := hI.1.get_alloc hcin
    have e5 : FTRP s.mem c.addr = c.addr + c.size - 8 := by
      simp only [FTRP, e3, DSIZE]
    rw [e2] at hfree h2 ⊢
    rw [e1] at h1
    rw [e1, e3] at h2
    rw [e4] at hfree
    rw [e1, e3, e5]
    simp only [DSIZE] at h1 h2 ⊢
    obtain ⟨s2, F2, m1, i2, f2, p2, -, -⟩ :=
      realloc_absorb hI hb1 hfree (by omega) h1 h2
    have hnb : (⟨b.addr, c.size + b.size, 1⟩ : Blk) ∈ l ++ [⟨b.addr, c.size + b.size, 1⟩] ++ t := by
      simp
    obtain ⟨g1, g2⟩ := i2.1.sto _ hnb
    have ep : PACK (b.size + c.size) 1 = c.size + b.size + 1 := by
      rw [PACK_eq (by omega) (by omega)]; omega
    refine ⟨s2, m1, ?_, ?_, ?_, ?_⟩
    · rw [ep]; exact g1
    · rw [ep]
      have ea : c.addr + c.size - 8 = b.addr + (c.size + b.size) - 8 := by omega
      rw [ea]; exact g2
    · intro k q
      rw [i2.1.lists_eq k]
      exact f2 k q
    · intro x hx1 hx2
      exact p2 x ⟨b, hbin, hb1, hx1, hx2⟩

theorem C9_realloc_absorbs_right_witness :
    ∃ s2, mm_realloc st2 4112 40 = some (s2, 4112) ∧
      GET s2.mem (HDRP 4112) =
        PACK (GET_SIZE st2.mem (HDRP 4112) +
          GET_SIZE st2.mem (HDRP (RIGHT_BLKP st2.mem 4112))) 1 ∧
      GET s2.mem (FTRP st2.mem (RIGHT_BLKP st2.mem 4112)) =
        PACK (GET_SIZE st2.mem (HDRP 4112) +
          GET_SIZE st2.mem (HDRP (RIGHT_BLKP st2.mem 4112))) 1 ∧
      (∀ k q, q ∈ class_list s2 k ↔ q ∈ class_list st2 k ∧ q ≠ RIGHT_BLKP st2.mem 4112) ∧
      ∀ x, 4112 ≤ x → x < 4112 + GET_SIZE st2.mem (HDRP 4112) - DSIZE →
        s2.mem x = st2.mem x :=
  C9_realloc_absorbs_right reach_st2 (by decide) (by decide!) (by decide!) (by decide!)

/-- C10. In a reachable state, for a live `bp` of block size `cur` and
`0 < size < cur - DSIZE`, `mm_realloc(bp, size)` returns `bp` and the state
(every heap byte, the break, every list head) is the state before the call. -/
theorem C10_realloc_shrink_noop {s : State} {live : List Nat} (hR : Reachable s live)
    {bp size : Nat} (hbp : bp ∈ live) (h0 : 0 < size)
    (hlt : size < GET_SIZE s.mem (HDRP bp) - DSIZE) :
    mm_realloc s bp size = some (s, bp) := by
  obtain ⟨bs, F, hI⟩ := reachable_inv hR
  obtain ⟨b, hb, hb1, -⟩ := (hI.2.2.2 bp).mp hbp
  have e : GET_SIZE s.mem (HDRP b.addr) = b.size := hI.1.get_size hb
  rw [← hb1] at hlt ⊢
  rw [e] at hlt
  exact realloc_shrink hI.1 hb (by omega) hlt

theorem C10_realloc_shrink_noop_witness : mm_realloc st2 4112 8 = some (st2, 4112) :=
  C10_realloc_shrink_noop reach_st2 (by decide) (by decide) (by decide!)

theorem ALIGN_val (x : Nat) : ALIGN x = (x + 7) % W32 - (x + 7) % W32 % 8 := by
  unfold ALIGN
  simp only [ALIGNMENT]
  exact and_mask _ (Nat.mod_lt _ (by decide))

theorem class_loop_log (fuel : Nat) : ∀ idx size, 19 ≤ idx + fuel → idx ≤ 19 →
    (class_loop fuel idx size).1 = min 19 (idx + Nat.log 2 size) := by
  induction fuel with
  | zero =>
    intro idx size h h2
    have : idx = 19 := by omega
    subst this
    simp [class_loop]
  | succ f ih =>
    intro idx size h h2
    unfold class_loop
    by_cases hc : idx < LEN - 1 ∧ size > 1
    · rw [if_pos hc]
      have hlt : idx < 19 := hc.1
      rw [ih (idx + 1) (size >>> 1) (by omega) (by omega)]
      have e : Nat.log 2 size = Nat.log 2 (size / 2) + 1 :=
        Nat.log_of_one_lt_of_le (by omega) (by omega)
      rw [Nat.shiftRight_eq_div_pow, pow_one, e]
      congr 1
      omega
    · rw [if_neg hc]
      simp only [LEN] at hc
      by_cases h19 : idx = 19
      · subst h19; simp
      · have hs : size ≤ 1 := by omega
        have e : Nat.log 2 size = 0 := Nat.log_of_lt (by omega)
        rw [e]
        simp only [Nat.add_zero]
        omega

theorem cls_log (size : Nat) : cls size = min 19 (Nat.log 2 size) := by
  unfold cls
  rw [class_loop_log LEN 0 size (by simp [LEN]) (by omega)]
  simp

theorem cls_mono {a b : Nat} (h : a ≤ b) : cls a ≤ cls b := by
  rw [cls_log, cls_log]
  have := Nat.log_mono_right (b := 2) h
  omega

/-- C18. For a request size with `0 < size < 2^32`, the adjusted size of
`mm_malloc` is a multiple of 8, at least `2 * DSIZE` and at least
`size + DSIZE` exactly when `size ≤ 2^32 - 16`; it then exceeds `size + DSIZE`
by less than 8. -/
theorem C18_adjusted_size {size : Nat} (h0 : 0 < size) (h32 : size < W32) :
    ((adjusted_size size % 8 = 0 ∧ 2 * DSIZE ≤ adjusted_size size ∧
      size + DSIZE ≤ adjusted_size size) ↔ size ≤ W32 - 16) ∧
    (size ≤ W32 - 16 → adjusted_size size < size + DSIZE + 8) := by
  have hW : W32 = 4294967296 := rfl
  constructor
  · constructor
    · rintro ⟨-, h16, -⟩
      by_contra hgt
      unfold adjusted_size at h16
      rw [if_neg (by simp only [DSIZE]; omega), ALIGN_val] at h16
      simp only [DSIZE, W32] at h16 hgt h32
      omega
    · intro h
      have := asize_spec (by omega : size ≠ 0) h
      simp only [DSIZE]
      omega
  · intro h
    have := asize_spec (by omega : size ≠ 0) h
    simp only [DSIZE]
    omega

theorem C18_adjusted_size_witness :
    ((adjusted_size 100 % 8 = 0 ∧ 2 * DSIZE ≤ adjusted_size 100 ∧
      100 + DSIZE ≤ adjusted_size 100) ↔ 100 ≤ W32 - 16) ∧
    (100 ≤ W32 - 16 → adjusted_size 100 < 100 + DSIZE + 8) :=
  C18_adjusted_size (by decide) (by decide)

/-- C18 counterexample: for the request size `2^32 - 8`, representable in 32
bits, `size + DSIZE` wraps to 0 and the adjusted size is 0, not at least 16. -/
theorem C18_wraps : 0 < 4294967288 ∧ 4294967288 < W32 ∧ adjusted_size 4294967288 = 0 := by
  decide

/-- C12. `mm_malloc(0)` in a state with `heap_listp` not null returns null and
leaves the state as it is; with `heap_listp` null it first runs `mm_init` and
returns null in the state `mm_init` leaves. -/
theorem C12_malloc_zero (s : State) :
    (s.heap_listp ≠ 0 → mm_malloc s 0 = some (s, 0)) ∧
    (s.heap_listp = 0 → mm_malloc s 0 = (mm_init s).map (fun r => (r.1, 0))) := by
  constructor
  · intro h
    simp only [mm_malloc, if_neg h, if_true]
  · intro h
    simp only [mm_malloc, if_pos h, if_true]
    cases mm_init s <;> rfl

/-- C12 counterexample: on the uninitialised empty heap `s0`, `mm_malloc(0)`
returns null after `mm_init` has moved the break from 4096 to 4176, set
`heap_listp` and `seg_list[6]`, and written the prologue header. -/
theorem C12_uninitialised_changes :
    s0.heap_listp = 0 ∧ mm_malloc s0 0 = some (st1, 0) ∧
      s0.mem_brk = 4096 ∧ st1.mem_brk = 4176 ∧ st1.heap_listp = 4104 ∧
      s0.seg_list 6 = 0 ∧ st1.seg_list 6 = 4112 ∧ s0.mem 4100 = 0 ∧ st1.mem 4100 = 9 :=
  ⟨rfl, rfl, rfl, by decide!, by decide!, rfl, by decide!, rfl, by decide!⟩

theorem shift_big {asize idx : Nat} (h : idx < cls asize) : ¬ asize >>> idx ≤ 1 := by
  rw [cls_log] at h
  have hl : idx + 1 ≤ Nat.log 2 asize := by omega
  have hne : asize ≠ 0 := by
    intro h0
    rw [h0] at hl
    simp at hl
  have hp := Nat.pow_le_of_le_log hne hl
  rw [Nat.shiftRight_eq_div_pow]
  have h2 : 2 ≤ asize / 2 ^ idx := by
    rw [Nat.le_div_iff_mul_le (by positivity)]
    rw [pow_succ] at hp
    omega
  omega

theorem shift_small {asize idx : Nat} (h : cls asize ≤ idx) (h19 : idx < 19) :
    asize >>> idx ≤ 1 := by
  rw [cls_log] at h
  have hl : Nat.log 2 asize < idx + 1 := by omega
  have hp := Nat.lt_pow_of_log_lt (by omega : 1 < 2) hl
  rw [Nat.shiftRight_eq_div_pow]
  have h2 : asize / 2 ^ idx < 2 := by
    rw [Nat.div_lt_iff_lt_mul (by positivity)]
    rw [pow_succ] at hp
    omega
  omega

theorem fit_walk_null (m : Mem) (asize : Nat) {fuel : Nat} (h : 0 < fuel) :
    fit_walk m asize fuel 0 = some 0 := by
  obtain ⟨f, rfl⟩ : ∃ f, fuel = f + 1 := ⟨fuel - 1, by omega⟩
  simp [fit_walk]

/-- From the class of `asize` upward the search of `mm_malloc` examines every
class: an empty class below the last one is skipped, which is what the walk of
an empty list does. -/
theorem search_loop_upper (s : State) (asize : Nat) (hbrk : 0 < s.mem_brk) :
    ∀ n idx, idx + n = LEN → cls asize ≤ idx →
      search_loop s asize (n + 1) idx (asize >>> idx) 0 = spec_search s asize n idx := by
  intro n
  induction n with
  | zero =>
    intro idx h _
    have : ¬ idx < LEN := by omega
    simp [search_loop, spec_search, this]
  | succ n ih =>
    intro idx h hc
    have hlt : idx < LEN := by omega
    have hrec := ih (idx + 1) (by omega) (by omega)
    rw [Nat.shiftRight_add] at hrec
    unfold search_loop spec_search
    rw [if_pos hlt]
    by_cases h2 : idx = LEN - 1 ∨ (asize >>> idx ≤ 1 ∧ s.seg_list idx ≠ 0)
    · rw [if_pos h2]
      cases fit_walk s.mem asize s.mem_brk (s.seg_list idx) with
      | none => rfl
      | some bp =>
        simp only
        by_cases hb : bp ≠ 0
        · rw [if_pos hb, if_pos hb]
        · rw [if_neg hb, if_neg hb]
          have hb0 : bp = 0 := by omega
          rw [hb0]
          exact hrec
    · rw [if_neg h2]
      simp only [LEN] at h2 hlt
      have h19 : idx < 19 := by omega
      have hs := shift_small hc h19
      have h0 : s.seg_list idx = 0 := by
        by_contra hne
        exact h2 (Or.inr ⟨hs, hne⟩)
      rw [h0, fit_walk_null _ _ hbrk]
      simp only [ne_eq, not_true_eq_false, if_false]
      exact hrec

/-- Below the class of `asize` the search of `mm_malloc` examines no class. -/
theorem search_loop_lower (s : State) (asize : Nat) (hbrk : 0 < s.mem_brk) :
    ∀ d idx, idx + d = cls asize →
      search_loop s asize (LEN + 1 - idx) idx (asize >>> idx) 0 =
        spec_search s asize (LEN - cls asize) (cls asize) := by
  intro d
  induction d with
  | zero =>
    intro idx h
    have hc := cls_lt asize
    simp only [Nat.add_zero] at h
    rw [← h]
    have e : LEN + 1 - idx = (LEN - idx) + 1 := by omega
    rw [e]
    exact search_loop_upper s asize hbrk (LEN - idx) idx (by omega) (by omega)
  | succ d ih =>
    intro idx h
    have hc := cls_lt asize
    have hlt : idx < cls asize := by omega
    have hrec := ih (idx + 1) (by omega)
    rw [Nat.shiftRight_add] at hrec
    have e : LEN + 1 - idx = (LEN + 1 - (idx + 1)) + 1 := by omega
    rw [e]
    unfold search_loop
    rw [if_pos (by omega)]
    have h2 : ¬ (idx = LEN - 1 ∨ (asize >>> idx ≤ 1 ∧ s.seg_list idx ≠ 0)) := by
      rintro (h3 | h3)
      · simp only [LEN] at h3 hc; omega
      · exact shift_big hlt h3.1
    rw [if_neg h2]
    exact hrec

theorem search_loop_eq_spec (s : State) (asize : Nat) (hbrk : 0 < s.mem_brk) :
    search_loop s asize (LEN + 1) 0 asize 0 =
      spec_search s asize (LEN - cls asize) (cls asize) := by
  have := search_loop_lower s asize hbrk (cls asize) 0 (by omega)
  simpa using this

/-- C17. The class loop of `insert_node` and `delete_node` computes
`min(19, floor(log2 size))`, a class below 20 that is monotone in the size; and
the search of `mm_malloc` for `asize` is the search that starts at that class
of `asize` and examines every class from there up to class 19. -/
theorem C17_class_function (s : State) (asize : Nat) (hbrk : 0 < s.mem_brk) :
    (∀ size, (class_loop LEN 0 size).1 = min (LEN - 1) (Nat.log 2 size)) ∧
    (∀ size, (class_loop LEN 0 size).1 < LEN) ∧
    (∀ a b, a ≤ b → (class_loop LEN 0 a).1 ≤ (class_loop LEN 0 b).1) ∧
    search_loop s asize (LEN + 1) 0 asize 0 =
      spec_search s asize (LEN - (class_loop LEN 0 asize).1) (class_loop LEN 0 asize).1 :=
  ⟨cls_log, cls_lt, fun _ _ h => cls_mono h, search_loop_eq_spec s asize hbrk⟩

theorem C17_class_function_witness :
    (∀ size, (class_loop LEN 0 size).1 = min (LEN - 1) (Nat.log 2 size)) ∧
    (∀ size, (class_loop LEN 0 size).1 < LEN) ∧
    (∀ a b, a ≤ b → (class_loop LEN 0 a).1 ≤ (class_loop LEN 0 b).1) ∧
    search_loop st2 32 (LEN + 1) 0 32 0 =
      spec_search st2 32 (LEN - (class_loop LEN 0 32).1) (class_loop LEN 0 32).1 :=
  C17_class_function st2 32 (by decide!)

/-- Under the representation invariant the search over the classes from `k`
upward returns the first fit, in list order, of the lowest class that has one,
and null when no class from `k` upward has a fit. -/
theorem spec_search_first {s : State} {bs : List Blk} {F : Nat → List Nat} (h : Rep s bs F)
    (asize : Nat) : ∀ n k, k + n = LEN → ∃ bp, spec_search s asize n k = some bp ∧
      (bp = 0 → ∀ j, k ≤ j → j < LEN → ∀ q ∈ F j, GET_SIZE s.mem (HDRP q) < asize) ∧
      (bp ≠ 0 → ∃ j, k ≤ j ∧ j < LEN ∧
        (F j).find? (fun q => decide (asize ≤ GET_SIZE s.mem (HDRP q))) = some bp ∧
        ∀ i, k ≤ i → i < j → ∀ q ∈ F i, GET_SIZE s.mem (HDRP q) < asize) := by
  intro n
  induction n with
  | zero =>
    intro k hk
    refine ⟨0, rfl, ?_, fun hne => absurd rfl hne⟩
    intro _ j h1 h2
    omega
  | succ n ih =>
    intro k hk
    unfold spec_search
    rw [h.fit asize k]
    simp only
    cases hfind : (F k).find? (fun q => decide (asize ≤ GET_SIZE s.mem (HDRP q))) with
    | none =>
      simp only [Option.getD_none, ne_eq, not_true_eq_false, if_false]
      obtain ⟨bp, e1, e2, e3⟩ := ih (k + 1) (by omega)
      have hnone : ∀ q ∈ F k, GET_SIZE s.mem (HDRP q) < asize := by
        intro q hq
        have := List.find?_eq_none.mp hfind q hq
        simpa using this
      refine ⟨bp, e1, ?_, ?_⟩
      · intro hb j h1 h2 q hq
        by_cases hj : j = k
        · rw [hj] at hq; exact hnone q hq
        · exact e2 hb j (by omega) h2 q hq
      · intro hb
        obtain ⟨j, j1, j2, j3, j4⟩ := e3 hb
        refine ⟨j, by omega, j2, j3, ?_⟩
        intro i i1 i2 q hq
        by_cases hi : i = k
        · rw [hi] at hq; exact hnone q hq
        · exact j4 i (by omega) i2 q hq
    | some q =>
      have hq := List.mem_of_find?_eq_some hfind
      have hq0 : q ≠ 0 := Seg_ne_zero (h.chn k) q hq
      simp only [Option.getD_some, ne_eq, hq0, not_false_eq_true, if_true]
      refine ⟨q, rfl, fun hb => absurd hb hq0, fun _ => ⟨k, le_refl _, by omega, hfind, ?_⟩⟩
      intro i i1 i2
      omega

/-- A block listed in a class below the class of `asize` is smaller than
`asize`. -/
theorem Rep.lower_small {s : State} {bs : List Blk} {F : Nat → List Nat} (h : Rep s bs F)
    {asize j : Nat} (hj : j < cls asize) : ∀ q ∈ F j, GET_SIZE s.mem (HDRP q) < asize := by
  intro q hq
  obtain ⟨b, hb, h1, -, h3⟩ := h.fre j q hq
  have e : GET_SIZE s.mem (HDRP b.addr) = b.size := h.get_size hb
  rw [← h1, e]
  by_contra hge
  have := cls_mono (by omega : asize ≤ b.size)
  omega

theorem mm_malloc_code {s : State} {size bp : Nat} (hl : s.heap_listp ≠ 0) (h0 : size ≠ 0)
    (hsearch : search_loop s (adjusted_size size) (LEN + 1) 0 (adjusted_size size) 0 = some bp) :
    (bp = 0 → mm_malloc s size = (extend_heap s (MAX (adjusted_size size) CHUNKSIZE)).bind
      (fun r => if r.2 = 0 then some (r.1, 0)
        else (place r.1 r.2 (adjusted_size size)).map (fun s2 => (s2, r.2)))) ∧
    (bp ≠ 0 → mm_malloc s size = (place s bp (adjusted_size size)).map (fun s2 => (s2, bp))) := by
  constructor
  · intro hb
    simp only [mm_malloc, if_neg hl, if_neg h0, hsearch, hb, if_true]
    cases extend_heap s (MAX (adjusted_size size) CHUNKSIZE) with
    | none => rfl
    | some r => rfl
  · intro hb
    simp only [mm_malloc, if_neg hl, if_neg h0, hsearch, if_neg hb]

/-- C15. In a reachable state the search of `mm_malloc` for `asize` returns;
its result is null exactly when no block on any class list has size at least
`asize`; a result that is not null is the first block in list order of size at
least `asize` on the list of the lowest class `k ≥ class(asize)` that holds
such a block. For a request `size > 0`, `mm_malloc` calls `extend_heap` when
the result for the adjusted size is null, and places the block found
otherwise. -/
theorem C15_search_first_fit {s : State} {live : List Nat} (hR : Reachable s live)
    (asize : Nat) :
    ∃ bp, search_loop s asize (LEN + 1) 0 asize 0 = some bp ∧
      (bp = 0 ↔ ∀ k, k < LEN → ∀ q ∈ class_list s k, GET_SIZE s.mem (HDRP q) < asize) ∧
      (bp ≠ 0 → ∃ k, cls asize ≤ k ∧ k < LEN ∧
        (class_list s k).find? (fun q => decide (asize ≤ GET_SIZE s.mem (HDRP q))) = some bp ∧
        ∀ j, j < k → ∀ q ∈ class_list s j, GET_SIZE s.mem (HDRP q) < asize) ∧
      ∀ size, size ≠ 0 → asize = adjusted_size size →
        (bp = 0 → mm_malloc s size = (extend_heap s (MAX asize CHUNKSIZE)).bind
          (fun r => if r.2 = 0 then some (r.1, 0)
            else (place r.1 r.2 asize).map (fun s2 => (s2, r.2)))) ∧
        (bp ≠ 0 → mm_malloc s size = (place s bp asize).map (fun s2 => (s2, bp))) := by
  obtain ⟨hI, -, -, -⟩ := reachable_inv_concrete hR
  have hl := hI.hl
  have hle := Tiling_le hI.til
  have hbrk : 0 < s.mem_brk := by omega
  have hc := cls_lt asize
  obtain ⟨bp, e1, e2, e3⟩ := spec_search_first hI asize (LEN - cls asize) (cls asize) (by omega)
  rw [← search_loop_eq_spec s asize hbrk] at e1
  have hlow : ∀ j, j < cls asize → ∀ q ∈ class_list s j, GET_SIZE s.mem (HDRP q) < asize :=
    fun j hj => hI.lower_small hj
  refine ⟨bp, e1, ⟨?_, ?_⟩, ?_, ?_⟩
  · intro hb k hk q hq
    by_cases hkc : k < cls asize
    · exact hlow k hkc q hq
    · exact e2 hb k (by omega) hk q hq
  · intro hall
    by_contra hb
    obtain ⟨j, -, j2, j3, -⟩ := e3 hb
    have hm := List.mem_of_find?_eq_some j3
    have hf := List.find?_some j3
    have := hall j j2 bp hm
    simp only [decide_eq_true_eq] at hf
    omega
  · intro hb
    obtain ⟨j, j1, j2, j3, j4⟩ := e3 hb
    refine ⟨j, j1, j2, j3, ?_⟩
    intro i hi q hq
    by_cases hic : i < cls asize
    · exact hlow i hic q hq
    · exact j4 i (by omega) hi q hq
  · intro size h0 ha
    rw [ha] at e1 ⊢
    exact mm_malloc_code (by omega) h0 e1

theorem C15_search_first_fit_witness :
    ∃ bp, search_loop st2 32 (LEN + 1) 0 32 0 = some bp ∧
      (bp = 0 ↔ ∀ k, k < LEN → ∀ q ∈ class_list st2 k, GET_SIZE st2.mem (HDRP q) < 32) ∧
      (bp ≠ 0 → ∃ k, cls 32 ≤ k ∧ k < LEN ∧
        (class_list st2 k).find? (fun q => decide (32 ≤ GET_SIZE st2.mem (HDRP q))) = some bp ∧
        ∀ j, j < k → ∀ q ∈ class_list st2 j, GET_SIZE st2.mem (HDRP q) < 32) ∧
      ∀ size, size ≠ 0 → 32 = adjusted_size size →
        (bp = 0 → mm_malloc st2 size = (extend_heap st2 (MAX 32 CHUNKSIZE)).bind
          (fun r => if r.2 = 0 then some (r.1, 0)
            else (place r.1 r.2 32).map (fun s2 => (s2, r.2)))) ∧
        (bp ≠ 0 → mm_malloc st2 size = (place st2 bp 32).map (fun s2 => (s2, bp))) :=
  C15_search_first_fit reach_st2 32

theorem insert_walk_null (m : Mem) (size prev : Nat) {fuel : Nat} (h : 0 < fuel) :
    insert_walk m size fuel prev 0 = some (prev, 0) := by
  obtain ⟨f, rfl⟩ : ∃ f, fuel = f + 1 := ⟨fuel - 1, by omega⟩
  simp [insert_walk]

theorem coalesce_both_alloc (s : State) (bp : Nat)
    (hl : GET_ALLOC s.mem (HDRP (LEFT_BLKP s.mem bp)) ≠ 0)
    (hr : GET_ALLOC s.mem (HDRP (RIGHT_BLKP s.mem bp)) ≠ 0) : coalesce s bp = some (s, bp) := by
  unfold coalesce
  simp only [ne_eq, hl, hr, not_false_eq_true, and_self, if_true]

/-- The state `mm_init` leaves when the host grants both requests, with the
words of the heap it has written. -/
theorem mm_init_eval (s : State) (h : s.mem_brk + 80 ≤ s.mem_max_addr) :
    ∃ M : Mem, mm_init s = some (State.mk M s.mem_start_brk (s.mem_brk + 80) s.mem_max_addr
        (Function.update (fun _ => 0) 6 (s.mem_brk + 16)) (s.mem_brk + 8), 0) ∧
      GET M s.mem_brk = 0 ∧ GET M (s.mem_brk + 4) = 9 ∧ GET M (s.mem_brk + 8) = 9 ∧
      GET M (s.mem_brk + 12) = 64 ∧ GET M (s.mem_brk + 16) = 0 ∧ GET M (s.mem_brk + 20) = 0 ∧
      GET M (s.mem_brk + 72) = 64 ∧ GET M (s.mem_brk + 76) = 1 := by
  obtain ⟨M, hM⟩ : ∃ M, M = PUT (PUT (PUT (PUT (PUT (PUT (PUT (PUT (PUT s.mem s.mem_brk 0)
      (s.mem_brk + 4) 9) (s.mem_brk + 8) 9) (s.mem_brk + 12) 1) (s.mem_brk + 12) 64)
      (s.mem_brk + 72) 64) (s.mem_brk + 76) 1) (s.mem_brk + 20) 0) (s.mem_brk + 16) 0 :=
    ⟨_, rfl⟩
  have r0 : GET M s.mem_brk = 0 := by
    rw [hM]
    iterate 8 rw [GET_PUT_ne _ _ _ _ (by omega)]
    rw [GET_PUT_same]; rfl
  have r4 : GET M (s.mem_brk + 4) = 9 := by
    rw [hM]
    iterate 7 rw [GET_PUT_ne _ _ _ _ (by omega)]
    rw [GET_PUT_same]; rfl
  have r8 : GET M (s.mem_brk + 8) = 9 := by
    rw [hM]
    iterate 6 rw [GET_PUT_ne _ _ _ _ (by omega)]
    rw [GET_PUT_same]; rfl
  have r12 : GET M (s.mem_brk + 12) = 64 := by
    rw [hM]
    iterate 4 rw [GET_PUT_ne _ _ _ _ (by omega)]
    rw [GET_PUT_same]; rfl
  have r16 : GET M (s.mem_brk + 16) = 0 := by
    rw [hM, GET_PUT_same]; rfl
  have r20 : GET M (s.mem_brk + 20) = 0 := by
    rw [hM, GET_PUT_ne _ _ _ _ (by omega), GET_PUT_same]; rfl
  have r72 : GET M (s.mem_brk + 72) = 64 := by
    rw [hM]
    iterate 3 rw [GET_PUT_ne _ _ _ _ (by omega)]
    rw [GET_PUT_same]; rfl
  have r76 : GET M (s.mem_brk + 76) = 1 := by
    rw [hM]
    iterate 2 rw [GET_PUT_ne _ _ _ _ (by omega)]
    rw [GET_PUT_same]; rfl
  refine ⟨M, ?_, r0, r4, r8, r12, r16, r20, r72, r76⟩
  have e1 : PACK DSIZE 1 = 9 := by decide
  have e2 : PACK 0 1 = 1 := by decide
  have e3 : ALIGN CHUNKSIZE = 64 := by decide
  have e4 : PACK 64 0 = 64 := by decide
  have e5 : class_loop LEN 0 64 = (6, 1) := by decide
  have e6 : 64 % W32 &&& 4294967288 = 64 := by decide
  have hsb : s.mem_brk + 2 * DSIZE ≤ s.mem_max_addr := by simp only [DSIZE]; omega
  have hsb2 : s.mem_brk + 2 * DSIZE + 64 ≤ s.mem_max_addr := by simp only [DSIZE]; omega
  have a1 : s.mem_brk + 16 - 4 = s.mem_brk + 12 := by omega
  have a2 : s.mem_brk + 16 + 64 - 8 = s.mem_brk + 72 := by omega
  have a3 : s.mem_brk + 16 + 64 - 4 = s.mem_brk + 76 := by omega
  have a4 : s.mem_brk + 16 + 64 = s.mem_brk + 80 := by omega
  have a7 : s.mem_brk + 16 + 4 = s.mem_brk + 20 := by omega
  have hv : ∀ (m : Mem) p, GET_SIZE (PUT m p 64) p = 64 := by
    intro m p; unfold GET_SIZE; rw [GET_PUT_same]; decide
  have hfuel2 : 0 < s.mem_brk + 16 + 64 := by omega
  simp only [mm_init, mem_sbrk, if_pos hsb, extend_heap, e3, if_pos hsb2, e1, e2, e4]
  simp only [WSIZE, DSIZE, HDRP, FTRP, RIGHT_BLKP, Nat.reduceMul, a1, hv, a2]
  simp only [GET_SIZE, GET_PUT_ne _ _ _ _
    (show s.mem_brk + 12 + 4 ≤ s.mem_brk + 72 ∨ _ from Or.inl (by omega)), GET_PUT_same]
  simp only [e6, a3, insert_node, e5, insert_walk_null _ _ _ hfuel2, ne_eq, not_true_eq_false,
    if_false, SET_PTR, SUCC_PTR, PRED_PTR, WSIZE, a7, a4, ← hM]
  rw [coalesce_both_alloc]
  · have hne : s.mem_brk + 16 ≠ 0 := by omega
    simp only [if_neg hne]
  · show GET_ALLOC M (HDRP (LEFT_BLKP M (s.mem_brk + 16))) ≠ 0
    have a5 : s.mem_brk + 16 - 8 = s.mem_brk + 8 := by omega
    have a9 : s.mem_brk + 16 - 8 - 4 = s.mem_brk + 4 := by omega
    simp only [GET_ALLOC, HDRP, LEFT_BLKP, GET_SIZE, DSIZE, WSIZE, a5, r8]
    have e : 9 &&& 4294967288 = 8 := by decide
    rw [e, a9, r4]
    decide
  · show GET_ALLOC M (HDRP (RIGHT_BLKP M (s.mem_brk + 16))) ≠ 0
    simp only [GET_ALLOC, HDRP, RIGHT_BLKP, GET_SIZE, WSIZE, a1, r12]
    have e : 64 &&& 4294967288 = 64 := by decide
    rw [e, a3, r76]
    decide

theorem mm_init_refused (s : State) (h : s.mem_max_addr < s.mem_brk + 80) :
    ∃ s2, mm_init s = some (s2, -1) := by
  by_cases hsb : s.mem_brk + 2 * DSIZE ≤ s.mem_max_addr
  · have e3 : ALIGN CHUNKSIZE = 64 := by decide
    have hsb2 : ¬ s.mem_brk + 2 * DSIZE + 64 ≤ s.mem_max_addr := by
      simp only [DSIZE]; omega
    simp only [mm_init, mem_sbrk, if_pos hsb, extend_heap, e3, if_neg hsb2, if_true]
    exact ⟨_, rfl⟩
  · simp only [mm_init, mem_sbrk, if_neg hsb]
    exact ⟨_, rfl⟩

/-- C13. When the host grants 80 bytes above the break `base`, `mm_init`
returns 0 and leaves the break at `base + 80`; the word at `base` is 0, the
words at `base + 4` and `base + 8` are `{8,1}`, the block at payload
`base + 16` has header and footer `{64,0}` and is the only block of the heap,
the last word is `{0,1}`, `heap_listp = base + 8`, `seg_list[6]` is that block
with null predecessor and successor, and every other head is null. When the
host has fewer than 80 bytes, `mm_init` returns -1. -/
theorem C13_init_postcondition (s : State) :
    (s.mem_brk + 80 ≤ s.mem_max_addr → ∃ s2, mm_init s = some (s2, 0) ∧
      s2.mem_start_brk = s.mem_start_brk ∧ s2.mem_brk = s.mem_brk + 80 ∧
      s2.heap_listp = s.mem_brk + 8 ∧
      GET s2.mem s.mem_brk = 0 ∧
      GET s2.mem (s.mem_brk + 4) = PACK DSIZE 1 ∧ GET s2.mem (s.mem_brk + 8) = PACK DSIZE 1 ∧
      GET s2.mem (HDRP (s.mem_brk + 16)) = PACK 64 0 ∧
      GET s2.mem (FTRP s2.mem (s.mem_brk + 16)) = PACK 64 0 ∧
      FTRP s2.mem (s.mem_brk + 16) = s.mem_brk + 72 ∧
      GET s2.mem (s2.mem_brk - WSIZE) = PACK 0 1 ∧
      heap_blocks s2 = [⟨s.mem_brk + 16, 64, 0⟩] ∧
      s2.seg_list 6 = s.mem_brk + 16 ∧ (∀ k, k ≠ 6 → s2.seg_list k = 0) ∧
      PRED_BLK s2.mem (s.mem_brk + 16) = 0 ∧ SUCC_BLK s2.mem (s.mem_brk + 16) = 0) ∧
    (s.mem_max_addr < s.mem_brk + 80 → ∃ s2, mm_init s = some (s2, -1)) := by
  refine ⟨fun h => ?_, mm_init_refused s⟩
  obtain ⟨M, hM, r0, r4, r8, r12, r16, r20, r72, r76⟩ := mm_init_eval s h
  have e1 : PACK DSIZE 1 = 9 := by decide
  have e2 : PACK 0 1 = 1 := by decide
  have e4 : PACK 64 0 = 64 := by decide
  have a1 : s.mem_brk + 16 - 4 = s.mem_brk + 12 := by omega
  have a2 : s.mem_brk + 16 + 64 - 8 = s.mem_brk + 72 := by omega
  have a3 : s.mem_brk + 80 - 4 = s.mem_brk + 76 := by omega
  have a4 : s.mem_brk + 16 + 4 = s.mem_brk + 20 := by omega
  have a5 : s.mem_brk + 16 + 64 - 4 = s.mem_brk + 76 := by omega
  have g12 : GET_SIZE M (s.mem_brk + 12) = 64 := by
    unfold GET_SIZE; rw [r12]; decide
  have g76 : GET_SIZE M (s.mem_brk + 76) = 0 := by
    unfold GET_SIZE; rw [r76]; decide
  have ga : GET_ALLOC M (s.mem_brk + 12) = 0 := by
    unfold GET_ALLOC; rw [r12]; decide
  have hf : FTRP M (s.mem_brk + 16) = s.mem_brk + 72 := by
    simp only [FTRP, HDRP, WSIZE, DSIZE, a1, g12, a2]
  refine ⟨_, hM, rfl, rfl, rfl, r0, ?_, ?_, ?_, ?_, hf, ?_, ?_, ?_, ?_, ?_, ?_⟩
  · rw [e1]; exact r4
  · rw [e1]; exact r8
  · show GET M (HDRP (s.mem_brk + 16)) = PACK 64 0
    simp only [HDRP, WSIZE, a1, e4, r12]
  · show GET M (FTRP M (s.mem_brk + 16)) = PACK 64 0
    rw [hf, e4]; exact r72
  · show GET M (s.mem_brk + 80 - WSIZE) = PACK 0 1
    simp only [WSIZE, a3, e2, r76]
  · show walk_heap M (s.mem_brk + 80) (s.mem_brk + 8 + 8) = _
    obtain ⟨f, hf2⟩ : ∃ f, s.mem_brk + 80 = f + 1 + 1 := ⟨s.mem_brk + 78, by omega⟩
    have a6 : s.mem_brk + 8 + 8 = s.mem_brk + 16 := by omega
    rw [hf2, a6]
    simp only [walk_heap, HDRP, WSIZE, RIGHT_BLKP, a1, g12, ga, a5, g76, if_true]
    simp
  · show Function.update (fun _ => 0) 6 (s.mem_brk + 16) 6 = s.mem_brk + 16
    simp
  · intro k hk
    show Function.update (fun _ => 0) 6 (s.mem_brk + 16) k = 0
    simp [Function.update, hk]
  · exact r16
  · show GET M (SUCC_PTR (s.mem_brk + 16)) = 0
    simp only [SUCC_PTR, WSIZE, a4, r20]

theorem C13_init_postcondition_witness :
    ∃ s2, mm_init s0 = some (s2, 0) ∧
      s2.mem_start_brk = s0.mem_start_brk ∧ s2.mem_brk = s0.mem_brk + 80 ∧
      s2.heap_listp = s0.mem_brk + 8 ∧
      GET s2.mem s0.mem_brk = 0 ∧
      GET s2.mem (s0.mem_brk + 4) = PACK DSIZE 1 ∧ GET s2.mem (s0.mem_brk + 8) = PACK DSIZE 1 ∧
      GET s2.mem (HDRP (s0.mem_brk + 16)) = PACK 64 0 ∧
      GET s2.mem (FTRP s2.mem (s0.mem_brk + 16)) = PACK 64 0 ∧
      FTRP s2.mem (s0.mem_brk + 16) = s0.mem_brk + 72 ∧
      GET s2.mem (s2.mem_brk - WSIZE) = PACK 0 1 ∧
      heap_blocks s2 = [⟨s0.mem_brk + 16, 64, 0⟩] ∧
      s2.seg_list 6 = s0.mem_brk + 16 ∧ (∀ k, k ≠ 6 → s2.seg_list k = 0) ∧
      PRED_BLK s2.mem (s0.mem_brk + 16) = 0 ∧ SUCC_BLK s2.mem (s0.mem_brk + 16) = 0 :=
  (C13_init_postcondition s0).1 (by decide)

/-- A live block that is neither shrunk nor grown into a free right neighbour
is reallocated by `mm_malloc`, `memcpy` and `mm_free`. -/
theorem realloc_fallback {s : State} {live : List Nat} {bs : List Blk} {F : Nat → List Nat}
    (hI : Inv s live bs F) {bp size : Nat} (hbp : bp ∈ live)
    (h1 : GET_SIZE s.mem (HDRP bp) - DSIZE ≤ size)
    (h2 : GET_ALLOC s.mem (HDRP (RIGHT_BLKP s.mem bp)) = 0 →
      GET_SIZE s.mem (HDRP bp) + GET_SIZE s.mem (HDRP (RIGHT_BLKP s.mem bp)) - DSIZE < size) :
    mm_realloc s bp size = realloc_copy s bp size := by
  obtain ⟨l, r, b, hbs, hb, hb1⟩ := hI.block_of_live hbp
  rw [hbs] at hI
  have hbin : b ∈ l ++ b :: r := by simp
  have hbm := Tiling_mem hI.1.til hbin
  have e : GET_SIZE s.mem (HDRP b.addr) = b.size := hI.1.get_size hbin
  rw [← hb] at h1 h2 ⊢
  rw [e] at h1 h2
  simp only [DSIZE] at h1 h2
  have h3 : ∀ c ∈ r.head?, c.alloc = 0 → b.size + c.size - 8 < size := by
    rcases r with _ | ⟨c, t⟩
    · intro c hc; simp at hc
    · intro d hd hc0
      have hcd : c = d := by simpa using hd
      rw [← hcd] at hc0 ⊢
      have hcin : c ∈ l ++ b :: c :: t := by simp
      have e2 : RIGHT_BLKP s.mem b.addr = c.addr := hI.1.right_next.1
      have e3 : GET_SIZE s.mem (HDRP c.addr) = c.size := hI.1.get_size hcin
      have e4 : GET_ALLOC s.mem (HDRP c.addr) = c.alloc := hI.1.get_alloc hcin
      rw [e2, e3, e4] at h2
      exact h2 hc0
  exact realloc_to_copy hI.1 (by omega) h1 h3

/-- The header after the last block is the epilogue: a right neighbour whose
header has size 0 is allocated. -/
theorem Inv.epilogue_alloc {s : State} {live : List Nat} {bs : List Blk} {F : Nat → List Nat}
    (hI : Inv s live bs F) {bp : Nat} (hbp : bp ∈ live)
    (h0 : GET_SIZE s.mem (HDRP (RIGHT_BLKP s.mem bp)) = 0) :
    GET_ALLOC s.mem (HDRP (RIGHT_BLKP s.mem bp)) = 1 := by
  obtain ⟨l, r, b, hbs, hb, hb1⟩ := hI.block_of_live hbp
  rw [hbs] at hI
  rw [← hb] at h0 ⊢
  rcases r with _ | ⟨c, t⟩
  · exact hI.1.right_epi
  · have hcin : c ∈ l ++ b :: c :: t := by simp
    have hcm := Tiling_mem hI.1.til hcin
    have e2 : RIGHT_BLKP s.mem b.addr = c.addr := hI.1.right_next.1
    have e3 : GET_SIZE s.mem (HDRP c.addr) = c.size := hI.1.get_size hcin
    rw [e2, e3] at h0
    omega

theorem copy_size_min (m : Mem) (bp size : Nat) :
    copy_size m bp size = min size (GET_SIZE m (HDRP bp)) := by
  unfold copy_size
  simp only
  split <;> omega

/-- C19. In a reachable state, when `mm_realloc(bp, size)` on a live `bp` of
block size `cur` is neither a shrink nor an absorption of a free right
neighbour, it is `mm_malloc(size)` followed, when that does not return null,
by a `memcpy` of `min(size, cur)` bytes from `bp` to the new block and
`mm_free(bp)`: the copy covers the 8 bytes after the payload of the old block
when `size` reaches them. -/
theorem C19_copy_length {s : State} {live : List Nat} (hR : Reachable s live)
    {bp size : Nat} (hbp : bp ∈ live) (hs : size ≤ W32 - 16)
    (h1 : GET_SIZE s.mem (HDRP bp) - DSIZE ≤ size)
    (h2 : GET_ALLOC s.mem (HDRP (RIGHT_BLKP s.mem bp)) = 0 →
      GET_SIZE s.mem (HDRP bp) + GET_SIZE s.mem (HDRP (RIGHT_BLKP s.mem bp)) - DSIZE < size) :
    ∃ s1 p, mm_malloc s size = some (s1, p) ∧
      (p = 0 → mm_realloc s bp size = some (s1, 0)) ∧
      (p ≠ 0 → copy_size s1.mem bp size = min size (GET_SIZE s.mem (HDRP bp)) ∧
        mm_realloc s bp size =
          (mm_free
            { s1 with mem := memcpy s1.mem p bp (min size (GET_SIZE s.mem (HDRP bp))) }
            bp).map (fun s2 => (s2, p))) := by
  obtain ⟨bs, F, hI⟩ := reachable_inv hR
  have hfb := realloc_fallback hI hbp h1 h2
  obtain ⟨b, hb, hb1, hb2⟩ := (hI.2.2.2 bp).mp hbp
  obtain ⟨s1, p, bs2, F2, m1, i1, st, -, -⟩ := mm_malloc_spec hI hs
  have hb' : b ∈ bs2 := st.2.2.2.2.1 b hb hb2
  have e1 : GET_SIZE s.mem (HDRP b.addr) = b.size := hI.1.get_size hb
  have e2 : GET_SIZE s1.mem (HDRP b.addr) = b.size := i1.1.get_size hb'
  rw [hb1] at e1 e2
  refine ⟨s1, p, m1, ?_, ?_⟩
  · intro hp
    rw [hfb]
    simp only [realloc_copy, m1, hp, if_true]
  · intro hp
    have hc : copy_size s1.mem bp size = min size (GET_SIZE s.mem (HDRP bp)) := by
      rw [copy_size_min, e1, e2]
    refine ⟨hc, ?_⟩
    rw [hfb]
    simp only [realloc_copy, m1, if_neg hp, hc]

theorem C19_copy_length_witness :
    ∃ s1 p, mm_malloc st2 100 = some (s1, p) ∧
      (p = 0 → mm_realloc st2 4112 100 = some (s1, 0)) ∧
      (p ≠ 0 → copy_size s1.mem 4112 100 = min 100 (GET_SIZE st2.mem (HDRP 4112)) ∧
        mm_realloc st2 4112 100 =
          (mm_free
            { s1 with mem := memcpy s1.mem p 4112 (min 100 (GET_SIZE st2.mem (HDRP 4112))) }
            4112).map (fun s2 => (s2, p))) :=
  C19_copy_length reach_st2 (by decide) (by decide) (by decide!) (by decide!)

/-- C19 counterexample: in the state after `mm_init` and `A = mm_malloc(24)`
(block size 32, payload 24 bytes), `mm_realloc(A, 100)` moves the block to
4144 and copies 32 bytes, not `min(100, 32 - 8) = 24`: the byte at offset 24
of the new block, 32 before the call, is afterwards the footer byte 33 of `A`. -/
theorem C19_copies_past_payload :
    mm_malloc st2 100 = some (after_malloc st2 100, 4144) ∧
      copy_size (after_malloc st2 100).mem 4112 100 = 32 ∧
      min 100 (GET_SIZE st2.mem (HDRP 4112) - DSIZE) = 24 ∧
      (mm_realloc st2 4112 100).map Prod.snd = some 4144 ∧
      st2.mem (4112 + 24) = 33 ∧ st2.mem (4144 + 24) = 32 ∧
      (mm_realloc st2 4112 100).map (fun r => r.1.mem (4144 + 24)) = some 33 :=
  ⟨after_malloc_eq (by decide!), by decide!, by decide!, by decide!, by decide!, by decide!,
    by decide!⟩

theorem reach_st6 : Reachable st6 [4112] :=
  Reachable.malloc st1 st6 [] 56 4112 reach_st1 (by decide) (after_malloc_eq (by decide!))

/-- At the heap end `mm_realloc` never grows a block in place. In a reachable
state, for a live `bp` of block size `cur` whose right neighbour is the
epilogue and a request `size ≥ cur - DSIZE`: the epilogue is allocated, so the
call is `mm_malloc`, `memcpy`, `mm_free`. It returns a pointer other than
`bp`: null with the state unchanged, or a new block of capacity at least
`size` that holds the old payload, after which no allocated block is at `bp`. -/
theorem realloc_at_heap_end {s : State} {live : List Nat} (hR : Reachable s live)
    {bp size : Nat} (hbp : bp ∈ live) (hs : size ≤ W32 - 16)
    (hepi : GET_SIZE s.mem (HDRP (RIGHT_BLKP s.mem bp)) = 0)
    (h1 : GET_SIZE s.mem (HDRP bp) - DSIZE ≤ size) :
    GET_ALLOC s.mem (HDRP (RIGHT_BLKP s.mem bp)) = 1 ∧
    mm_realloc s bp size = realloc_copy s bp size ∧
    ∃ s2 p, mm_realloc s bp size = some (s2, p) ∧ p ≠ bp ∧ (p = 0 → s2 = s) ∧
      (p ≠ 0 → GET_ALLOC s2.mem (HDRP p) = 1 ∧ size ≤ GET_SIZE s2.mem (HDRP p) - DSIZE ∧
        (∀ i, i < GET_SIZE s.mem (HDRP bp) - DSIZE → s2.mem (p + i) = s.mem (bp + i)) ∧
        ∀ b ∈ heap_blocks s2, b.alloc = 1 → b.addr ≠ bp) := by
  have hI := reachable_inv_concrete hR
  have ha := hI.epilogue_alloc hbp hepi
  have hfb := realloc_fallback hI hbp h1 (by intro h; omega)
  refine ⟨ha, hfb, ?_⟩
  obtain ⟨l, r, b, hbs, hb, hb1⟩ := hI.block_of_live hbp
  rw [hbs] at hI
  have hbin : b ∈ l ++ b :: r := by simp
  have hbm := Tiling_mem hI.1.til hbin
  have hl := hI.1.hl
  have e : GET_SIZE s.mem (HDRP b.addr) = b.size := hI.1.get_size hbin
  rw [← hb] at h1 hfb hbp ⊢
  rw [e] at h1 ⊢
  simp only [DSIZE] at h1 ⊢
  obtain ⟨s2, p, bs2, F2, c1, c2, c3, -, c5⟩ := realloc_copy_spec hI hb1 hs
  rw [← hfb] at c1
  refine ⟨s2, p, c1, ?_, c2, ?_⟩
  · by_cases hp : p = 0
    · omega
    · intro hpb
      rw [hpb] at c5
      exact (c5 (by omega)).1 hbp
  · intro hp
    obtain ⟨-, ⟨nb, hnb, n1, n2, n3⟩, hcp⟩ := c5 hp
    rw [if_neg hp] at c3
    have hrd := c3.1.block_reads hnb n2 n3
    rw [n1] at hrd
    refine ⟨hrd.1, hrd.2.1, fun i hi => hcp i (by omega) hi, ?_⟩
    intro d hd hd1 hda
    rw [c3.1.blocks_eq] at hd
    have hlive := (c3.2.2.2 b.addr).mpr ⟨d, hd, hda, hd1⟩
    rcases List.mem_cons.mp hlive with h | h
    · rw [← h] at c5
      exact (c5 (by omega)).1 hbp
    · simp at h

theorem realloc_at_heap_end_example :
    GET_ALLOC st6.mem (HDRP (RIGHT_BLKP st6.mem 4112)) = 1 ∧
    mm_realloc st6 4112 100 = realloc_copy st6 4112 100 ∧
    ∃ s2 p, mm_realloc st6 4112 100 = some (s2, p) ∧ p ≠ 4112 ∧ (p = 0 → s2 = st6) ∧
      (p ≠ 0 → GET_ALLOC s2.mem (HDRP p) = 1 ∧ 100 ≤ GET_SIZE s2.mem (HDRP p) - DSIZE ∧
        (∀ i, i < GET_SIZE st6.mem (HDRP 4112) - DSIZE → s2.mem (p + i) = st6.mem (4112 + i)) ∧
        ∀ b ∈ heap_blocks s2, b.alloc = 1 → b.addr ≠ 4112) :=
  realloc_at_heap_end reach_st6 (by decide) (by decide) (by decide!) (by decide!)

/-- C11. After `mm_init` and `A = mm_malloc(56)` the block `A` at 4112 has size
64 and the epilogue as right neighbour; `size = 100` does not fit and the host
grants the 112 bytes `mm_malloc` asks for; `mm_realloc(A, 100)` returns 4176,
not `A`: the block at the heap end is moved, not grown in place. -/
theorem C11_not_in_place :
    Reachable st6 [4112] ∧ GET_SIZE st6.mem (HDRP 4112) = 64 ∧
      GET_SIZE st6.mem (HDRP (RIGHT_BLKP st6.mem 4112)) = 0 ∧
      (mem_sbrk st6 (ALIGN (MAX (adjusted_size 100) CHUNKSIZE))).isSome = true ∧
      (mm_realloc st6 4112 100).map Prod.snd = some 4176 :=
  ⟨reach_st6, by decide!, by decide!, by decide!, by decide!⟩

/-- What `Kept` says of the live pointers: a live pointer other than `bp` keeps
its header word and its payload bytes. -/
theorem Inv.frame_of_kept {s s2 : State} {live : List Nat} {bs bs2 : List Blk}
    {F F2 : Nat → List Nat} (hI : Inv s live bs F) (h2 : Rep s2 bs2 F2) {bp : Nat}
    (hK : Kept s bs bp s2 bs2) :
    ∀ q ∈ live, q ≠ bp → GET s2.mem (HDRP q) = GET s.mem (HDRP q) ∧
      ∀ x, q ≤ x → x < q + GET_SIZE s.mem (HDRP q) - DSIZE → s2.mem x = s.mem x := by
  intro q hq hne
  obtain ⟨d, hd, hd1, hd2⟩ := (hI.2.2.2 q).mp hq
  obtain ⟨k1, k2⟩ := hK d hd hd2 (by omega)
  have e : GET_SIZE s.mem (HDRP d.addr) = d.size := hI.1.get_size hd
  rw [← hd1, e]
  refine ⟨?_, fun x hx1 hx2 => k2 x hx1 hx2⟩
  simp only [HDRP, WSIZE]
  rw [(h2.sto d k1).1, (hI.1.sto d hd).1]

/-- C20. In a reachable state, `mm_malloc(size)`, `mm_free(bp)` and
`mm_realloc(bp, size)` with valid arguments return, and every live pointer
`q` other than the `bp` passed keeps its header word and every byte of its
payload `[q, q + size(q) - DSIZE)`. -/
theorem C20_live_payloads_kept {s : State} {live : List Nat} (hR : Reachable s live)
    {size : Nat} (hs : size ≤ W32 - 16) :
    (∃ s2 p, mm_malloc s size = some (s2, p) ∧
      ∀ q ∈ live, GET s2.mem (HDRP q) = GET s.mem (HDRP q) ∧
        ∀ x, q ≤ x → x < q + GET_SIZE s.mem (HDRP q) - DSIZE → s2.mem x = s.mem x) ∧
    (∀ bp ∈ live, ∃ s2, mm_free s bp = some s2 ∧
      ∀ q ∈ live, q ≠ bp → GET s2.mem (HDRP q) = GET s.mem (HDRP q) ∧
        ∀ x, q ≤ x → x < q + GET_SIZE s.mem (HDRP q) - DSIZE → s2.mem x = s.mem x) ∧
    (∀ bp, bp = 0 ∨ bp ∈ live → ∃ s2 p, mm_realloc s bp size = some (s2, p) ∧
      ∀ q ∈ live, q ≠ bp → GET s2.mem (HDRP q) = GET s.mem (HDRP q) ∧
        ∀ x, q ≤ x → x < q + GET_SIZE s.mem (HDRP q) - DSIZE → s2.mem x = s.mem x) := by
  obtain ⟨bs, F, hI⟩ := reachable_inv hR
  have hl := hI.1.hl
  refine ⟨?_, ?_, ?_⟩
  · obtain ⟨s2, p, bs2, F2, m1, i1, st, -, -⟩ := mm_malloc_spec hI hs
    refine ⟨s2, p, m1, ?_⟩
    intro q hq
    obtain ⟨d, hd, hd1, -⟩ := (hI.2.2.2 q).mp hq
    have hm := Tiling_mem hI.1.til hd
    exact hI.frame_of_kept i1.1 (Kept_of_Step st 0) q hq (by omega)
  · intro bp hbp
    obtain ⟨l, r, b, hbs, hb, hb1⟩ := hI.block_of_live hbp
    rw [hbs] at hI
    rw [← hb]
    obtain ⟨s2, F2, f1, f2, st, -⟩ := mm_free_inv hI hb1
    refine ⟨s2, f1, ?_⟩
    have hK : Kept s (l ++ b :: r) b.addr s2 (coalesced l ⟨b.addr, b.size, 0⟩ r) := by
      intro d hd hd1 hne
      have hd' : d ∈ l ++ (⟨b.addr, b.size, 0⟩ : Blk) :: r := by
        rcases List.mem_append.mp hd with h | h
        · exact List.mem_append_left _ h
        · rcases List.mem_cons.mp h with h | h
          · rw [h] at hne; exact absurd rfl hne
          · exact List.mem_append_right _ (List.mem_cons_of_mem _ h)
      exact Kept_of_Step st b.addr d hd' hd1 hne
    exact hI.frame_of_kept f2.1 hK
  · intro bp hbp
    obtain ⟨s2, p, bs2, F2, m1, i1, hK, -, -⟩ := mm_realloc_inv hI hbp hs
    exact ⟨s2, p, m1, hI.frame_of_kept i1.1 hK⟩

theorem C20_live_payloads_kept_witness :
    (∃ s2 p, mm_malloc st4 40 = some (s2, p) ∧
      ∀ q ∈ [4136, 4112], GET s2.mem (HDRP q) = GET st4.mem (HDRP q) ∧
        ∀ x, q ≤ x → x < q + GET_SIZE st4.mem (HDRP q) - DSIZE → s2.mem x = st4.mem x) ∧
    (∀ bp ∈ [4136, 4112], ∃ s2, mm_free st4 bp = some s2 ∧
      ∀ q ∈ [4136, 4112], q ≠ bp → GET s2.mem (HDRP q) = GET st4.mem (HDRP q) ∧
        ∀ x, q ≤ x → x < q + GET_SIZE st4.mem (HDRP q) - DSIZE → s2.mem x = st4.mem x) ∧
    (∀ bp, bp = 0 ∨ bp ∈ [4136, 4112] → ∃ s2 p, mm_realloc st4 bp 40 = some (s2, p) ∧
      ∀ q ∈ [4136, 4112], q ≠ bp → GET s2.mem (HDRP q) = GET st4.mem (HDRP q) ∧
        ∀ x, q ≤ x → x < q + GET_SIZE st4.mem (HDRP q) - DSIZE → s2.mem x = st4.mem x) :=
  C20_live_payloads_kept reach_st4 (by decide)

theorem left_absorbed_eq {s : State} {l r : List Blk} {b : Blk} {F : Nat → List Nat}
    (h : Rep s (l ++ b :: r) F) :
    left_absorbed s.mem b.addr = (absorb_left l).2 ∧
      (GET_ALLOC s.mem (HDRP (LEFT_BLKP s.mem b.addr)) = 0 →
        16 ≤ (absorb_left l).2 ∧ LEFT_BLKP s.mem b.addr + (absorb_left l).2 = b.addr) := by
  unfold left_absorbed
  rcases left_info h with ⟨h1, h2, -⟩ | ⟨h1, l0, a, h2, h3, h4⟩
  · rw [if_neg (by omega), h2]
    exact ⟨rfl, fun h0 => by omega⟩
  · rw [if_pos h1, h4]
    rw [h2] at h
    have h' : Rep s (l0 ++ a :: b :: r) F := by simpa using h
    have ha : a ∈ l0 ++ a :: b :: r := by simp
    have hm := Tiling_mem h'.til ha
    have e := h'.left_blkp
    have e2 : GET_SIZE s.mem (HDRP a.addr) = a.size := h'.get_size ha
    rw [e.1, e2]
    exact ⟨rfl, fun _ => ⟨hm.2.2.2.1, e.2⟩⟩

theorem right_absorbed_eq {s : State} {l r : List Blk} {b : Blk} {F : Nat → List Nat}
    (h : Rep s (l ++ b :: r) F) :
    right_absorbed s.mem b.addr = (absorb_right r).2 ∧
      (GET_ALLOC s.mem (HDRP (RIGHT_BLKP s.mem b.addr)) = 0 → 16 ≤ (absorb_right r).2) := by
  unfold right_absorbed
  rcases right_info h with ⟨h1, h2, -⟩ | ⟨h1, c, t, h2, h3, h4⟩
  · rw [if_neg (by omega), h2]
    exact ⟨rfl, fun h0 => by omega⟩
  · rw [if_pos h1, h4]
    rw [h2] at h
    have hc : c ∈ l ++ b :: c :: t := by simp
    have hm := Tiling_mem h.til hc
    have e2 : GET_SIZE s.mem (HDRP c.addr) = c.size := h.get_size hc
    rw [h.right_next.1, e2]
    exact ⟨rfl, fun _ => hm.2.2.2.1⟩

/-- An address strictly inside a block of the heap is on no class list. -/
theorem Rep.inside_unlisted {s : State} {bs : List Blk} {F : Nat → List Nat} (h : Rep s bs F)
    {nb : Blk} (hnb : nb ∈ bs) {q : Nat} (h1 : nb.addr < q) (h2 : q < nb.addr + nb.size)
    (k : Nat) : q ∉ F k := by
  intro hq
  obtain ⟨d, hd, hd1, -, -⟩ := h.fre k q hq
  have hm := Tiling_mem h.til hd
  rcases Tiling_sep h.til hd hnb with e | e | e
  · rw [e] at hd1; omega
  · omega
  · omega

/-- C14. In a reachable state, `mm_free(bp)` on a live `bp` of block size `s`
returns; where the heap was `l`, the block of `bp`, `r`, it is afterwards `l`
without a free last block, one free block, and `r` without a free first
block. The free block has payload address `bp` less the size of a free left
neighbour, and size `s` plus the sizes of the free neighbours; its header and
footer hold that size with allocated bit 0; it is on the list of the class of
its size and of no other class; the addresses of `bp` (when the left
neighbour was free) and of a free right neighbour are on no list. -/
theorem C14_free_merges_neighbours {s : State} {live : List Nat} (hR : Reachable s live)
    {bp : Nat} (hbp : bp ∈ live) :
    ∃ s2 l r, mm_free s bp = some s2 ∧
      heap_blocks s = l ++ ⟨bp, GET_SIZE s.mem (HDRP bp), 1⟩ :: r ∧
      heap_blocks s2 = (absorb_left l).1 ++
        ⟨bp - left_absorbed s.mem bp,
          left_absorbed s.mem bp + GET_SIZE s.mem (HDRP bp) + right_absorbed s.mem bp, 0⟩ ::
        (absorb_right r).1 ∧
      GET s2.mem (HDRP (bp - left_absorbed s.mem bp)) =
        PACK (left_absorbed s.mem bp + GET_SIZE s.mem (HDRP bp) + right_absorbed s.mem bp) 0 ∧
      GET s2.mem (FTRP s2.mem (bp - left_absorbed s.mem bp)) =
        PACK (left_absorbed s.mem bp + GET_SIZE s.mem (HDRP bp) + right_absorbed s.mem bp) 0 ∧
      FTRP s2.mem (bp - left_absorbed s.mem bp) =
        bp + GET_SIZE s.mem (HDRP bp) + right_absorbed s.mem bp - DSIZE ∧
      (∀ k, bp - left_absorbed s.mem bp ∈ class_list s2 k ↔
        k = cls (left_absorbed s.mem bp + GET_SIZE s.mem (HDRP bp) + right_absorbed s.mem bp)) ∧
      (GET_ALLOC s.mem (HDRP (LEFT_BLKP s.mem bp)) = 0 →
        bp - left_absorbed s.mem bp = LEFT_BLKP s.mem bp ∧ ∀ k, bp ∉ class_list s2 k) ∧
      (GET_ALLOC s.mem (HDRP (RIGHT_BLKP s.mem bp)) = 0 →
        ∀ k, RIGHT_BLKP s.mem bp ∉ class_list s2 k) := by
  have hI := reachable_inv_concrete hR
  obtain ⟨l, r, b, hbs, hb, hb1⟩ := hI.block_of_live hbp
  rw [hbs] at hI
  have hbin : b ∈ l ++ b :: r := by simp
  have hbm := Tiling_mem hI.1.til hbin
  have e : GET_SIZE s.mem (HDRP b.addr) = b.size := hI.1.get_size hbin
  obtain ⟨la, la2⟩ := left_absorbed_eq hI.1
  obtain ⟨ra, ra2⟩ := right_absorbed_eq hI.1
  have hrb : RIGHT_BLKP s.mem b.addr = b.addr + b.size := hI.1.right_blkp hbin
  obtain ⟨s2, F2, f1, f2, -, -⟩ := mm_free_inv hI hb1
  have hbl := f2.1.blocks_eq
  have hF2 : ∀ k, class_list s2 k = F2 k := f2.1.lists_eq
  rw [← hb] at hbp ⊢
  rw [e, la, ra, hrb]
  have hco : coalesced l ⟨b.addr, b.size, 0⟩ r = (absorb_left l).1 ++
      ⟨b.addr - (absorb_left l).2, (absorb_left l).2 + b.size + (absorb_right r).2, 0⟩ ::
      (absorb_right r).1 := rfl
  rw [hco] at f2 hbl
  have hnb : (⟨b.addr - (absorb_left l).2, (absorb_left l).2 + b.size + (absorb_right r).2, 0⟩ :
      Blk) ∈ (absorb_left l).1 ++
      ⟨b.addr - (absorb_left l).2, (absorb_left l).2 + b.size + (absorb_right r).2, 0⟩ ::
      (absorb_right r).1 := by simp
  have hnm := Tiling_mem f2.1.til hnb
  obtain ⟨g1, g2⟩ := f2.1.sto _ hnb
  have hft := f2.1.ftrp hnb
  simp only at hnm g1 g2 hft
  have hle : (absorb_left l).2 ≤ b.addr := by
    by_cases h0 : GET_ALLOC s.mem (HDRP (LEFT_BLKP s.mem b.addr)) = 0
    · have := (la2 h0).2; omega
    · have : (absorb_left l).2 = 0 := by
        rw [← la]; unfold left_absorbed; rw [if_neg h0]
      omega
  have ep : PACK ((absorb_left l).2 + b.size + (absorb_right r).2) 0 =
      (absorb_left l).2 + b.size + (absorb_right r).2 + 0 := PACK_eq hnm.2.2.1 (by omega)
  refine ⟨s2, l, r, f1, ?_, hbl, ?_, ?_, ?_, ?_, ?_, ?_⟩
  · rw [hbs, ← Blk.eta1 b hb1]
  · rw [ep]; exact g1
  · rw [ep, hft]; exact g2
  · rw [hft]; simp only [DSIZE]; omega
  · intro k
    rw [hF2]
    constructor
    · intro hk
      exact ((f2.1.listed_blk hnb hk).2).symm
    · intro hk
      rw [hk]
      exact f2.2.1 _ hnb rfl
  · intro h0
    obtain ⟨h16, hL⟩ := la2 h0
    refine ⟨by omega, fun k => ?_⟩
    rw [hF2]
    exact f2.1.inside_unlisted hnb (by show b.addr - (absorb_left l).2 < b.addr; omega)
      (by show b.addr < b.addr - (absorb_left l).2 +
        ((absorb_left l).2 + b.size + (absorb_right r).2); omega) k
  · intro h0
    have h16 := ra2 (by rw [hrb]; exact h0)
    intro k
    rw [hF2]
    exact f2.1.inside_unlisted hnb (by show b.addr - (absorb_left l).2 < b.addr + b.size; omega)
      (by show b.addr + b.size < b.addr - (absorb_left l).2 +
        ((absorb_left l).2 + b.size + (absorb_right r).2); omega) k

theorem C14_free_merges_neighbours_witness :
    ∃ s2 l r, mm_free st5 4136 = some s2 ∧
      heap_blocks st5 = l ++ ⟨4136, GET_SIZE st5.mem (HDRP 4136), 1⟩ :: r ∧
      heap_blocks s2 = (absorb_left l).1 ++
        ⟨4136 - left_absorbed st5.mem 4136,
          left_absorbed st5.mem 4136 + GET_SIZE st5.mem (HDRP 4136) +
            right_absorbed st5.mem 4136, 0⟩ ::
        (absorb_right r).1 ∧
      GET s2.mem (HDRP (4136 - left_absorbed st5.mem 4136)) =
        PACK (left_absorbed st5.mem 4136 + GET_SIZE st5.mem (HDRP 4136) +
          right_absorbed st5.mem 4136) 0 ∧
      GET s2.mem (FTRP s2.mem (4136 - left_absorbed st5.mem 4136)) =
        PACK (left_absorbed st5.mem 4136 + GET_SIZE st5.mem (HDRP 4136) +
          right_absorbed st5.mem 4136) 0 ∧
      FTRP s2.mem (4136 - left_absorbed st5.mem 4136) =
        4136 + GET_SIZE st5.mem (HDRP 4136) + right_absorbed st5.mem 4136 - DSIZE ∧
      (∀ k, 4136 - left_absorbed st5.mem 4136 ∈ class_list s2 k ↔
        k = cls (left_absorbed st5.mem 4136 + GET_SIZE st5.mem (HDRP 4136) +
          right_absorbed st5.mem 4136)) ∧
      (GET_ALLOC st5.mem (HDRP (LEFT_BLKP st5.mem 4136)) = 0 →
        4136 - left_absorbed st5.mem 4136 = LEFT_BLKP st5.mem 4136 ∧
          ∀ k, 4136 ∉ class_list s2 k) ∧
      (GET_ALLOC st5.mem (HDRP (RIGHT_BLKP st5.mem 4136)) = 0 →
        ∀ k, RIGHT_BLKP st5.mem 4136 ∉ class_list s2 k) :=
  C14_free_merges_neighbours reach_st5 (by decide)

/-- With a complete index, the nodes of class list `k` are the addresses of the
free blocks of class `k`. -/
theorem Rep.mem_list_iff {s : State} {bs : List Blk} {F : Nat → List Nat} (h : Rep s bs F)
    (hC : Complete bs F) (k q : Nat) :
    q ∈ F k ↔ ∃ d ∈ bs, d.addr = q ∧ d.alloc = 0 ∧ cls d.size = k := by
  constructor
  · intro hq
    exact h.fre k q hq
  · rintro ⟨d, hd, h1, h2, h3⟩
    rw [← h1, ← h3]
    exact hC d hd h2

theorem placed_cases (b : Blk) (asize : Nat) :
    (16 ≤ b.size - asize ∧
      placed b asize = [⟨b.addr, asize, 1⟩, ⟨b.addr + asize, b.size - asize, 0⟩]) ∨
    (b.size - asize < 16 ∧ placed b asize = [⟨b.addr, b.size, 1⟩]) := by
  unfold placed
  by_cases hc : 16 ≤ b.size - asize
  · left; exact ⟨hc, by rw [if_pos hc]⟩
  · right; exact ⟨by omega, by rw [if_neg hc]⟩

/-- The effect of `place` on the words of the block, on the class lists and on
the blocks of the heap. -/
theorem place_effect {s : State} {l r : List Blk} {b : Blk} {F : Nat → List Nat} {asize : Nat}
    (h : Rep s (l ++ b :: r) F) (hb0 : b.alloc = 0) (hC : Complete (l ++ b :: r) F)
    (hN : NoAdj (l ++ b :: r)) (ha8 : asize % 8 = 0) (ha16 : 16 ≤ asize)
    (hle : asize ≤ b.size) :
    ∃ s2 F2, place s b.addr asize = some s2 ∧ Rep s2 (l ++ placed b asize ++ r) F2 ∧
      (∀ j q, q ∈ F2 j ↔ (q ∈ F j ∧ q ≠ b.addr) ∨
        (16 ≤ b.size - asize ∧ q = b.addr + asize ∧ j = cls (b.size - asize))) ∧
      (16 ≤ b.size - asize →
        GET s2.mem (HDRP b.addr) = PACK asize 1 ∧
        FTRP s2.mem b.addr = b.addr + asize - DSIZE ∧
        GET s2.mem (FTRP s2.mem b.addr) = PACK asize 1 ∧
        GET s2.mem (HDRP (b.addr + asize)) = PACK (b.size - asize) 0 ∧
        FTRP s2.mem (b.addr + asize) = b.addr + b.size - DSIZE ∧
        GET s2.mem (FTRP s2.mem (b.addr + asize)) = PACK (b.size - asize) 0) ∧
      (b.size - asize < 16 →
        GET s2.mem (HDRP b.addr) = PACK b.size 1 ∧
        FTRP s2.mem b.addr = b.addr + b.size - DSIZE ∧
        GET s2.mem (FTRP s2.mem b.addr) = PACK b.size 1) := by
  obtain ⟨s2, F2, p1, p2, p3, -, -, -⟩ := place_spec h hb0 hC hN ha8 ha16 hle
  have hbin : b ∈ l ++ b :: r := by simp
  have hbm := Tiling_mem h.til hbin
  refine ⟨s2, F2, p1, p2, ?_, ?_, ?_⟩
  · intro j q
    rw [p2.mem_list_iff p3, h.mem_list_iff hC]
    constructor
    · rintro ⟨d, hd, d1, d2, d3⟩
      have hdm := Tiling_mem p2.til hd
      rcases placed_cases b asize with ⟨hc, hp⟩ | ⟨hc, hp⟩
      · rw [hp] at hd p2
        have hnb : (⟨b.addr, asize, 1⟩ : Blk) ∈
            l ++ [⟨b.addr, asize, 1⟩, ⟨b.addr + asize, b.size - asize, 0⟩] ++ r := by simp
        have hne : q ≠ b.addr := by
          intro hq
          have := Tiling_addr_inj p2.til hd hnb (by rw [d1, hq])
          rw [this] at d2
          simp at d2
        simp only [List.mem_append, List.mem_cons, List.mem_singleton, List.not_mem_nil,
          or_false] at hd
        rcases hd with (hd | hd | hd) | hd
        · left; exact ⟨⟨d, by simp [hd], d1, d2, d3⟩, hne⟩
        · rw [hd] at d2; simp at d2
        · right
          rw [hd] at d1 d3
          exact ⟨hc, d1.symm, d3.symm⟩
        · left; exact ⟨⟨d, by simp [hd], d1, d2, d3⟩, hne⟩
      · rw [hp] at hd p2
        have hnb : (⟨b.addr, b.size, 1⟩ : Blk) ∈ l ++ [⟨b.addr, b.size, 1⟩] ++ r := by simp
        have hne : q ≠ b.addr := by
          intro hq
          have := Tiling_addr_inj p2.til hd hnb (by rw [d1, hq])
          rw [this] at d2
          simp at d2
        simp only [List.mem_append, List.mem_singleton] at hd
        rcases hd with (hd | hd) | hd
        · left; exact ⟨⟨d, by simp [hd], d1, d2, d3⟩, hne⟩
        · rw [hd] at d2; simp at d2
        · left; exact ⟨⟨d, by simp [hd], d1, d2, d3⟩, hne⟩
    · rintro (⟨⟨d, hd, d1, d2, d3⟩, hne⟩ | ⟨hc, hq, hj⟩)
      · have hdb : d ≠ b := by
          intro e; rw [e] at d1; exact hne d1.symm
        refine ⟨d, ?_, d1, d2, d3⟩
        simp only [List.mem_append, List.mem_cons] at hd ⊢
        rcases hd with hd | hd | hd
        · exact Or.inl (Or.inl hd)
        · exact absurd hd hdb
        · exact Or.inr hd
      · refine ⟨⟨b.addr + asize, b.size - asize, 0⟩, ?_, hq.symm, rfl, hj.symm⟩
        unfold placed
        rw [if_pos hc]
        simp
  · intro hc
    have hp : placed b asize = [⟨b.addr, asize, 1⟩, ⟨b.addr + asize, b.size - asize, 0⟩] := by
      unfold placed; rw [if_pos hc]
    rw [hp] at p2
    have hnb : (⟨b.addr, asize, 1⟩ : Blk) ∈
        l ++ [⟨b.addr, asize, 1⟩, ⟨b.addr + asize, b.size - asize, 0⟩] ++ r := by simp
    have hrb : (⟨b.addr + asize, b.size - asize, 0⟩ : Blk) ∈
        l ++ [⟨b.addr, asize, 1⟩, ⟨b.addr + asize, b.size - asize, 0⟩] ++ r := by simp
    obtain ⟨g1, g2⟩ := p2.sto _ hnb
    obtain ⟨g3, g4⟩ := p2.sto _ hrb
    have f1 := p2.ftrp hnb
    have f2 := p2.ftrp hrb
    simp only at g1 g2 g3 g4 f1 f2
    have e1 : PACK asize 1 = asize + 1 := PACK_eq ha8 (by omega)
    have e2 : PACK (b.size - asize) 0 = b.size - asize + 0 := PACK_eq (by omega) (by omega)
    have a1 : b.addr + asize - 4 = HDRP (b.addr + asize) := rfl
    have a2 : b.addr + asize + (b.size - asize) - 8 = b.addr + b.size - DSIZE := by
      simp only [DSIZE]; omega
    rw [a1] at g3
    rw [a2] at g4 f2
    rw [e1, e2, f1, f2]
    exact ⟨g1, rfl, g2, g3, rfl, g4⟩
  · intro hc
    have hp : placed b asize = [⟨b.addr, b.size, 1⟩] := by
      unfold placed; rw [if_neg (by omega)]
    rw [hp] at p2
    have hnb : (⟨b.addr, b.size, 1⟩ : Blk) ∈ l ++ [⟨b.addr, b.size, 1⟩] ++ r := by simp
    obtain ⟨g1, g2⟩ := p2.sto _ hnb
    have f1 := p2.ftrp hnb
    simp only at g1 g2 f1
    have e1 : PACK b.size 1 = b.size + 1 := PACK_eq hbm.2.2.1 (by omega)
    rw [e1, f1]
    exact ⟨g1, rfl, g2⟩

/-- After `place` the header of the block reports `asize`, or the whole block
when fewer than 16 bytes would remain: `asize` or `asize + 8`. -/
theorem place_size {s : State} {l r : List Blk} {b : Blk} {F : Nat → List Nat} {asize : Nat}
    (h : Rep s (l ++ b :: r) F) (hb0 : b.alloc = 0) (hC : Complete (l ++ b :: r) F)
    (hN : NoAdj (l ++ b :: r)) (ha8 : asize % 8 = 0) (ha16 : 16 ≤ asize)
    (hle : asize ≤ b.size) :
    ∃ s2, place s b.addr asize = some s2 ∧
      (GET_SIZE s2.mem (HDRP b.addr) = asize ∨ GET_SIZE s2.mem (HDRP b.addr) = asize + 8) := by
  obtain ⟨s2, F2, p1, p2, -, -, -⟩ := place_effect h hb0 hC hN ha8 ha16 hle
  have hbin : b ∈ l ++ b :: r := by simp
  have hbm := Tiling_mem h.til hbin
  refine ⟨s2, p1, ?_⟩
  rcases placed_cases b asize with ⟨hc, hp⟩ | ⟨hc, hp⟩
  · rw [hp] at p2
    have hnb : (⟨b.addr, asize, 1⟩ : Blk) ∈
        l ++ [⟨b.addr, asize, 1⟩, ⟨b.addr + asize, b.size - asize, 0⟩] ++ r := by simp
    left
    have e := p2.get_size hnb
    simp only at e
    simp only [HDRP, WSIZE]
    exact e
  · rw [hp] at p2
    have hnb : (⟨b.addr, b.size, 1⟩ : Blk) ∈ l ++ [⟨b.addr, b.size, 1⟩] ++ r := by simp
    have e := p2.get_size hnb
    simp only at e
    simp only [HDRP, WSIZE]
    rw [e]
    omega

theorem mm_malloc_size {s : State} {live : List Nat} {bs : List Blk} {F : Nat → List Nat}
    (h : Inv s live bs F) {size : Nat} (hs : size ≤ W32 - 16) :
    ∃ s2 p, mm_malloc s size = some (s2, p) ∧
      (p ≠ 0 → GET_SIZE s2.mem (HDRP p) = adjusted_size size ∨
        GET_SIZE s2.mem (HDRP p) = adjusted_size size + 8) := by
  obtain ⟨hR, hC, hN, hlive⟩ := h
  have hl := hR.hl
  have hl0 : s.heap_listp ≠ 0 := by omega
  by_cases h0 : size = 0
  · refine ⟨s, 0, ?_, fun hp => absurd rfl hp⟩
    simp [mm_malloc, hl0, h0]
  obtain ⟨a8, a16, ale, aub⟩ := asize_spec h0 hs
  obtain ⟨bp, hsr, hbp⟩ := search_loop_sound hR (adjusted_size size) (LEN + 1) 0
    (adjusted_size size)
  obtain ⟨c1, c2⟩ := mm_malloc_code hl0 h0 hsr
  by_cases hbp0 : bp = 0
  · rw [c1 hbp0]
    have hm32 := hR.max
    have hbrk := hR.brk
    obtain ⟨w, hw⟩ : ∃ w, w = MAX (adjusted_size size) CHUNKSIZE := ⟨_, rfl⟩
    have w8 : w % 8 = 0 := by
      rw [hw]; unfold MAX CHUNKSIZE; split <;> omega
    have hW : W32 = 4294967296 := rfl
    have wle : adjusted_size size ≤ w ∧ 64 ≤ w ∧ (w = adjusted_size size ∨ w = 64) := by
      rw [hw]; unfold MAX CHUNKSIZE; split <;> omega
    rw [← hw]
    by_cases hmax : s.mem_brk + w ≤ s.mem_max_addr
    · obtain ⟨s1, F1, e1, e2, e3, e4, -, -, -⟩ :=
        extend_heap_spec hR hC hN w8 (by omega) hmax
      have hcb := coalesced_blk_mem bs [] ⟨s.mem_brk, w, 0⟩
      have hcbsz := coalesced_blk_size bs [] ⟨s.mem_brk, w, 0⟩
      obtain ⟨cb, hcbdef⟩ : ∃ cb, cb = coalesced_blk bs ⟨s.mem_brk, w, 0⟩ [] := ⟨_, rfl⟩
      have hcb0 : cb.alloc = 0 := by rw [hcbdef]; rfl
      rw [← hcbdef] at hcb hcbsz e1
      have hcbm := Tiling_mem e2.til hcb
      have hl1 := e2.hl
      have hcbne : cb.addr ≠ 0 := by omega
      obtain ⟨l2, r2, hbs1⟩ := List.mem_iff_append.mp hcb
      rw [hbs1] at e2 e3 e4
      obtain ⟨s2, p1, p2⟩ := place_size e2 hcb0 e3 e4 a8 a16 (by simp only at hcbsz; omega)
      refine ⟨s2, cb.addr, ?_, fun _ => p2⟩
      simp only [e1, Option.some_bind, if_neg hcbne, p1, Option.map_some']
    · have := extend_heap_fail (s := s) w8 (by omega) (by omega)
      refine ⟨s, 0, ?_, fun hp => absurd rfl hp⟩
      simp only [this, Option.some_bind, if_true]
  · rw [c2 hbp0]
    rcases hbp with hbp | ⟨k, hk, hsz⟩
    · exact absurd hbp hbp0
    obtain ⟨b, hb, hb1, hb2, -⟩ := hR.listed hk
    subst hb1
    simp only [HDRP, WSIZE] at hsz
    rw [hR.get_size hb] at hsz
    obtain ⟨l2, r2, hbs⟩ := List.mem_iff_append.mp hb
    subst hbs
    obtain ⟨s2, p1, p2⟩ := place_size hR hb2 hC hN a8 a16 hsz
    refine ⟨s2, b.addr, ?_, fun _ => p2⟩
    simp only [p1, Option.map_some']

/-- C16. In a state that satisfies the heap invariant, for a block `bp` on a
class list, of size `c`, and `asize` a multiple of 8 with `16 ≤ asize ≤ c`:
`place(bp, asize)` returns; the heap afterwards has, in place of the block,
the allocated block of size `asize` and the free remainder of size
`c - asize` when `c - asize ≥ 16`, and the allocated block of size `c`
otherwise, with those words in headers and footers; the class lists lose `bp`
and gain only the remainder, on the list of the class of its size. And
`mm_malloc(size)` returns a block whose header reports the adjusted size or 8
more. -/
theorem C16_place_split {s : State} {live : List Nat}
    (hI : Inv s live (heap_blocks s) (class_list s)) {bp k asize : Nat}
    (hk : bp ∈ class_list s k) (ha8 : asize % 8 = 0) (ha16 : 16 ≤ asize)
    (hle : asize ≤ GET_SIZE s.mem (HDRP bp)) :
    (∃ s2 l r, place s bp asize = some s2 ∧
      heap_blocks s = l ++ ⟨bp, GET_SIZE s.mem (HDRP bp), 0⟩ :: r ∧
      heap_blocks s2 = l ++ placed ⟨bp, GET_SIZE s.mem (HDRP bp), 0⟩ asize ++ r ∧
      (∀ j q, q ∈ class_list s2 j ↔ (q ∈ class_list s j ∧ q ≠ bp) ∨
        (16 ≤ GET_SIZE s.mem (HDRP bp) - asize ∧ q = bp + asize ∧
          j = cls (GET_SIZE s.mem (HDRP bp) - asize))) ∧
      (16 ≤ GET_SIZE s.mem (HDRP bp) - asize →
        GET s2.mem (HDRP bp) = PACK asize 1 ∧
        FTRP s2.mem bp = bp + asize - DSIZE ∧
        GET s2.mem (FTRP s2.mem bp) = PACK asize 1 ∧
        GET s2.mem (HDRP (bp + asize)) = PACK (GET_SIZE s.mem (HDRP bp) - asize) 0 ∧
        FTRP s2.mem (bp + asize) = bp + GET_SIZE s.mem (HDRP bp) - DSIZE ∧
        GET s2.mem (FTRP s2.mem (bp + asize)) = PACK (GET_SIZE s.mem (HDRP bp) - asize) 0) ∧
      (GET_SIZE s.mem (HDRP bp) - asize < 16 →
        GET s2.mem (HDRP bp) = PACK (GET_SIZE s.mem (HDRP bp)) 1 ∧
        FTRP s2.mem bp = bp + GET_SIZE s.mem (HDRP bp) - DSIZE ∧
        GET s2.mem (FTRP s2.mem bp) = PACK (GET_SIZE s.mem (HDRP bp)) 1)) ∧
    ∀ size, size ≤ W32 - 16 → ∃ s2 p, mm_malloc s size = some (s2, p) ∧
      (p ≠ 0 → GET_SIZE s2.mem (HDRP p) = adjusted_size size ∨
        GET_SIZE s2.mem (HDRP p) = adjusted_size size + 8) := by
  refine ⟨?_, fun size hs => mm_malloc_size hI hs⟩
  obtain ⟨hR, hC, hN, -⟩ := hI
  obtain ⟨b, hb, hb1, hb0, -⟩ := hR.fre k bp hk
  obtain ⟨l, r, hbs⟩ := List.mem_iff_append.mp hb
  rw [hbs] at hR hC hN
  have hbin : b ∈ l ++ b :: r := by simp
  have e : GET_SIZE s.mem (HDRP b.addr) = b.size := hR.get_size hbin
  rw [← hb1] at hle ⊢
  rw [e] at hle ⊢
  obtain ⟨s2, F2, p1, p2, p3, p4, p5⟩ := place_effect hR hb0 hC hN ha8 ha16 hle
  have hF2 : ∀ j, class_list s2 j = F2 j := p2.lists_eq
  have eb : (⟨b.addr, b.size, 0⟩ : Blk) = b := Blk.eta0 b hb0
  rw [eb]
  refine ⟨s2, l, r, p1, hbs, p2.blocks_eq, ?_, p4, p5⟩
  intro j q
  rw [hF2 j]
  exact p3 j q

theorem C16_place_split_witness :
    (∃ s2 l r, place st2 4144 16 = some s2 ∧
      heap_blocks st2 = l ++ ⟨4144, GET_SIZE st2.mem (HDRP 4144), 0⟩ :: r ∧
      heap_blocks s2 = l ++ placed ⟨4144, GET_SIZE st2.mem (HDRP 4144), 0⟩ 16 ++ r ∧
      (∀ j q, q ∈ class_list s2 j ↔ (q ∈ class_list st2 j ∧ q ≠ 4144) ∨
        (16 ≤ GET_SIZE st2.mem (HDRP 4144) - 16 ∧ q = 4144 + 16 ∧
          j = cls (GET_SIZE st2.mem (HDRP 4144) - 16))) ∧
      (16 ≤ GET_SIZE st2.mem (HDRP 4144) - 16 →
        GET s2.mem (HDRP 4144) = PACK 16 1 ∧
        FTRP s2.mem 4144 = 4144 + 16 - DSIZE ∧
        GET s2.mem (FTRP s2.mem 4144) = PACK 16 1 ∧
        GET s2.mem (HDRP (4144 + 16)) = PACK (GET_SIZE st2.mem (HDRP 4144) - 16) 0 ∧
        FTRP s2.mem (4144 + 16) = 4144 + GET_SIZE st2.mem (HDRP 4144) - DSIZE ∧
        GET s2.mem (FTRP s2.mem (4144 + 16)) = PACK (GET_SIZE st2.mem (HDRP 4144) - 16) 0) ∧
      (GET_SIZE st2.mem (HDRP 4144) - 16 < 16 →
        GET s2.mem (HDRP 4144) = PACK (GET_SIZE st2.mem (HDRP 4144)) 1 ∧
        FTRP s2.mem 4144 = 4144 + GET_SIZE st2.mem (HDRP 4144) - DSIZE ∧
        GET s2.mem (FTRP s2.mem 4144) = PACK (GET_SIZE st2.mem (HDRP 4144)) 1)) ∧
    ∀ size, size ≤ W32 - 16 → ∃ s2 p, mm_malloc st2 size = some (s2, p) ∧
      (p ≠ 0 → GET_SIZE s2.mem (HDRP p) = adjusted_size size ∨
        GET_SIZE s2.mem (HDRP p) = adjusted_size size + 8) :=
  C16_place_split (k := 5) (reachable_inv_concrete reach_st2) (by decide!) (by decide)
    (by decide) (by decide!)

/-- The header to the right of a block of the heap is that of the next block,
of size at least 16, or the epilogue, which is allocated: it never has size 0
together with allocated bit 0. -/
theorem Rep.right_not_free_empty {s : State} {bs : List Blk} {F : Nat → List Nat}
    (h : Rep s bs F) {b : Blk} (hb : b ∈ bs) :
    ¬ (GET_ALLOC s.mem (HDRP (RIGHT_BLKP s.mem b.addr)) = 0 ∧
      GET_SIZE s.mem (HDRP (RIGHT_BLKP s.mem b.addr)) = 0) := by
  obtain ⟨l, r, hbs⟩ := List.mem_iff_append.mp hb
  rw [hbs] at h
  rintro ⟨h1, h2⟩
  rcases r with _ | ⟨c, t⟩
  · have := h.right_epi
    omega
  · have hcin : c ∈ l ++ b :: c :: t := by simp
    have hcm := Tiling_mem h.til hcin
    have e2 : RIGHT_BLKP s.mem b.addr = c.addr := h.right_next.1
    have e3 : GET_SIZE s.mem (HDRP c.addr) = c.size := h.get_size hcin
    rw [e2, e3] at h2
    omega

theorem mm_realloc_eq_no_grow {s : State} {bp : Nat}
    (hg : ¬ (GET_ALLOC s.mem (HDRP (RIGHT_BLKP s.mem bp)) = 0 ∧
      GET_SIZE s.mem (HDRP (RIGHT_BLKP s.mem bp)) = 0)) (size : Nat) :
    mm_realloc s bp size = mm_realloc_no_grow s bp size := by
  simp only [mm_realloc, mm_realloc_no_grow, if_neg hg]

/-- C21. In a reachable state the prologue and the epilogue are allocated and
every block of the heap has size at least 16, so no header has allocated bit 0
together with size 0; for every block, and so for every live `bp`, the guard
`!is_right_alloc && !size_of_right` of `mm_realloc` is false on its right
neighbour; and `mm_realloc(bp, size)`, for `bp` null or live and every `size`,
is `mm_realloc` without the heap-extension branch. -/
theorem C21_grow_branch_dead {s : State} {live : List Nat} (hR : Reachable s live) :
    GET_ALLOC s.mem (HDRP s.heap_listp) = 1 ∧ GET s.mem (s.mem_brk - WSIZE) = PACK 0 1 ∧
    (∀ b ∈ heap_blocks s, GET_SIZE s.mem (HDRP b.addr) = b.size ∧ 16 ≤ b.size ∧
      ¬ (GET_ALLOC s.mem (HDRP (RIGHT_BLKP s.mem b.addr)) = 0 ∧
        GET_SIZE s.mem (HDRP (RIGHT_BLKP s.mem b.addr)) = 0)) ∧
    (∀ bp ∈ live, (∃ b ∈ heap_blocks s, b.addr = bp) ∧
      ¬ (GET_ALLOC s.mem (HDRP (RIGHT_BLKP s.mem bp)) = 0 ∧
        GET_SIZE s.mem (HDRP (RIGHT_BLKP s.mem bp)) = 0)) ∧
    ∀ bp, bp = 0 ∨ bp ∈ live → ∀ size,
      mm_realloc s bp size = mm_realloc_no_grow s bp size := by
  have hI := reachable_inv_concrete hR
  have e2 : PACK 0 1 = 1 := by decide
  have hlive : ∀ bp ∈ live, (∃ b ∈ heap_blocks s, b.addr = bp) ∧
      ¬ (GET_ALLOC s.mem (HDRP (RIGHT_BLKP s.mem bp)) = 0 ∧
        GET_SIZE s.mem (HDRP (RIGHT_BLKP s.mem bp)) = 0) := by
    intro bp hbp
    obtain ⟨b, hb, hb1, -⟩ := (hI.2.2.2 bp).mp hbp
    rw [← hb1]
    exact ⟨⟨b, hb, rfl⟩, hI.1.right_not_free_empty hb⟩
  refine ⟨?_, by rw [e2]; exact hI.1.epi, ?_, hlive, ?_⟩
  · simp only [GET_ALLOC, HDRP, WSIZE]
    rw [hI.1.pro_h]
    decide
  · intro b hb
    have hm := Tiling_mem hI.1.til hb
    exact ⟨hI.1.get_size hb, hm.2.2.2.1, hI.1.right_not_free_empty hb⟩
  · intro bp hbp size
    rcases hbp with h0 | hbp
    · rw [h0]
      simp only [mm_realloc, mm_realloc_no_grow, if_true]
    · exact mm_realloc_eq_no_grow (hlive bp hbp).2 size

theorem C21_grow_branch_dead_witness :
    GET_ALLOC st4.mem (HDRP st4.heap_listp) = 1 ∧
    GET st4.mem (st4.mem_brk - WSIZE) = PACK 0 1 ∧
    (∀ b ∈ heap_blocks st4, GET_SIZE st4.mem (HDRP b.addr) = b.size ∧ 16 ≤ b.size ∧
      ¬ (GET_ALLOC st4.mem (HDRP (RIGHT_BLKP st4.mem b.addr)) = 0 ∧
        GET_SIZE st4.mem (HDRP (RIGHT_BLKP st4.mem b.addr)) = 0)) ∧
    (∀ bp ∈ [4136, 4112], (∃ b ∈ heap_blocks st4, b.addr = bp) ∧
      ¬ (GET_ALLOC st4.mem (HDRP (RIGHT_BLKP st4.mem bp)) = 0 ∧
        GET_SIZE st4.mem (HDRP (RIGHT_BLKP st4.mem bp)) = 0)) ∧
    ∀ bp, bp = 0 ∨ bp ∈ [4136, 4112] → ∀ size,
      mm_realloc st4 bp size = mm_realloc_no_grow st4 bp size :=
  C21_grow_branch_dead reach_st4

end MallocLab
